import Mathlib

/-!
# GoLLRB: a left-leaning red-black 2-3 tree with subtree counters

A shallow embedding of `llrb/llrb.go`, `llrb/index.go` and `llrb/util.go`.

* A `*Node` is a value of the inductive type `Node`; the nil pointer is `Node.nil`.
  The tree owns its nodes exclusively, so in-place updates of a node are
  modelled by rebuilding it.
* A Go panic (nil dereference, `panic("rotating a black link")`, `panic("logic")`,
  a nil key handed to an insertion, a failed type assertion in a `Less` method)
  is the result `none`.
* `Key` and `Value` are Go interfaces; they are type classes here.  The
  `Less` method may panic, so it returns `Option Bool`.
* `count` is a Go `int`; it is an `Int` here (the arithmetic on it is `+ 1`,
  `- 1` and sums/differences of counters, far from the 64-bit range).
* The three deletion walks recurse on a node that was rebuilt by a rotation, so
  they carry a fuel argument; the public methods start them with more fuel
  than the tree has nodes, and running out of fuel is `none` as well.
-/

namespace llrb

/-- Go interface `Key`: `Less(than Key) bool`.  `Less` is `none` when the method
panics.  `isPInf x` and `isNInf x` are the identity tests `x == pinf` and
`x == ninf` that `less` performs on an interface value. -/
class Key (K : Type) where
  Less : K → K → Option Bool
  isPInf : K → Bool
  isNInf : K → Bool

/-- Go interface `Value`: `Update(value Value)` changes the receiver in place;
`Update old v` is the receiver after the call. -/
class Value (V : Type) where
  Update : V → V → V

/-- The struct `Node`; `nil` is the nil pointer. -/
inductive Node (K V : Type) where
  | nil : Node K V
  | mk (Key : K) (Value : V) (Left Right : Node K V) (count : Int) (Black : Bool) : Node K V
  deriving DecidableEq, Repr

/-- The struct `LLRB`. -/
structure LLRB (K V : Type) where
  root : Node K V
  deriving DecidableEq, Repr

section Defs

variable {K V : Type}

/-- Source `less(x, y)`: the two sentinels are recognised first, every other
key is compared by its own `Less` method. -/
def less [Key K] (x y : K) : Option Bool :=
  if Key.isPInf x then some false
  else if Key.isNInf x then some true
  else Key.Less x y

/-- Source `New()`. -/
def New : LLRB K V := ⟨Node.nil⟩

/-- The field read `h.Left`, used only where the source has already
established `h != nil`. -/
def Node.Left : Node K V → Node K V
  | .nil => .nil
  | .mk _ _ l _ _ _ => l

/-- The field read `h.Right`, used only where the source has already
established `h != nil`. -/
def Node.Right : Node K V → Node K V
  | .nil => .nil
  | .mk _ _ _ r _ _ => r

/-- The guarded counter read `if h != nil { ... h.count ... }` that the source
writes inline: the counter of a node, and nothing (0) for nil. -/
def Node.cnt : Node K V → Int
  | .nil => 0
  | .mk _ _ _ _ c _ => c

/-- The pointer test `h == nil`. -/
def Node.isNil : Node K V → Bool
  | .nil => true
  | .mk _ _ _ _ _ _ => false

/-- Source `(t *LLRB) Len()`. -/
def LLRB.Len (t : LLRB K V) : Int :=
  match t.root with
  | .nil => 0
  | .mk _ _ _ _ c _ => c

/-- Source `newNode`: a red node with counter 1. -/
def newNode (key : K) (value : V) : Node K V := .mk key value .nil .nil 1 false

/-- Source `isRed`. -/
def isRed : Node K V → Bool
  | .nil => false
  | .mk _ _ _ _ _ b => !b

/-- Source `rotateLeft`: panics when `h.Right` is nil or black. -/
def rotateLeft : Node K V → Option (Node K V)
  | .mk hk hv hl (.mk xk xv xl xr xc xb) hc hb =>
    if xb then none
    else some (.mk xk xv (.mk hk hv hl xl (hc - xc + xl.cnt) false) xr hc hb)
  | _ => none

/-- Source `rotateRight`: panics when `h.Left` is nil or black. -/
def rotateRight : Node K V → Option (Node K V)
  | .mk hk hv (.mk xk xv xl xr xc xb) hr hc hb =>
    if xb then none
    else some (.mk xk xv xl (.mk hk hv xr hr (hc - xc + xr.cnt) false) hc hb)
  | _ => none

/-- Source `flip`: toggles the colour of `h` and of both children; panics when a
child is missing. -/
def flip : Node K V → Option (Node K V)
  | .mk hk hv (.mk lk lv ll lr lc lb) (.mk rk rv rl rr rc rb) hc hb =>
    some (.mk hk hv (.mk lk lv ll lr lc (!lb)) (.mk rk rv rl rr rc (!rb)) hc (!hb))
  | _ => none

/-- Source `moveRedLeft`. -/
def moveRedLeft (h : Node K V) : Option (Node K V) :=
  match flip h with
  | some (.mk hk hv hl hr hc hb) =>
    if isRed hr.Left then
      match rotateRight hr with
      | some hr1 =>
        match rotateLeft (.mk hk hv hl hr1 hc hb) with
        | some h1 => flip h1
        | none => none
      | none => none
    else some (.mk hk hv hl hr hc hb)
  | _ => none

/-- Source `moveRedRight`. -/
def moveRedRight (h : Node K V) : Option (Node K V) :=
  match flip h with
  | some (.mk hk hv hl hr hc hb) =>
    if isRed hl.Left then
      match rotateRight (.mk hk hv hl hr hc hb) with
      | some h1 => flip h1
      | none => none
    else some (.mk hk hv hl hr hc hb)
  | _ => none

/-- The three repair steps shared by `walkUpRot23` and `fixUp`, after the
first rotation: rotate right on two red links in a row, flip on two red
children. -/
def rotRightFlip (h : Node K V) : Option (Node K V) :=
  match (if isRed h.Left && isRed h.Left.Left then rotateRight h else some h) with
  | some h1 => if isRed h1.Left && isRed h1.Right then flip h1 else some h1
  | none => none

/-- Source `walkDownRot23`: the identity. -/
def walkDownRot23 (h : Node K V) : Node K V := h

/-- Source `walkUpRot23`; `h` is never nil at its call sites (a nil `h` panics on
`h.Right`). -/
def walkUpRot23 : Node K V → Option (Node K V)
  | .nil => none
  | .mk hk hv hl hr hc hb =>
    match (if isRed hr && !isRed hl then rotateLeft (.mk hk hv hl hr hc hb)
           else some (.mk hk hv hl hr hc hb)) with
    | some h1 => rotRightFlip h1
    | none => none

/-- Source `fixUp`; a nil `h` panics on `h.Right`. -/
def fixUp : Node K V → Option (Node K V)
  | .nil => none
  | .mk hk hv hl hr hc hb =>
    match (if isRed hr then rotateLeft (.mk hk hv hl hr hc hb)
           else some (.mk hk hv hl hr hc hb)) with
    | some h1 => rotRightFlip h1
    | none => none

/-- The assignment `t.root.Black = true`; panics on a nil root. -/
def setBlack : Node K V → Option (Node K V)
  | .nil => none
  | .mk k v l r c _ => some (.mk k v l r c true)

/-- The guarded assignment `if t.root != nil { t.root.Black = true }`. -/
def blackenRoot : Node K V → Node K V
  | .nil => .nil
  | .mk k v l r c _ => .mk k v l r c true

/-- Source `(t *LLRB) insertNoReplace`; `walkDownRot23` is the identity and is
left out of the walk. -/
def insertNoReplace [Key K] : Node K V → K → V → Option (Node K V)
  | .nil, k, v => some (newNode k v)
  | .mk hk hv hl hr hc hb, k, v =>
    match less k hk with
    | none => none
    | some true =>
      match insertNoReplace hl k v with
      | some hl1 => walkUpRot23 (.mk hk hv hl1 hr (hc + 1) hb)
      | none => none
    | some false =>
      match insertNoReplace hr k v with
      | some hr1 => walkUpRot23 (.mk hk hv hl hr1 (hc + 1) hb)
      | none => none

/-- Source `(t *LLRB) InsertNoReplace`; a nil key (`none`) panics. -/
def LLRB.InsertNoReplace [Key K] (t : LLRB K V) (k : Option K) (v : V) : Option (LLRB K V) :=
  match k with
  | none => none
  | some k =>
    match insertNoReplace t.root k v with
    | some r => (setBlack r).map LLRB.mk
    | none => none

/-- Source `(t *LLRB) replaceOrInsert`.  The result pair is the new subtree and
`replaced` (nil is `none`); the counter is incremented when `replaced == nil`. -/
def replaceOrInsert [Key K] : Node K V → K → V → Option (Node K V × Option K)
  | .nil, k, v => some (newNode k v, some k)
  | .mk hk hv hl hr hc hb, k, v =>
    match less k hk with
    | none => none
    | some true =>
      match replaceOrInsert hl k v with
      | some (hl1, replaced) =>
        (walkUpRot23 (.mk hk hv hl1 hr (if replaced.isNone then hc + 1 else hc) hb)).map
          (fun h => (h, replaced))
      | none => none
    | some false =>
      match less hk k with
      | none => none
      | some true =>
        match replaceOrInsert hr k v with
        | some (hr1, replaced) =>
          (walkUpRot23 (.mk hk hv hl hr1 (if replaced.isNone then hc + 1 else hc) hb)).map
            (fun h => (h, replaced))
        | none => none
      | some false =>
        (walkUpRot23 (.mk k v hl hr hc hb)).map (fun h => (h, some hk))

/-- Source `(t *LLRB) ReplaceOrInsert`: the new tree and the returned key. -/
def LLRB.ReplaceOrInsert [Key K] (t : LLRB K V) (k : Option K) (v : V) :
    Option (LLRB K V × Option K) :=
  match k with
  | none => none
  | some k =>
    match replaceOrInsert t.root k v with
    | some (r, replaced) => (setBlack r).map (fun r1 => (LLRB.mk r1, replaced))
    | none => none

/-- Source `(t *LLRB) updateOrInsert`: `h.count++` is executed on every
branch. -/
def updateOrInsert [Key K] [Value V] : Node K V → K → V → Option (Node K V)
  | .nil, k, v => some (newNode k v)
  | .mk hk hv hl hr hc hb, k, v =>
    match less k hk with
    | none => none
    | some true =>
      match updateOrInsert hl k v with
      | some hl1 => walkUpRot23 (.mk hk hv hl1 hr (hc + 1) hb)
      | none => none
    | some false =>
      match less hk k with
      | none => none
      | some true =>
        match updateOrInsert hr k v with
        | some hr1 => walkUpRot23 (.mk hk hv hl hr1 (hc + 1) hb)
        | none => none
      | some false => walkUpRot23 (.mk hk (Value.Update hv v) hl hr (hc + 1) hb)

/-- Source `(t *LLRB) UpdateOrInsert`. -/
def LLRB.UpdateOrInsert [Key K] [Value V] (t : LLRB K V) (k : Option K) (v : V) :
    Option (LLRB K V) :=
  match k with
  | none => none
  | some k =>
    match updateOrInsert t.root k v with
    | some r => (setBlack r).map LLRB.mk
    | none => none

/-- The tail shared by the three deletion walks: store the new child
(already done by the caller), `if deleted != nil { h.count-- }`, and
`return fixUp(h), deleted`. -/
def finishDelete (hk : K) (hv : V) (hl hr : Node K V) (hc : Int) (hb : Bool)
    (deleted : Option K) : Option (Node K V × Option K) :=
  (fixUp (.mk hk hv hl hr (if deleted.isSome then hc - 1 else hc) hb)).map
    (fun h => (h, deleted))

/-- Source `deleteMin`, with a fuel argument for the recursion on the rebuilt
node. -/
def deleteMin : Nat → Node K V → Option (Node K V × Option K)
  | 0, _ => none
  | _ + 1, .nil => some (.nil, none)
  | fuel + 1, .mk hk hv hl hr hc hb =>
    match hl with
    | .nil => some (.nil, some hk)
    | .mk _ _ hll _ _ _ =>
      match (if !isRed hl && !isRed hll then moveRedLeft (.mk hk hv hl hr hc hb)
             else some (.mk hk hv hl hr hc hb)) with
      | some (.mk k1 v1 l1 r1 c1 b1) =>
        match deleteMin fuel l1 with
        | some (l2, deleted) => finishDelete k1 v1 l2 r1 c1 b1 deleted
        | none => none
      | _ => none

/-- Source `deleteMax`, with a fuel argument. -/
def deleteMax : Nat → Node K V → Option (Node K V × Option K)
  | 0, _ => none
  | _ + 1, .nil => some (.nil, none)
  | fuel + 1, .mk hk hv hl hr hc hb =>
    match (if isRed hl then rotateRight (.mk hk hv hl hr hc hb)
           else some (.mk hk hv hl hr hc hb)) with
    | some (.mk k1 v1 l1 r1 c1 b1) =>
      match r1 with
      | .nil => some (.nil, some k1)
      | .mk _ _ r1l _ _ _ =>
        match (if !isRed r1 && !isRed r1l then moveRedRight (.mk k1 v1 l1 r1 c1 b1)
               else some (.mk k1 v1 l1 r1 c1 b1)) with
        | some (.mk k2 v2 l2 r2 c2 b2) =>
          match deleteMax fuel r2 with
          | some (r3, deleted) => finishDelete k2 v2 l2 r3 c2 b2 deleted
          | none => none
        | _ => none
    | _ => none

/-- Source `(t *LLRB) delete`, with a fuel argument.  On a match with a right
child only `h.Key` is overwritten by the key that `deleteMin` returns. -/
def delete [Key K] : Nat → Node K V → K → Option (Node K V × Option K)
  | 0, _, _ => none
  | _ + 1, .nil, _ => some (.nil, none)
  | fuel + 1, .mk hk hv hl hr hc hb, k =>
    match less k hk with
    | none => none
    | some true =>
      match hl with
      | .nil => some (.mk hk hv hl hr hc hb, none)
      | .mk _ _ hll _ _ _ =>
        match (if !isRed hl && !isRed hll then moveRedLeft (.mk hk hv hl hr hc hb)
               else some (.mk hk hv hl hr hc hb)) with
        | some (.mk k1 v1 l1 r1 c1 b1) =>
          match delete fuel l1 k with
          | some (l2, deleted) => finishDelete k1 v1 l2 r1 c1 b1 deleted
          | none => none
        | _ => none
    | some false =>
      match (if isRed hl then rotateRight (.mk hk hv hl hr hc hb)
             else some (.mk hk hv hl hr hc hb)) with
      | some (.mk k1 v1 l1 r1 c1 b1) =>
        match less k1 k with
        | none => none
        | some lt1 =>
          if !lt1 && r1.isNil then some (.nil, some k1)
          else
            match (if !r1.isNil && !isRed r1 && !isRed r1.Left
                   then moveRedRight (.mk k1 v1 l1 r1 c1 b1)
                   else some (.mk k1 v1 l1 r1 c1 b1)) with
            | some (.mk k2 v2 l2 r2 c2 b2) =>
              match less k2 k with
              | none => none
              | some false =>
                match deleteMin fuel r2 with
                | some (r3, some subDeleted) => finishDelete subDeleted v2 l2 r3 c2 b2 (some k2)
                | _ => none
              | some true =>
                match delete fuel r2 k with
                | some (r3, deleted) => finishDelete k2 v2 l2 r3 c2 b2 deleted
                | none => none
            | _ => none
      | _ => none

/-- The number of nodes of a subtree (not the stored counter). -/
def Node.size : Node K V → Nat
  | .nil => 0
  | .mk _ _ l r _ _ => l.size + r.size + 1

/-- Source `(t *LLRB) DeleteMin`: the new tree and the returned key. -/
def LLRB.DeleteMin (t : LLRB K V) : Option (LLRB K V × Option K) :=
  (deleteMin (t.root.size + 1) t.root).map (fun p => (LLRB.mk (blackenRoot p.1), p.2))

/-- Source `(t *LLRB) DeleteMax`. -/
def LLRB.DeleteMax (t : LLRB K V) : Option (LLRB K V × Option K) :=
  (deleteMax (t.root.size + 1) t.root).map (fun p => (LLRB.mk (blackenRoot p.1), p.2))

/-- Source `(t *LLRB) Delete`. -/
def LLRB.Delete [Key K] (t : LLRB K V) (k : K) : Option (LLRB K V × Option K) :=
  (delete (t.root.size + 1) t.root k).map (fun p => (LLRB.mk (blackenRoot p.1), p.2))

/-- The loop of `(t *LLRB) Get`, started at `h`: `some none` is the result
`nil, nil`. -/
def get [Key K] : Node K V → K → Option (Option (K × V))
  | .nil, _ => some none
  | .mk hk hv hl hr _ _, key =>
    match less key hk with
    | none => none
    | some true => get hl key
    | some false =>
      match less hk key with
      | none => none
      | some true => get hr key
      | some false => some (some (hk, hv))

/-- Source `(t *LLRB) Get`. -/
def LLRB.Get [Key K] (t : LLRB K V) (key : K) : Option (Option (K × V)) := get t.root key

/-- The loop of `(t *LLRB) IndexOf`, started at `h` with running index `i`.
`index.go` names the key type `Item` and the key field `h.Item`; they are `Key`
and `h.Key` of `llrb.go`. -/
def indexOf [Key K] : Node K V → K → Int → Option (Int × Bool)
  | .nil, _, _ => some (0, false)
  | .mk hk _ hl hr _ _, item, i =>
    match less item hk with
    | none => none
    | some true => indexOf hl item i
    | some false =>
      match less hk item with
      | none => none
      | some true => indexOf hr item (i + hl.cnt + 1)
      | some false => some (i + hl.cnt, true)

/-- Source `(t *LLRB) IndexOf`. -/
def LLRB.IndexOf [Key K] (t : LLRB K V) (item : K) : Option (Int × Bool) := indexOf t.root item 0

/-- The loop of `(t *LLRB) IndexOfGreaterOrEqual`, started at `h` with running
index `i` (`Item` and `h.Item` of `index.go` are `Key` and `h.Key`). -/
def indexOfGreaterOrEqual [Key K] : Node K V → K → Int → Option Int
  | .nil, _, i => some i
  | .mk hk _ hl hr _ _, item, i =>
    match less item hk with
    | none => none
    | some true => indexOfGreaterOrEqual hl item i
    | some false =>
      match less hk item with
      | none => none
      | some true => indexOfGreaterOrEqual hr item (i + hl.cnt + 1)
      | some false => some (i + hl.cnt)

/-- Source `(t *LLRB) IndexOfGreaterOrEqual`. -/
def LLRB.IndexOfGreaterOrEqual [Key K] (t : LLRB K V) (item : K) : Option Int :=
  indexOfGreaterOrEqual t.root item 0

/-- The loop of `(t *LLRB) IndexOfLessOrEqual`, started at `h` with running
index `i`; it ends with `return i - 1` when the walk runs out of nodes. -/
def indexOfLessOrEqual [Key K] : Node K V → K → Int → Option Int
  | .nil, _, i => some (i - 1)
  | .mk hk _ hl hr _ _, item, i =>
    match less item hk with
    | none => none
    | some true => indexOfLessOrEqual hl item i
    | some false =>
      match less hk item with
      | none => none
      | some true => indexOfLessOrEqual hr item (i + hl.cnt + 1)
      | some false => some (i + hl.cnt)

/-- Source `(t *LLRB) IndexOfLessOrEqual`. -/
def LLRB.IndexOfLessOrEqual [Key K] (t : LLRB K V) (item : K) : Option Int :=
  indexOfLessOrEqual t.root item 0

/-! ### The invariants of the data model -/

/-- In-order sequence of the stored key/value pairs. -/
def inorder : Node K V → List (K × V)
  | .nil => []
  | .mk k v l r _ _ => inorder l ++ (k, v) :: inorder r

/-- In-order sequence of the stored keys. -/
def keys (h : Node K V) : List K := (inorder h).map Prod.fst

/-- No node has a red right child. -/
def NoRedRight : Node K V → Prop
  | .nil => True
  | .mk _ _ l r _ _ => isRed r = false ∧ NoRedRight l ∧ NoRedRight r

/-- No red node has a red left child (no two red links in a row on a left
spine). -/
def NoRedRedLeft : Node K V → Prop
  | .nil => True
  | .mk _ _ l r _ b => (b = false → isRed l = false) ∧ NoRedRedLeft l ∧ NoRedRedLeft r

/-- No node has two red children. -/
def NoTwoRedChildren : Node K V → Prop
  | .nil => True
  | .mk _ _ l r _ _ => ¬ (isRed l = true ∧ isRed r = true) ∧ NoTwoRedChildren l ∧
      NoTwoRedChildren r

/-- The number of black nodes on every path from `h` down to an empty
position, listed from the leftmost path to the rightmost. -/
def blackCounts : Node K V → List Nat
  | .nil => [0]
  | .mk _ _ l r _ b => (blackCounts l ++ blackCounts r).map (fun n => n + (if b then 1 else 0))

/-- Black-balance: every path from the root to an empty position crosses the
same number of black nodes. -/
def BlackBalanced (h : Node K V) : Prop :=
  ∀ a ∈ blackCounts h, ∀ b ∈ blackCounts h, a = b

/-- Size consistency: every node's counter is 1 plus the counters of its
children (an empty child counts 0). -/
def SizeOK : Node K V → Prop
  | .nil => True
  | .mk _ _ l r c _ => c = 1 + l.cnt + r.cnt ∧ SizeOK l ∧ SizeOK r

/-- The number of black nodes on the leftmost path. -/
def bh : Node K V → Nat
  | .nil => 0
  | .mk _ _ l _ _ b => bh l + (if b then 1 else 0)

/-- Black-balance, node by node: the two children of every node have the same
black height. -/
def Bal : Node K V → Prop
  | .nil => True
  | .mk _ _ l r _ _ => bh l = bh r ∧ Bal l ∧ Bal r

/-- The left-leaning 2-3 structure, node by node: the right child is not red and
a red node has no red left child. -/
def LL : Node K V → Prop
  | .nil => True
  | .mk _ _ l r _ b => isRed r = false ∧ (b = false → isRed l = false) ∧ LL l ∧ LL r

/-- The comparison never panics on the keys of `K`. -/
def Key.NoPanic (K : Type) [Key K] : Prop := ∀ x y : K, ∃ b, less x y = some b

/-- The comparison contract of a key kind: on the keys of `K`, `less` never
panics and decides the strict order `<` of `K`. -/
def Key.Lawful (K : Type) [LinearOrder K] [Key K] : Prop :=
  ∀ x y : K, less x y = some (decide (x < y))

/-- The structural invariants 2 to 4 of the data model, for a tree handle: the
left-leaning 2-3 structure (no red right child, no red node with a red left
child, no node with two red children), black-balance, and a root that is
black (an empty tree has no red root). -/
def LLRB.Balanced23 (t : LLRB K V) : Prop :=
  NoRedRight t.root ∧ NoRedRedLeft t.root ∧ NoTwoRedChildren t.root ∧
    BlackBalanced t.root ∧ isRed t.root = false

/-- The structure of a subtree whose root may still carry a red left link
below a red root: both children are left-leaning and the right one is not
red. -/
def AlmostLL (h : Node K V) : Prop := LL h.Left ∧ LL h.Right ∧ isRed h.Right = false

/-- What an insertion walk returns for a subtree `h`: a non-empty balanced
subtree of the same black height, left-leaning below its root, and
left-leaning at its root too when `h` was not red. -/
def InsPost (h h1 : Node K V) : Prop :=
  h1.isNil = false ∧ Bal h1 ∧ bh h1 = bh h ∧ AlmostLL h1 ∧ (isRed h = false → LL h1)

/-- The second subtree holds the content of the first: the same in-order
sequence, the same root counter and number of nodes, and consistent counters
if the first had them. -/
def Same (h h1 : Node K V) : Prop :=
  inorder h1 = inorder h ∧ h1.cnt = h.cnt ∧ (SizeOK h → SizeOK h1) ∧ h1.size = h.size

/-- The state of a subtree when a deletion walk enters it: balanced, with
left-leaning children, a red root only over two non-red children, and never
two red children. -/
def DelPre (h : Node K V) : Prop :=
  Bal h ∧ LL h.Left ∧ LL h.Right ∧
    (isRed h = true → isRed h.Left = false ∧ isRed h.Right = false) ∧
    ¬ (isRed h.Left = true ∧ isRed h.Right = true)

/-- A black node without a red child (a 2-node); a deletion walk meets one only
at the root. -/
def TwoNode (h : Node K V) : Prop :=
  h.isNil = false ∧ isRed h = false ∧ isRed h.Left = false ∧ isRed h.Right = false

/-- What a deletion walk returns for a subtree `h`: a balanced subtree that is
left-leaning below its root and, unless `h` was a 2-node, left-leaning at the
root, of the same black height, and not red when `h` was not red. -/
def DelPost (h h1 : Node K V) : Prop :=
  Bal h1 ∧ AlmostLL h1 ∧
    (TwoNode h ∨ (LL h1 ∧ bh h1 = bh h ∧ (isRed h = false → isRed h1 = false)))

/-- The one case in which a deletion walk meets a node with a red right child
(after `moveRedRight` rotated): the key sought is not before the node's key, so
the walk goes right. -/
def GoRight [LT K] (h : Node K V) (k : K) : Prop :=
  match h with
  | .nil => True
  | .mk hk _ _ r _ _ => isRed r = true → ¬ k < hk

/-- The height of a subtree: the number of nodes on the longest path from its
root down to an empty position. -/
def height : Node K V → Nat
  | .nil => 0
  | .mk _ _ l r _ _ => max (height l) (height r) + 1

/-- A sequence of `InsertNoReplace` calls applied to an empty tree, one call for
each pair of the list, in order. -/
def insertAll [Key K] (kvs : List (K × V)) : Option (LLRB K V) :=
  kvs.foldl (fun t p => t.bind (fun t1 => t1.InsertNoReplace (some p.1) p.2)) (some New)

/-- Modelled from the spec: `iterator.go`, which holds `AscendGreaterOrEqual`, is not
among the sources (only `iterator_test.go` is).  The spec (4.3) describes a
walk that starts again from the root at every call, yields the keys in sorted
order starting at the lower bound, and calls the visitor once per key; a
visitor that returns false halts the traversal at once.  The visitor is a
function of the key and of the state `σ` its Go closure captures; the walk
returns whether it ran to its end, and the state it leaves.  A node whose key is
before the bound is left out together with its left subtree. -/
def ascendGreaterOrEqual [Key K] {σ : Type} :
    Node K V → K → (K → σ → Bool × σ) → σ → Option (Bool × σ)
  | .nil, _, _, s => some (true, s)
  | .mk hk _ hl hr _ _, lowerBound, visit, s =>
    match less hk lowerBound with
    | none => none
    | some true => ascendGreaterOrEqual hr lowerBound visit s
    | some false =>
      match ascendGreaterOrEqual hl lowerBound visit s with
      | none => none
      | some (false, s1) => some (false, s1)
      | some (true, s1) =>
        match visit hk s1 with
        | (false, s2) => some (false, s2)
        | (true, s2) => ascendGreaterOrEqual hr lowerBound visit s2

/-- Modelled from the spec: `(t *LLRB) AscendGreaterOrEqual(lowerBound, visit)` of the
missing `iterator.go`, started with the visitor state `s`; the result is the
state the visitor is left in. -/
def LLRB.AscendGreaterOrEqual [Key K] {σ : Type} (t : LLRB K V) (lowerBound : K)
    (visit : K → σ → Bool × σ) (s : σ) : Option σ :=
  (ascendGreaterOrEqual t.root lowerBound visit s).map Prod.snd

/-- Modelled from the spec: the walk of `DescendLessOrEqual` of the missing
`iterator.go`, the mirror image of `ascendGreaterOrEqual`: the keys in
descending order starting at the upper bound; a node whose key is after the
bound is left out together with its right subtree. -/
def descendLessOrEqual [Key K] {σ : Type} :
    Node K V → K → (K → σ → Bool × σ) → σ → Option (Bool × σ)
  | .nil, _, _, s => some (true, s)
  | .mk hk _ hl hr _ _, upperBound, visit, s =>
    match less upperBound hk with
    | none => none
    | some true => descendLessOrEqual hl upperBound visit s
    | some false =>
      match descendLessOrEqual hr upperBound visit s with
      | none => none
      | some (false, s1) => some (false, s1)
      | some (true, s1) =>
        match visit hk s1 with
        | (false, s2) => some (false, s2)
        | (true, s2) => descendLessOrEqual hl upperBound visit s2

/-- Modelled from the spec: `(t *LLRB) DescendLessOrEqual(upperBound, visit)` of the
missing `iterator.go`, started with the visitor state `s`. -/
def LLRB.DescendLessOrEqual [Key K] {σ : Type} (t : LLRB K V) (upperBound : K)
    (visit : K → σ → Bool × σ) (s : σ) : Option σ :=
  (descendLessOrEqual t.root upperBound visit s).map Prod.snd

/-- A visitor called on the keys of a list, one after the other, until it
returns false: whether it ran through the whole list, and the state it is
left in. -/
def visitAll {σ : Type} (visit : K → σ → Bool × σ) : List K → σ → Bool × σ
  | [], s => (true, s)
  | k :: ks, s =>
    match visit k s with
    | (false, s1) => (false, s1)
    | (true, s1) => visitAll visit ks s1

/-- The visitor of `iterator_test.go`: it appends the key to the slice it has
captured and returns true. -/
def recordKey (k : K) (ary : List K) : Bool × List K := (true, ary ++ [k])

/-- A visitor that counts its calls and returns false on its `j`-th call. -/
def stopAt (j : Nat) (_ : K) (calls : Nat) : Bool × Nat := (decide (calls + 1 ≠ j), calls + 1)

end Defs

/-- The key kind `Int` of `util.go`, in a universe of keys that holds only
`Int`s: `x < than.(Int)`, and no key is a sentinel. -/
instance instKeyInt : Key Int where
  Less x y := some (decide (x < y))
  isPInf _ := false
  isNInf _ := false

/-- A value kind for the examples: an integer payload whose `Update` adds the
new value to the stored one. -/
instance instValueInt : Value Int where
  Update old v := old + v

/-- Example tree: the keys 1, 2, 3 with values 10, 20, 30, as the insertions
leave it (a black root with two black leaves). -/
def tree123 : LLRB Int Int :=
  ⟨.mk 2 20 (.mk 1 10 .nil .nil 1 true) (.mk 3 30 .nil .nil 1 true) 3 true⟩

/-- Example tree: the keys 1 and 2 with values 10 and 20 (a black root with a
red left child). -/
def tree12 : LLRB Int Int :=
  ⟨.mk 2 20 (.mk 1 10 .nil .nil 1 false) .nil 2 true⟩

/-- Example tree with duplicate keys: what `InsertNoReplace` leaves after
inserting (2, 10), (2, 20), (2, 30) and (1, 40) into an empty tree. -/
def treeDup : LLRB Int Int :=
  ⟨.mk 2 20 (.mk 2 10 (.mk 1 40 .nil .nil 1 false) .nil 2 true) (.mk 2 30 .nil .nil 1 true) 4 true⟩

/-- The key values of a universe that holds both key kinds of `util.go` and the
two sentinels: `Int`, `String`, and the values `ninf` and `pinf` of the types
`nInf` and `pInf`. -/
inductive AnyKey where
  | Int (x : Int) : AnyKey
  | String (s : String) : AnyKey
  | nInf : AnyKey
  | pInf : AnyKey
  deriving DecidableEq, Repr

/-- The four `Less` methods: `(x Int) Less` is `x < than.(Int)` and
`(x String) Less` is `x < than.(String)`, where the type assertion panics when
`than` is of another type; `(nInf) Less` is always true and `(pInf) Less` is
always false. -/
def AnyKey.Less : AnyKey → AnyKey → Option Bool
  | .Int x, .Int y => some (decide (x < y))
  | .Int _, _ => none
  | .String x, .String y => some (decide (x < y))
  | .String _, _ => none
  | .nInf, _ => some true
  | .pInf, _ => some false

/-- The interface `Key` over the universe `AnyKey`; `x == pinf` and `x == ninf`
compare the interface value with the sentinel. -/
instance instKeyAnyKey : Key AnyKey where
  Less := AnyKey.Less
  isPInf x := decide (x = AnyKey.pInf)
  isNInf x := decide (x = AnyKey.nInf)

/-- Source `Inf(sign)`: panics on 0, `pinf` for a positive sign, `ninf`
otherwise. -/
def Inf (sign : Int) : Option AnyKey :=
  if sign = 0 then none
  else if sign > 0 then some AnyKey.pInf
  else some AnyKey.nInf

/-- Example tree: what `ReplaceOrInsert` leaves after the keys 0, 2, 4 (each with
value 0) are inserted into an empty tree, as `example/index_example.go` does. -/
def tree024 : LLRB Int Int :=
  ⟨.mk 2 0 (.mk 0 0 .nil .nil 0 true) (.mk 4 0 .nil .nil 1 true) 1 true⟩

/-- Example tree: the keys 1 and 3 with values 10 and 30 (a black root 3 with a
red left child 1). -/
def tree13 : LLRB Int Int :=
  ⟨.mk 3 30 (.mk 1 10 .nil .nil 1 false) .nil 2 true⟩

/-- Example tree: the keys 2, 4, 6, 8, 10, 12 (each with ten times the key as its
value), as the insertions of 2, 10, 12, 4, 6, 8 in this order leave it: a black
root 10 with the red left child 4, whose right child 8 has the red left child
6. -/
def treeSix : LLRB Int Int :=
  ⟨.mk 10 100
    (.mk 4 40 (.mk 2 20 .nil .nil 1 true)
      (.mk 8 80 (.mk 6 60 .nil .nil 1 false) .nil 2 true) 4 false)
    (.mk 12 120 .nil .nil 1 true) 6 true⟩

end llrb

/-! ## Theorems -/

namespace llrb

section Basic

variable {K V : Type}

@[simp] theorem isRed_nil : isRed (Node.nil : Node K V) = false := rfl

@[simp] theorem isRed_mk (k : K) (v : V) (l r : Node K V) (c : Int) (b : Bool) :
    isRed (.mk k v l r c b) = !b := rfl

@[simp] theorem Left_nil : (Node.nil : Node K V).Left = .nil := rfl

@[simp] theorem Left_mk (k : K) (v : V) (l r : Node K V) (c : Int) (b : Bool) :
    (Node.mk k v l r c b).Left = l := rfl

@[simp] theorem Right_nil : (Node.nil : Node K V).Right = .nil := rfl

@[simp] theorem Right_mk (k : K) (v : V) (l r : Node K V) (c : Int) (b : Bool) :
    (Node.mk k v l r c b).Right = r := rfl

@[simp] theorem cnt_nil : (Node.nil : Node K V).cnt = 0 := rfl

@[simp] theorem cnt_mk (k : K) (v : V) (l r : Node K V) (c : Int) (b : Bool) :
    (Node.mk k v l r c b).cnt = c := rfl

@[simp] theorem isNil_nil : (Node.nil : Node K V).isNil = true := rfl

@[simp] theorem isNil_mk (k : K) (v : V) (l r : Node K V) (c : Int) (b : Bool) :
    (Node.mk k v l r c b).isNil = false := rfl

@[simp] theorem rotateLeft_mk (hk : K) (hv : V) (hl : Node K V) (xk : K) (xv : V)
    (xl xr : Node K V) (xc : Int) (xb : Bool) (hc : Int) (hb : Bool) :
    rotateLeft (.mk hk hv hl (.mk xk xv xl xr xc xb) hc hb)
      = if xb then none
        else some (.mk xk xv (.mk hk hv hl xl (hc - xc + xl.cnt) false) xr hc hb) := rfl

@[simp] theorem rotateRight_mk (hk : K) (hv : V) (hr : Node K V) (xk : K) (xv : V)
    (xl xr : Node K V) (xc : Int) (xb : Bool) (hc : Int) (hb : Bool) :
    rotateRight (.mk hk hv (.mk xk xv xl xr xc xb) hr hc hb)
      = if xb then none
        else some (.mk xk xv xl (.mk hk hv xr hr (hc - xc + xr.cnt) false) hc hb) := rfl

@[simp] theorem flip_mk (hk : K) (hv : V) (lk : K) (lv : V) (ll lr : Node K V) (lc : Int)
    (lb : Bool) (rk : K) (rv : V) (rl rr : Node K V) (rc : Int) (rb : Bool) (hc : Int)
    (hb : Bool) :
    flip (.mk hk hv (.mk lk lv ll lr lc lb) (.mk rk rv rl rr rc rb) hc hb)
      = some (.mk hk hv (.mk lk lv ll lr lc (!lb)) (.mk rk rv rl rr rc (!rb)) hc (!hb)) := rfl

/-! ### The two readings of the invariants agree -/

theorem LL_iff (h : Node K V) : LL h ↔ NoRedRight h ∧ NoRedRedLeft h := by
  induction h with
  | nil => simp [LL, NoRedRight, NoRedRedLeft]
  | mk k v l r c b ihl ihr =>
    simp only [LL, NoRedRight, NoRedRedLeft, ihl, ihr]
    tauto

theorem LL.noTwoRed {h : Node K V} (hL : LL h) : NoTwoRedChildren h := by
  induction h with
  | nil => simp [NoTwoRedChildren]
  | mk k v l r c b ihl ihr =>
    simp only [LL] at hL
    simp only [NoTwoRedChildren]
    exact ⟨by simp [hL.1], ihl hL.2.2.1, ihr hL.2.2.2⟩

theorem bh_mem_blackCounts (h : Node K V) : bh h ∈ blackCounts h := by
  induction h with
  | nil => simp [bh, blackCounts]
  | mk k v l r c b ihl _ =>
    simp only [bh, blackCounts, List.mem_map, List.mem_append]
    exact ⟨bh l, Or.inl ihl, rfl⟩

theorem Bal.blackCounts_eq {h : Node K V} (hB : Bal h) : ∀ a ∈ blackCounts h, a = bh h := by
  induction h with
  | nil => simp [bh, blackCounts]
  | mk k v l r c b ihl ihr =>
    simp only [Bal] at hB
    intro a ha
    simp only [blackCounts, List.mem_map, List.mem_append] at ha
    obtain ⟨x, hx, rfl⟩ := ha
    simp only [bh]
    rcases hx with hx | hx
    · rw [ihl hB.2.1 x hx]
    · rw [ihr hB.2.2 x hx, hB.1]

theorem Bal_iff (h : Node K V) : Bal h ↔ BlackBalanced h := by
  constructor
  · intro hB a ha b hb
    rw [hB.blackCounts_eq a ha, hB.blackCounts_eq b hb]
  · intro hP
    induction h with
    | nil => simp [Bal]
    | mk k v l r c b ihl ihr =>
      have hmem : ∀ x, x ∈ blackCounts l ∨ x ∈ blackCounts r →
          x + (if b then 1 else 0) ∈ blackCounts (.mk k v l r c b) := by
        intro x hx
        simp only [blackCounts, List.mem_map, List.mem_append]
        exact ⟨x, hx, rfl⟩
      refine ⟨?_, ihl ?_, ihr ?_⟩
      · have := hP _ (hmem _ (Or.inl (bh_mem_blackCounts l))) _
          (hmem _ (Or.inr (bh_mem_blackCounts r)))
        omega
      · intro x hx y hy
        have := hP _ (hmem _ (Or.inl hx)) _ (hmem _ (Or.inl hy))
        omega
      · intro x hx y hy
        have := hP _ (hmem _ (Or.inr hx)) _ (hmem _ (Or.inr hy))
        omega

/-- A tree handle satisfies the structural invariants as soon as its root is
black, left-leaning and balanced node by node. -/
theorem balanced23_of {r : Node K V} (hL : LL r) (hB : Bal r) (hc : isRed r = false) :
    LLRB.Balanced23 (LLRB.mk r) :=
  ⟨((LL_iff r).1 hL).1, ((LL_iff r).1 hL).2, hL.noTwoRed, (Bal_iff r).1 hB, hc⟩

theorem LL_of_balanced23 {t : LLRB K V} (h : t.Balanced23) : LL t.root :=
  (LL_iff _).2 ⟨h.1, h.2.1⟩

theorem Bal_of_balanced23 {t : LLRB K V} (h : t.Balanced23) : Bal t.root :=
  (Bal_iff _).2 h.2.2.2.1

end Basic

section Rebalance

variable {K V : Type}

/-! ### Rotations and flips keep the content -/

theorem Same.refl (h : Node K V) : Same h h := ⟨rfl, rfl, id, rfl⟩

theorem Same.trans {a b c : Node K V} (h1 : Same a b) (h2 : Same b c) : Same a c :=
  ⟨h2.1.trans h1.1, h2.2.1.trans h1.2.1, fun h => h2.2.2.1 (h1.2.2.1 h), h2.2.2.2.trans h1.2.2.2⟩

theorem Same.isNil {a b : Node K V} (h : Same a b) : b.isNil = a.isNil := by
  have := h.2.2.2
  cases a <;> cases b <;> simp [Node.size] at this ⊢

theorem Same.congr_left {l l' : Node K V} (h : Same l l') (k : K) (v : V) (r : Node K V) (c : Int)
    (b : Bool) : Same (.mk k v l r c b) (.mk k v l' r c b) := by
  obtain ⟨h1, h2, h3, h4⟩ := h
  refine ⟨by simp [inorder, h1], rfl, ?_, by simp [Node.size, h4]⟩
  simp only [SizeOK, h2]
  exact fun ⟨a, b, c⟩ => ⟨a, h3 b, c⟩

theorem Same.congr_right {r r' : Node K V} (h : Same r r') (k : K) (v : V) (l : Node K V) (c : Int)
    (b : Bool) : Same (.mk k v l r c b) (.mk k v l r' c b) := by
  obtain ⟨h1, h2, h3, h4⟩ := h
  refine ⟨by simp [inorder, h1], rfl, ?_, by simp [Node.size, h4]⟩
  simp only [SizeOK, h2]
  exact fun ⟨a, b, c⟩ => ⟨a, b, h3 c⟩

theorem rotateLeft_same {h h' : Node K V} (e : rotateLeft h = some h') : Same h h' := by
  rcases h with _ | ⟨hk, hv, hl, hr, hc, hb⟩
  · simp [rotateLeft] at e
  · rcases hr with _ | ⟨xk, xv, xl, xr, xc, xb⟩
    · simp [rotateLeft] at e
    · cases xb <;> simp at e
      subst e
      refine ⟨by simp [inorder], rfl, ?_, by simp [Node.size]; omega⟩
      simp only [SizeOK]
      rintro ⟨a, b, c, d, e⟩
      simp only [cnt_mk] at a c ⊢
      refine ⟨?_, ⟨?_, b, d⟩, e⟩ <;> omega

theorem rotateRight_same {h h' : Node K V} (e : rotateRight h = some h') : Same h h' := by
  rcases h with _ | ⟨hk, hv, hl, hr, hc, hb⟩
  · simp [rotateRight] at e
  · rcases hl with _ | ⟨xk, xv, xl, xr, xc, xb⟩
    · simp [rotateRight] at e
    · cases xb <;> simp at e
      subst e
      refine ⟨by simp [inorder], rfl, ?_, by simp [Node.size]; omega⟩
      simp only [SizeOK]
      rintro ⟨a, ⟨b, c, d⟩, e⟩
      simp only [cnt_mk] at a b ⊢
      refine ⟨?_, c, ?_, d, e⟩ <;> omega

theorem flip_same {h h' : Node K V} (e : flip h = some h') : Same h h' := by
  rcases h with _ | ⟨hk, hv, hl, hr, hc, hb⟩
  · simp [flip] at e
  · rcases hl with _ | ⟨lk, lv, ll, lr, lc, lb⟩
    · simp [flip] at e
    · rcases hr with _ | ⟨rk, rv, rl, rr, rc, rb⟩
      · simp [flip] at e
      · simp at e
        subst e
        exact ⟨by simp [inorder], rfl, by simp [SizeOK], by simp [Node.size]⟩

theorem ite_same {h h' : Node K V} {p : Prop} [Decidable p] {f : Node K V → Option (Node K V)}
    (hf : ∀ a b, f a = some b → Same a b) (e : (if p then f h else some h) = some h') :
    Same h h' := by
  split at e
  · exact hf _ _ e
  · cases e; exact Same.refl _

theorem rotRightFlip_same {h h' : Node K V} (e : rotRightFlip h = some h') : Same h h' := by
  unfold rotRightFlip at e
  split at e
  · rename_i h1 e1
    exact (ite_same (fun _ _ => rotateRight_same) e1).trans (ite_same (fun _ _ => flip_same) e)
  · simp at e

theorem walkUpRot23_same {h h' : Node K V} (e : walkUpRot23 h = some h') : Same h h' := by
  rcases h with _ | ⟨hk, hv, hl, hr, hc, hb⟩
  · simp [walkUpRot23] at e
  · simp only [walkUpRot23] at e
    split at e
    · rename_i h1 e1
      exact (ite_same (fun _ _ => rotateLeft_same) e1).trans (rotRightFlip_same e)
    · simp at e

theorem fixUp_same {h h' : Node K V} (e : fixUp h = some h') : Same h h' := by
  rcases h with _ | ⟨hk, hv, hl, hr, hc, hb⟩
  · simp [fixUp] at e
  · simp only [fixUp] at e
    split at e
    · rename_i h1 e1
      exact (ite_same (fun _ _ => rotateLeft_same) e1).trans (rotRightFlip_same e)
    · simp at e

theorem moveRedLeft_same {h h' : Node K V} (e : moveRedLeft h = some h') : Same h h' := by
  unfold moveRedLeft at e
  split at e
  · rename_i hk hv hl hr hc hb e0
    have s0 := flip_same e0
    split at e
    · split at e
      · rename_i hr1 e1
        split at e
        · rename_i h1 e2
          exact s0.trans (((rotateRight_same e1).congr_right hk hv hl hc hb).trans
            ((rotateLeft_same e2).trans (flip_same e)))
        · simp at e
      · simp at e
    · cases e; exact s0
  · simp at e

theorem moveRedRight_same {h h' : Node K V} (e : moveRedRight h = some h') : Same h h' := by
  unfold moveRedRight at e
  split at e
  · rename_i hk hv hl hr hc hb e0
    have s0 := flip_same e0
    split at e
    · split at e
      · rename_i h1 e1
        exact s0.trans ((rotateRight_same e1).trans (flip_same e))
      · simp at e
    · cases e; exact s0
  · simp at e

theorem rotateLeft_isSome {h : Node K V} (hn : h.isNil = false) (hR : isRed h.Right = true) :
    ∃ h', rotateLeft h = some h' := by
  rcases h with _ | ⟨hk, hv, hl, hr, hc, hb⟩
  · simp at hn
  · rcases hr with _ | ⟨xk, xv, xl, xr, xc, xb⟩
    · simp at hR
    · cases xb <;> simp at hR ⊢

theorem rotateRight_isSome {h : Node K V} (hn : h.isNil = false) (hL : isRed h.Left = true) :
    ∃ h', rotateRight h = some h' := by
  rcases h with _ | ⟨hk, hv, hl, hr, hc, hb⟩
  · simp at hn
  · rcases hl with _ | ⟨xk, xv, xl, xr, xc, xb⟩
    · simp at hL
    · cases xb <;> simp at hL ⊢

theorem flip_isSome {h : Node K V} (hn : h.isNil = false) (hL : isRed h.Left = true)
    (hR : isRed h.Right = true) : ∃ h', flip h = some h' := by
  rcases h with _ | ⟨hk, hv, hl, hr, hc, hb⟩
  · simp at hn
  · rcases hl with _ | ⟨lk, lv, ll, lr, lc, lb⟩
    · simp at hL
    · rcases hr with _ | ⟨rk, rv, rl, rr, rc, rb⟩
      · simp at hR
      · simp

theorem rotRightFlip_isSome {h : Node K V} (hn : h.isNil = false) :
    ∃ h', rotRightFlip h = some h' := by
  unfold rotRightFlip
  have key : ∀ h1 : Node K V, h1.isNil = false →
      ∃ h', (if (isRed h1.Left && isRed h1.Right) = true then flip h1 else some h1) = some h' := by
    intro h1 n1
    by_cases c2 : (isRed h1.Left && isRed h1.Right) = true
    · rw [if_pos c2]
      simp only [Bool.and_eq_true] at c2
      exact flip_isSome n1 c2.1 c2.2
    · rw [if_neg c2]; exact ⟨_, rfl⟩
  by_cases c1 : (isRed h.Left && isRed h.Left.Left) = true
  · rw [if_pos c1]
    simp only [Bool.and_eq_true] at c1
    obtain ⟨h1, e1⟩ := rotateRight_isSome hn c1.1
    rw [e1]
    exact key h1 (by rw [(rotateRight_same e1).isNil]; exact hn)
  · rw [if_neg c1]
    exact key h hn

theorem walkUp_isSome (k : K) (v : V) (l r : Node K V) (c : Int) (b : Bool) :
    ∃ h', walkUpRot23 (.mk k v l r c b) = some h' := by
  simp only [walkUpRot23]
  by_cases c1 : (isRed r && !isRed l) = true
  · rw [if_pos c1]
    simp only [Bool.and_eq_true] at c1
    obtain ⟨h1, e1⟩ := rotateLeft_isSome (h := .mk k v l r c b) rfl c1.1
    rw [e1]
    exact rotRightFlip_isSome (by rw [(rotateLeft_same e1).isNil]; rfl)
  · rw [if_neg c1]
    exact rotRightFlip_isSome rfl

/-! ### `walkUpRot23` restores the structure after an insertion below -/

theorem walkUp_left (k : K) (v : V) (l r : Node K V) (c : Int) (b : Bool) (k' : K) (v' : V) (c' : Int)
    (l' : Node K V) (hLL : LL (.mk k v l r c b)) (hB : Bal (.mk k v l r c b))
    (hp : InsPost l l') :
    ∃ h', walkUpRot23 (.mk k' v' l' r c' b) = some h' ∧ InsPost (.mk k v l r c b) h' := by
  rcases l' with _ | ⟨lk, lv, ll, lr, lc, lb⟩
  · simp [InsPost] at hp
  · rcases ll with _ | ⟨llk, llv, lll, llr, llc, llb⟩
    · cases lb <;> cases b <;>
        simp_all [InsPost, AlmostLL, LL, Bal, bh, walkUpRot23, rotRightFlip]
    · cases llb <;> cases lb <;> cases b <;>
        simp_all [InsPost, AlmostLL, LL, Bal, bh, walkUpRot23, rotRightFlip]
      all_goals omega

theorem walkUp_right (k : K) (v : V) (l r : Node K V) (c : Int) (b : Bool) (k' : K) (v' : V) (c' : Int)
    (r' : Node K V) (hLL : LL (.mk k v l r c b)) (hB : Bal (.mk k v l r c b))
    (hp : InsPost r r') :
    ∃ h', walkUpRot23 (.mk k' v' l r' c' b) = some h' ∧ InsPost (.mk k v l r c b) h' := by
  rcases r' with _ | ⟨rk, rv, rl, rr, rc, rb⟩
  · simp [InsPost] at hp
  · rcases l with _ | ⟨lk, lv, ll, lr, lc, lb⟩
    · cases rb <;> cases b <;>
        simp_all [InsPost, AlmostLL, LL, Bal, bh, walkUpRot23, rotRightFlip]
    · cases lb <;> cases rb <;> cases b <;>
        simp_all [InsPost, AlmostLL, LL, Bal, bh, walkUpRot23, rotRightFlip]
      all_goals omega

theorem walkUp_same (k : K) (v : V) (l r : Node K V) (c : Int) (b : Bool) (k' : K) (v' : V) (c' : Int)
    (hLL : LL (.mk k v l r c b)) (hB : Bal (.mk k v l r c b)) :
    ∃ h', walkUpRot23 (.mk k' v' l r c' b) = some h' ∧ InsPost (.mk k v l r c b) h' := by
  rcases l with _ | ⟨lk, lv, ll, lr, lc, lb⟩
  · simp_all [InsPost, AlmostLL, LL, Bal, bh, walkUpRot23, rotRightFlip]
  · cases lb <;> cases b <;>
        simp_all [InsPost, AlmostLL, LL, Bal, bh, walkUpRot23, rotRightFlip]
    all_goals omega


end Rebalance

section Insert

variable {K V : Type}

theorem InsPost_newNode (k : K) (v : V) : InsPost (Node.nil : Node K V) (newNode k v) := by
  simp [InsPost, newNode, AlmostLL, LL, Bal, bh]

theorem setBlack_of_InsPost {h h' : Node K V} (hp : InsPost h h') :
    ∃ r, setBlack h' = some r ∧ LL r ∧ Bal r ∧ isRed r = false := by
  rcases h' with _ | ⟨k, v, l, r, c, b⟩
  · simp [InsPost] at hp
  · refine ⟨_, rfl, ?_⟩
    simp_all [InsPost, AlmostLL, LL, Bal]

theorem insertNoReplace_isSome [Key K] (hK : Key.NoPanic K) (h : Node K V) (k : K) (v : V) :
    ∃ h', insertNoReplace h k v = some h' := by
  induction h with
  | nil => exact ⟨_, rfl⟩
  | mk hk hv hl hr hc hb ihl ihr =>
    obtain ⟨b, hb'⟩ := hK k hk
    obtain ⟨l1, el⟩ := ihl
    obtain ⟨r1, er⟩ := ihr
    cases b <;> simp only [insertNoReplace, hb', el, er] <;> exact walkUp_isSome ..

theorem insertNoReplace_struct [Key K] {h h' : Node K V} {k : K} {v : V}
    (hL : LL h) (hB : Bal h) (e : insertNoReplace h k v = some h') : InsPost h h' := by
  induction h generalizing h' with
  | nil => cases e; exact InsPost_newNode k v
  | mk hk hv hl hr hc hb ihl ihr =>
    have hL' := hL
    have hB' := hB
    simp only [LL, Bal] at hL' hB'
    simp only [insertNoReplace] at e
    split at e
    · simp at e
    · split at e
      · rename_i hl1 e1
        obtain ⟨h2, e2, p⟩ := walkUp_left hk hv hl hr hc hb hk hv (hc + 1) hl1 hL hB
          (ihl hL'.2.2.1 hB'.2.1 e1)
        rw [e2] at e; cases e; exact p
      · simp at e
    · split at e
      · rename_i hr1 e1
        obtain ⟨h2, e2, p⟩ := walkUp_right hk hv hl hr hc hb hk hv (hc + 1) hr1 hL hB
          (ihr hL'.2.2.2 hB'.2.2 e1)
        rw [e2] at e; cases e; exact p
      · simp at e

theorem insertNoReplace_size [Key K] {h h' : Node K V} {k : K} {v : V}
    (e : insertNoReplace h k v = some h') :
    h'.cnt = h.cnt + 1 ∧ (SizeOK h → SizeOK h') ∧ h'.size = h.size + 1 := by
  induction h generalizing h' with
  | nil => cases e; simp [newNode, SizeOK, Node.size]
  | mk hk hv hl hr hc hb ihl ihr =>
    simp only [insertNoReplace] at e
    split at e
    · simp at e
    · split at e
      · rename_i hl1 e1
        obtain ⟨a1, a2, a3⟩ := ihl e1
        obtain ⟨b1, b2, b3, b4⟩ := walkUpRot23_same e
        simp only [cnt_mk, SizeOK, Node.size] at b2 b3 b4 ⊢
        refine ⟨b2, fun hs => b3 ⟨by omega, a2 hs.2.1, hs.2.2⟩, by omega⟩
      · simp at e
    · split at e
      · rename_i hr1 e1
        obtain ⟨a1, a2, a3⟩ := ihr e1
        obtain ⟨b1, b2, b3, b4⟩ := walkUpRot23_same e
        simp only [cnt_mk, SizeOK, Node.size] at b2 b3 b4 ⊢
        refine ⟨b2, fun hs => b3 ⟨by omega, hs.2.1, a2 hs.2.2⟩, by omega⟩
      · simp at e

theorem insertNoReplace_inorder [LinearOrder K] [Key K] (hK : Key.Lawful K) {h h' : Node K V} {k : K}
    {v : V} (hs : (keys h).Sorted (· ≤ ·)) (e : insertNoReplace h k v = some h') :
    ∃ pre post, inorder h = pre ++ post ∧ inorder h' = pre ++ (k, v) :: post ∧
      (∀ p ∈ pre, p.1 ≤ k) ∧ (∀ p ∈ post, k < p.1) := by
  induction h generalizing h' with
  | nil => cases e; exact ⟨[], [], by simp [inorder, newNode]⟩
  | mk hk hv hl hr hc hb ihl ihr =>
    simp only [keys, inorder, List.map_append, List.map_cons, List.Sorted, List.pairwise_append, List.pairwise_cons,
      List.mem_map, List.mem_cons] at hs
    simp only [insertNoReplace, hK k hk] at e
    by_cases hlt : k < hk
    · simp only [hlt, decide_True] at e
      split at e
      · rename_i hl1 e1
        obtain ⟨pre, post, i1, i2, i3, i4⟩ := ihl hs.1 e1
        refine ⟨pre, post ++ (hk, hv) :: inorder hr, ?_, ?_, i3, ?_⟩
        · simp [inorder, i1]
        · rw [(walkUpRot23_same e).1]; simp [inorder, i2]
        · intro p hp
          simp only [List.mem_append, List.mem_cons] at hp
          rcases hp with hp | rfl | hp
          · exact i4 p hp
          · exact hlt
          · exact lt_of_lt_of_le hlt (hs.2.1.1 _ ⟨p, hp, rfl⟩)
      · simp at e
    · simp only [hlt, decide_False] at e
      split at e
      · rename_i hr1 e1
        obtain ⟨pre, post, i1, i2, i3, i4⟩ := ihr hs.2.1.2 e1
        refine ⟨inorder hl ++ (hk, hv) :: pre, post, ?_, ?_, ?_, i4⟩
        · simp [inorder, i1]
        · rw [(walkUpRot23_same e).1]; simp [inorder, i2]
        · intro p hp
          simp only [List.mem_append, List.mem_cons] at hp
          rcases hp with hp | rfl | hp
          · exact le_trans (hs.2.2 _ ⟨p, hp, rfl⟩ _ (Or.inl rfl)) (not_lt.1 hlt)
          · exact not_lt.1 hlt
          · exact i3 p hp
      · simp at e

theorem replaceOrInsert_isSome [Key K] (hK : Key.NoPanic K) (h : Node K V) (k : K) (v : V) :
    ∃ p, replaceOrInsert h k v = some p := by
  induction h with
  | nil => exact ⟨_, rfl⟩
  | mk hk hv hl hr hc hb ihl ihr =>
    obtain ⟨b, hb'⟩ := hK k hk
    obtain ⟨b2, hb2⟩ := hK hk k
    obtain ⟨⟨l1, rl⟩, el⟩ := ihl
    obtain ⟨⟨r1, rr⟩, er⟩ := ihr
    cases b
    · cases b2
      · obtain ⟨w, ew⟩ := walkUp_isSome k v hl hr hc hb
        simp [replaceOrInsert, hb', hb2, ew]
      · obtain ⟨w, ew⟩ := walkUp_isSome hk hv hl r1 (if rr.isNone then hc + 1 else hc) hb
        simp only [replaceOrInsert, hb', hb2, er, ew]
        exact ⟨_, rfl⟩
    · obtain ⟨w, ew⟩ := walkUp_isSome hk hv l1 hr (if rl.isNone then hc + 1 else hc) hb
      simp only [replaceOrInsert, hb', el, ew]
      exact ⟨_, rfl⟩

theorem replaceOrInsert_struct [Key K] {h h' : Node K V} {k : K} {v : V} {rep : Option K}
    (hL : LL h) (hB : Bal h) (e : replaceOrInsert h k v = some (h', rep)) : InsPost h h' := by
  induction h generalizing h' rep with
  | nil => cases e; exact InsPost_newNode k v
  | mk hk hv hl hr hc hb ihl ihr =>
    have hL' := hL
    have hB' := hB
    simp only [LL, Bal] at hL' hB'
    simp only [replaceOrInsert] at e
    split at e
    · simp at e
    · split at e
      · rename_i hl1 rep1 e1
        obtain ⟨h2, e2, p⟩ := walkUp_left hk hv hl hr hc hb hk hv
          (if rep1.isNone then hc + 1 else hc) hl1 hL hB (ihl hL'.2.2.1 hB'.2.1 e1)
        rw [e2] at e; cases e; exact p
      · simp at e
    · split at e
      · simp at e
      · split at e
        · rename_i hr1 rep1 e1
          obtain ⟨h2, e2, p⟩ := walkUp_right hk hv hl hr hc hb hk hv
            (if rep1.isNone then hc + 1 else hc) hr1 hL hB (ihr hL'.2.2.2 hB'.2.2 e1)
          rw [e2] at e; cases e; exact p
        · simp at e
      · obtain ⟨h2, e2, p⟩ := walkUp_same hk hv hl hr hc hb k v hc hL hB
        rw [e2] at e; cases e; exact p

theorem updateOrInsert_isSome [Key K] [Value V] (hK : Key.NoPanic K) (h : Node K V) (k : K) (v : V) :
    ∃ h', updateOrInsert h k v = some h' := by
  induction h with
  | nil => exact ⟨_, rfl⟩
  | mk hk hv hl hr hc hb ihl ihr =>
    obtain ⟨b, hb'⟩ := hK k hk
    obtain ⟨b2, hb2⟩ := hK hk k
    obtain ⟨l1, el⟩ := ihl
    obtain ⟨r1, er⟩ := ihr
    cases b <;> cases b2 <;> simp only [updateOrInsert, hb', hb2, el, er] <;> exact walkUp_isSome ..

theorem updateOrInsert_struct [Key K] [Value V] {h h' : Node K V} {k : K} {v : V}
    (hL : LL h) (hB : Bal h) (e : updateOrInsert h k v = some h') : InsPost h h' := by
  induction h generalizing h' with
  | nil => cases e; exact InsPost_newNode k v
  | mk hk hv hl hr hc hb ihl ihr =>
    have hL' := hL
    have hB' := hB
    simp only [LL, Bal] at hL' hB'
    simp only [updateOrInsert] at e
    split at e
    · simp at e
    · split at e
      · rename_i hl1 e1
        obtain ⟨h2, e2, p⟩ := walkUp_left hk hv hl hr hc hb hk hv (hc + 1) hl1 hL hB
          (ihl hL'.2.2.1 hB'.2.1 e1)
        rw [e2] at e; cases e; exact p
      · simp at e
    · split at e
      · simp at e
      · split at e
        · rename_i hr1 e1
          obtain ⟨h2, e2, p⟩ := walkUp_right hk hv hl hr hc hb hk hv (hc + 1) hr1 hL hB
            (ihr hL'.2.2.2 hB'.2.2 e1)
          rw [e2] at e; cases e; exact p
        · simp at e
      · obtain ⟨h2, e2, p⟩ := walkUp_same hk hv hl hr hc hb hk (Value.Update hv v) (hc + 1) hL hB
        rw [e2] at e; cases e; exact p

end Insert

section Index

variable {K V : Type}

theorem SizeOK.cnt_eq {h : Node K V} (hz : SizeOK h) : h.cnt = ((inorder h).length : Int) := by
  induction h with
  | nil => simp [inorder]
  | mk k v l r c b ihl ihr =>
    simp only [SizeOK] at hz
    simp only [cnt_mk, inorder, List.length_append, List.length_cons, hz.1, ihl hz.2.1, ihr hz.2.2]
    push_cast
    omega

theorem keys_mk (k : K) (v : V) (l r : Node K V) (c : Int) (b : Bool) :
    keys (.mk k v l r c b) = keys l ++ k :: keys r := by
  simp [keys, inorder]

theorem keys_length (h : Node K V) : (keys h).length = (inorder h).length := by
  simp [keys]

theorem indexOf_spec [LinearOrder K] [Key K] (hK : Key.Lawful K) (h : Node K V) (k : K) (i : Int)
    (hs : (keys h).Sorted (· < ·)) (hz : SizeOK h) :
    indexOf h k i =
      some (if k ∈ keys h then (i + ((keys h).countP (· < k) : Nat), true) else (0, false)) := by
  induction h generalizing i with
  | nil => simp [indexOf, keys, inorder]
  | mk hk hv hl hr hc hb ihl ihr =>
    rw [keys_mk] at hs ⊢
    simp only [List.Sorted, List.pairwise_append, List.pairwise_cons, List.mem_cons] at hs
    obtain ⟨sl, ⟨hkr, sr⟩, hlr⟩ := hs
    simp only [SizeOK] at hz
    have hlk : ∀ x ∈ keys hl, x < hk := fun x hx => hlr x hx hk (Or.inl rfl)
    simp only [indexOf, hK k hk, hK hk k]
    rcases lt_trichotomy k hk with hlt | heq | hgt
    · have n1 : k ∉ keys hr := fun hm => lt_asymm hlt (hkr k hm)
      have c1 : (keys hr).countP (· < k) = 0 := by
        rw [List.countP_eq_zero]
        intro x hx
        simpa using le_of_lt (lt_trans hlt (hkr x hx))
      simp [hlt, ihl i sl hz.2.1, ne_of_lt hlt, n1, c1, not_lt.2 (le_of_lt hlt), List.countP_cons]
    · subst heq
      have n1 : (keys hl).countP (· < k) = (keys hl).length := by
        rw [List.countP_eq_length]
        intro x hx
        simpa using hlk x hx
      have c1 : (keys hr).countP (· < k) = 0 := by
        rw [List.countP_eq_zero]
        intro x hx
        simpa using le_of_lt (hkr x hx)
      simp [n1, c1, List.countP_cons, hz.2.1.cnt_eq, keys_length]
    · have n1 : (keys hl).countP (· < k) = (keys hl).length := by
        rw [List.countP_eq_length]
        intro x hx
        simpa using lt_trans (hlk x hx) hgt
      have n2 : k ∉ keys hl := fun hm => lt_asymm hgt (hlk k hm)
      simp only [hgt, not_lt.2 (le_of_lt hgt), decide_True, decide_False]
      rw [ihr (i + hl.cnt + 1) sr hz.2.2]
      by_cases hm : k ∈ keys hr
      · simp [hm, n1, List.countP_cons, hgt, hz.2.1.cnt_eq, keys_length]
        omega
      · simp [hm, n2, ne_of_gt hgt]

end Index

section Handle

variable {K V : Type}

theorem noPanic_int : Key.NoPanic Int := fun _ _ => ⟨_, rfl⟩

theorem lawful_int : Key.Lawful Int := fun _ _ => rfl

/-- The example tree `tree12` is what two insertions into the empty tree
leave. -/
theorem tree12_built :
    ((some (New : LLRB Int Int)).bind (fun t => t.InsertNoReplace (some 1) 10)).bind
      (fun t => t.InsertNoReplace (some 2) 20) = some tree12 :=
  rfl

/-- The example tree `tree123` is what a third insertion into `tree12`
leaves. -/
theorem tree123_built : tree12.InsertNoReplace (some 3) 30 = some tree123 :=
  rfl

theorem Key.Lawful.noPanic [LinearOrder K] [Key K] (hK : Key.Lawful K) : Key.NoPanic K :=
  fun x y => ⟨_, hK x y⟩

theorem setBlack_same {h r : Node K V} (e : setBlack h = some r) : Same h r := by
  rcases h with _ | ⟨k, v, l, r, c, b⟩
  · simp [setBlack] at e
  · simp only [setBlack, Option.some.injEq] at e
    subst e
    exact ⟨rfl, rfl, by simp [SizeOK], rfl⟩


end Handle

section Delete

variable {K V : Type}

theorem fixUp_spec (k : K) (v : V) (l r : Node K V) (c : Int) (b : Bool)
    (hLl : LL l) (hLr : LL r) (hBl : Bal l) (hBr : Bal r) (hbh : bh l = bh r) :
    ∃ h', fixUp (.mk k v l r c b) = some h' ∧ Bal h' ∧ AlmostLL h' ∧ h'.isNil = false ∧
      (isRed r = true → isRed l = true →
        LL h' ∧ bh h' = bh l + 1 + (if b then 0 else 1) ∧ isRed h' = b) ∧
      (isRed r = true → isRed l = false →
        (b = true → LL h') ∧ bh h' = bh l + (if b then 1 else 0) ∧ isRed h' = !b) ∧
      (isRed r = false →
        ((b = true ∨ isRed l = false) → LL h') ∧ bh h' = bh l + (if b then 1 else 0) ∧
          isRed h' = !b) := by
  rcases r with _ | ⟨rk, rv, rl, rr, rc, rb⟩
  · rcases l with _ | ⟨lk, lv, ll, lr, lc, lb⟩
    · simp [fixUp, rotRightFlip, AlmostLL, LL, Bal, bh]
    · cases lb <;> cases b <;> simp_all [fixUp, rotRightFlip, AlmostLL, LL, Bal, bh]
  · rcases l with _ | ⟨lk, lv, ll, lr, lc, lb⟩
    · cases rb <;> cases b <;> simp_all [fixUp, rotRightFlip, AlmostLL, LL, Bal, bh]
    · cases lb <;> cases rb <;> cases b <;>
        simp_all [fixUp, rotRightFlip, AlmostLL, LL, Bal, bh]

theorem fix_after (h : Node K V) (l1 r1 : Node K V) (b1 : Bool)
    (hLr : LL r1) (hBr : Bal r1) (hbh : bh l1 = bh r1) (hn : TwoNode l1 → False)
    (hgoal : ∀ h' : Node K V, Bal h' → AlmostLL h' →
      ∀ l2 : Node K V, LL l2 → bh l2 = bh l1 → (isRed l1 = false → isRed l2 = false) →
      (isRed r1 = true → isRed l2 = true →
        LL h' ∧ bh h' = bh l2 + 1 + (if b1 then 0 else 1) ∧ isRed h' = b1) →
      (isRed r1 = true → isRed l2 = false →
        (b1 = true → LL h') ∧ bh h' = bh l2 + (if b1 then 1 else 0) ∧ isRed h' = !b1) →
      (isRed r1 = false →
        ((b1 = true ∨ isRed l2 = false) → LL h') ∧ bh h' = bh l2 + (if b1 then 1 else 0) ∧
          isRed h' = !b1) → DelPost h h') :
    ∀ (l2 : Node K V) (kk : K) (vv : V) (cc : Int), DelPost l1 l2 →
        ∃ h', fixUp (.mk kk vv l2 r1 cc b1) = some h' ∧ DelPost h h' := by
  intro l2 kk vv cc hpost
  obtain ⟨hB2, -, hor⟩ := hpost
  rcases hor with h0 | ⟨hL2, hbh2, hc2⟩
  · exact (hn h0).elim
  · obtain ⟨h', e, hB', hA', -, c1, c2, c3⟩ := fixUp_spec kk vv l2 r1 cc b1 hL2 hLr hB2 hBr (by omega)
    exact ⟨h', e, hgoal h' hB' hA' l2 hL2 hbh2 hc2 c1 c2 c3⟩

set_option maxHeartbeats 1000000 in
theorem stepLeft (hk : K) (hv : V) (lk : K) (lv : V) (ll lr : Node K V) (lc : Int) (lb : Bool)
    (hr : Node K V) (hc : Int) (hb : Bool)
    (hp : DelPre (.mk hk hv (.mk lk lv ll lr lc lb) hr hc hb)) (hR : isRed hr = false) :
    ∃ h1,
      (if (!isRed (.mk lk lv ll lr lc lb) && !isRed ll) = true
        then moveRedLeft (.mk hk hv (.mk lk lv ll lr lc lb) hr hc hb)
        else some (.mk hk hv (.mk lk lv ll lr lc lb) hr hc hb)) = some h1 ∧
      h1.isNil = false ∧ DelPre h1.Left ∧ isRed h1.Left.Right = false ∧ h1.Left.isNil = false ∧
      (∃ rest, inorder h1.Left = inorder (.mk lk lv ll lr lc lb) ++ rest) ∧
      ∀ (l2 : Node K V) (kk : K) (vv : V) (cc : Int), DelPost h1.Left l2 →
        ∃ h', fixUp (.mk kk vv l2 h1.Right cc (!isRed h1)) = some h' ∧
          DelPost (.mk hk hv (.mk lk lv ll lr lc lb) hr hc hb) h' := by
  by_cases hmove : (!isRed (.mk lk lv ll lr lc lb) && !isRed ll) = true
  · rw [if_pos hmove]
    simp only [isRed_mk, Bool.not_not, Bool.and_eq_true, Bool.not_eq_true'] at hmove
    obtain ⟨rfl, hll⟩ := hmove
    rcases hr with _ | ⟨rk, rv, rl, rr, rc, rb⟩
    · simp [DelPre, Bal, bh] at hp
    · simp only [isRed_mk, Bool.not_eq_false'] at hR
      subst hR
      by_cases hrl : isRed rl = true
      · -- rotation
        rcases rl with _ | ⟨rlk, rlv, rll, rlr, rlc, rlb⟩
        · simp at hrl
        · simp only [isRed_mk, Bool.not_eq_true'] at hrl
          subst hrl
          refine ⟨_, rfl, rfl, ?_, ?_, rfl, ⟨(hk, hv) :: inorder rll, by simp [inorder]⟩, ?_⟩
          · cases hb <;> simp_all [DelPre, LL, Bal, bh]
            all_goals (try omega)
          · cases hb <;> simp_all [DelPre, LL, Bal, bh]
          · apply fix_after
            · cases hb <;> simp_all [DelPre, LL]
            · cases hb <;> simp_all [DelPre, Bal, bh]
              all_goals (try omega)
            · cases hb <;> simp_all [DelPre, Bal, bh]
              all_goals (try omega)
            · simp_all [TwoNode]
            · intro h' hB' hA' l2 hL2 hbh2 hc2 c1 c2 c3
              cases hb <;> simp_all [DelPre, DelPost, TwoNode, LL, Bal, bh]
      · -- flip only
        have e : moveRedLeft (.mk hk hv (.mk lk lv ll lr lc true) (.mk rk rv rl rr rc true) hc hb)
            = some (.mk hk hv (.mk lk lv ll lr lc false) (.mk rk rv rl rr rc false) hc (!hb)) := by
          simp [moveRedLeft, hrl]
        refine ⟨_, e, rfl, ?_, ?_, rfl, ⟨[], by simp [inorder]⟩, ?_⟩
        · cases hb <;> simp_all [DelPre, LL, Bal, bh]
          all_goals (try omega)
        · cases hb <;> simp_all [DelPre, LL, Bal, bh]
        · apply fix_after
          · cases hb <;> simp_all [DelPre, LL]
          · cases hb <;> simp_all [DelPre, Bal, bh]
          · cases hb <;> simp_all [DelPre, Bal, bh]
          · simp_all [TwoNode]
          · intro h' hB' hA' l2 hL2 hbh2 hc2 c1 c2 c3
            cases hl2 : isRed l2 <;> cases hb <;>
              simp_all [DelPre, DelPost, TwoNode, LL, Bal, bh]
  · rw [if_neg hmove]
    refine ⟨_, rfl, rfl, ?_, ?_, rfl, ⟨[], by simp⟩, ?_⟩
    · cases lb <;> cases hb <;> simp_all [DelPre, LL, Bal, bh]
      all_goals (try omega)
    · cases lb <;> cases hb <;> simp_all [DelPre, LL, Bal, bh]
    · apply fix_after
      · simp_all [DelPre, LL]
      · simp_all [DelPre, Bal]
      · simp_all [DelPre, Bal]
      · cases lb <;> simp_all [TwoNode]
      · intro h' hB' hA' l2 hL2 hbh2 hc2 c1 c2 c3
        cases lb <;> cases hb <;> simp_all [DelPre, DelPost, TwoNode, LL, Bal, bh]

theorem fix_after_right (h : Node K V) (l2 r2 : Node K V) (b2 : Bool)
    (hLl : LL l2) (hBl : Bal l2) (hbh : bh l2 = bh r2) (hn : TwoNode r2 → False)
    (hgoal : ∀ h' : Node K V, Bal h' → AlmostLL h' →
      ∀ r3 : Node K V, LL r3 → bh r3 = bh r2 → (isRed r2 = false → isRed r3 = false) →
      (isRed r3 = true → isRed l2 = true →
        LL h' ∧ bh h' = bh l2 + 1 + (if b2 then 0 else 1) ∧ isRed h' = b2) →
      (isRed r3 = true → isRed l2 = false →
        (b2 = true → LL h') ∧ bh h' = bh l2 + (if b2 then 1 else 0) ∧ isRed h' = !b2) →
      (isRed r3 = false →
        ((b2 = true ∨ isRed l2 = false) → LL h') ∧ bh h' = bh l2 + (if b2 then 1 else 0) ∧
          isRed h' = !b2) → DelPost h h') :
    ∀ (r3 : Node K V) (kk : K) (vv : V) (cc : Int), DelPost r2 r3 →
        ∃ h', fixUp (.mk kk vv l2 r3 cc b2) = some h' ∧ DelPost h h' := by
  intro r3 kk vv cc hpost
  obtain ⟨hB3, -, hor⟩ := hpost
  rcases hor with h0 | ⟨hL3, hbh3, hc3⟩
  · exact (hn h0).elim
  · obtain ⟨h', e, hB', hA', -, c1, c2, c3⟩ := fixUp_spec kk vv l2 r3 cc b2 hLl hL3 hBl hB3 (by omega)
    exact ⟨h', e, hgoal h' hB' hA' r3 hL3 hbh3 hc3 c1 c2 c3⟩

set_option maxHeartbeats 1000000 in
theorem stepRight (hk : K) (hv : V) (hl hr : Node K V) (hc : Int) (hb : Bool)
    (hp : DelPre (.mk hk hv hl hr hc hb)) :
    ∃ h1,
      (if isRed hl = true then rotateRight (.mk hk hv hl hr hc hb)
        else some (.mk hk hv hl hr hc hb)) = some h1 ∧
      h1.isNil = false ∧
      (h1.Right.isNil = true →
        h1 = .mk hk hv hl hr hc hb ∧ hl = .nil ∧ hr = .nil ∧
          DelPost (.mk hk hv hl hr hc hb) .nil) ∧
      ∃ h2,
        (if (!h1.Right.isNil && !isRed h1.Right && !isRed h1.Right.Left) = true
          then moveRedRight h1 else some h1) = some h2 ∧
        h2.isNil = false ∧ DelPre h2.Right ∧
        (h1.Right.isNil = false → h2.Right.isNil = false) ∧
        (((∃ l r c b, h2 = .mk hk hv l r c b) ∧ isRed h2.Right.Right = false) ∨
          ((hk, hv) ∈ inorder h2.Right ∧
            (isRed h2.Right.Right = true → ∃ l r c b, h2.Right = .mk hk hv l r c b))) ∧
        ∀ (r3 : Node K V) (kk : K) (vv : V) (cc : Int), DelPost h2.Right r3 →
          ∃ h', fixUp (.mk kk vv h2.Left r3 cc (!isRed h2)) = some h' ∧
            DelPost (.mk hk hv hl hr hc hb) h' := by
  by_cases hlr : isRed hl = true
  · -- rotate right first
    rw [if_pos hlr]
    rcases hl with _ | ⟨lk, lv, ll, lr, lc, lb⟩
    · simp at hlr
    · simp only [isRed_mk, Bool.not_eq_true'] at hlr
      subst hlr
      refine ⟨_, rfl, rfl, by simp, _, rfl, rfl, ?_, by simp, Or.inr ⟨by simp [inorder], ?_⟩, ?_⟩
      · cases hb <;> simp_all [DelPre, LL, Bal, bh]
        all_goals (try omega)
      · cases hb <;> simp_all [DelPre, LL, Bal, bh]
      · apply fix_after_right
        · cases hb <;> simp_all [DelPre, LL]
        · cases hb <;> simp_all [DelPre, Bal, bh]
        · cases hb <;> simp_all [DelPre, Bal, bh]
          all_goals (try omega)
        · simp_all [TwoNode]
        · intro h' hB' hA' r3 hL3 hbh3 hc3 c1 c2 c3
          cases hr3 : isRed r3 <;> cases hb <;>
            simp_all [DelPre, DelPost, TwoNode, LL, Bal, bh]
  · rw [if_neg hlr]
    simp only [Bool.not_eq_true] at hlr
    refine ⟨_, rfl, rfl, ?_, ?_⟩
    · intro hn
      rcases hr with _ | ⟨rk, rv, rl, rr, rc, rb⟩
      · rcases hl with _ | ⟨lk, lv, ll, lr, lc, lb⟩
        · refine ⟨rfl, rfl, rfl, ?_⟩
          cases hb <;> simp [DelPost, TwoNode, AlmostLL, LL, Bal, bh]
        · cases lb <;> simp_all [DelPre, Bal, bh]
      · simp at hn
    · simp only [Right_mk]
      by_cases hmove : (!hr.isNil && !isRed hr && !isRed hr.Left) = true
      · rw [if_pos hmove]
        rcases hr with _ | ⟨rk, rv, rl, rr, rc, rb⟩
        · simp at hmove
        · simp only [isNil_mk, isRed_mk, Left_mk, Bool.not_false, Bool.not_not, Bool.true_and,
            Bool.and_eq_true, Bool.not_eq_true'] at hmove
          obtain ⟨rfl, hrl⟩ := hmove
          rcases hl with _ | ⟨lk, lv, ll, lr, lc, lb⟩
          · simp [DelPre, Bal, bh] at hp
          · simp only [isRed_mk, Bool.not_eq_false'] at hlr
            subst hlr
            by_cases hll : isRed ll = true
            · -- rotation
              rcases ll with _ | ⟨llk, llv, lll, llr, llc, llb⟩
              · simp at hll
              · simp only [isRed_mk, Bool.not_eq_true'] at hll
                subst hll
                refine ⟨_, rfl, rfl, ?_, by simp, Or.inr ⟨by simp [inorder], ?_⟩, ?_⟩
                · cases hb <;> simp_all [DelPre, LL, Bal, bh]
                  all_goals (try omega)
                · simp
                · apply fix_after_right
                  · cases hb <;> simp_all [DelPre, LL]
                  · cases hb <;> simp_all [DelPre, Bal, bh]
                    all_goals (try omega)
                  · cases hb <;> simp_all [DelPre, Bal, bh]
                    all_goals (try omega)
                  · simp_all [TwoNode]
                  · intro h' hB' hA' r3 hL3 hbh3 hc3 c1 c2 c3
                    cases hr3 : isRed r3 <;> cases hb <;>
                      simp_all [DelPre, DelPost, TwoNode, LL, Bal, bh]
            · -- flip only
              have e : moveRedRight (.mk hk hv (.mk lk lv ll lr lc true) (.mk rk rv rl rr rc true) hc hb)
                  = some (.mk hk hv (.mk lk lv ll lr lc false) (.mk rk rv rl rr rc false) hc (!hb)) := by
                simp [moveRedRight, hll]
              refine ⟨_, e, rfl, ?_, by simp, Or.inl ⟨⟨_, _, _, _, rfl⟩, ?_⟩, ?_⟩
              · cases hb <;> simp_all [DelPre, LL, Bal, bh]
              · simp_all [DelPre, LL]
              · apply fix_after_right
                · cases hb <;> simp_all [DelPre, LL]
                · cases hb <;> simp_all [DelPre, Bal, bh]
                  all_goals (try omega)
                · cases hb <;> simp_all [DelPre, Bal, bh]
                · simp_all [TwoNode]
                · intro h' hB' hA' r3 hL3 hbh3 hc3 c1 c2 c3
                  cases hr3 : isRed r3 <;> cases hb <;>
                    simp_all [DelPre, DelPost, TwoNode, LL, Bal, bh]
      · rw [if_neg hmove]
        refine ⟨_, rfl, rfl, ?_, fun h => h, Or.inl ⟨⟨_, _, _, _, rfl⟩, ?_⟩, ?_⟩
        · rcases hr with _ | ⟨rk, rv, rl, rr, rc, rb⟩
          · simp [DelPre, Bal, LL]
          · cases rb <;> cases hb <;> simp_all [DelPre, LL, Bal, bh]
        · rcases hr with _ | ⟨rk, rv, rl, rr, rc, rb⟩
          · simp
          · cases rb <;> cases hb <;> simp_all [DelPre, LL, Bal, bh]
        · apply fix_after_right
          · simp_all [DelPre, LL]
          · simp_all [DelPre, Bal]
          · simp_all [DelPre, Bal]
          · rcases hr with _ | ⟨rk, rv, rl, rr, rc, rb⟩
            · simp [TwoNode]
            · cases rb <;> simp_all [TwoNode]
          · intro h' hB' hA' r3 hL3 hbh3 hc3 c1 c2 c3
            rcases hr with _ | ⟨rk, rv, rl, rr, rc, rb⟩
            · cases hr3 : isRed r3 <;> cases hb <;>
                simp_all [DelPre, DelPost, TwoNode, LL, Bal, bh]
            · cases hr3 : isRed r3 <;> cases hb <;> cases rb <;>
                simp_all [DelPre, DelPost, TwoNode, LL, Bal, bh]

theorem deleteMin_spec : ∀ (fuel : Nat) (h : Node K V), h.size < fuel → h.isNil = false →
    DelPre h → isRed h.Right = false →
    ∃ h' k0 v0, deleteMin fuel h = some (h', some k0) ∧ DelPost h h' ∧
      inorder h = (k0, v0) :: inorder h' ∧ h'.size + 1 = h.size ∧
      (SizeOK h → SizeOK h' ∧ h'.cnt = h.cnt - 1) := by
  intro fuel
  induction fuel with
  | zero => intro h hs; omega
  | succ fuel ih =>
    intro h hs hn hp hR
    rcases h with _ | ⟨hk, hv, hl, hr, hc, hb⟩
    · simp at hn
    · rcases hl with _ | ⟨lk, lv, ll, lr, lc, lb⟩
      · -- leftmost node: a leaf
        have hrn : hr = .nil := by
          rcases hr with _ | ⟨rk, rv, rl, rr, rc, rb⟩
          · rfl
          · cases rb <;> simp_all [DelPre, Bal, bh]
        subst hrn
        refine ⟨.nil, hk, hv, rfl, ?_, by simp [inorder], by simp [Node.size], ?_⟩
        · cases hb <;> simp [DelPost, TwoNode, AlmostLL, LL, Bal, bh]
        · simp only [SizeOK, cnt_nil, cnt_mk]
          intro hz
          exact ⟨trivial, by omega⟩
      · simp only [Right_mk] at hR
        obtain ⟨h1, e1, n1, p1, r1, nl1, -, cont⟩ := stepLeft hk hv lk lv ll lr lc lb hr hc hb hp hR
        have s1 := ite_same (fun _ _ => moveRedLeft_same) e1
        rcases h1 with _ | ⟨k1, v1, l1, r1', c1, b1⟩
        · simp at n1
        · simp only [Left_mk, Right_mk, isRed_mk, Bool.not_not] at p1 r1 nl1 cont
          have hsz : l1.size < fuel := by
            have := s1.2.2.2
            simp only [Node.size] at this hs
            omega
          obtain ⟨l2, k0, v0, e2, post2, ino2, sz2, cz2⟩ := ih l1 hsz nl1 p1 r1
          obtain ⟨h', e3, post3⟩ := cont l2 k1 v1 (c1 - 1) post2
          have s3 := fixUp_same e3
          refine ⟨h', k0, v0, ?_, post3, ?_, ?_, ?_⟩
          · simp only [deleteMin, e1, e2, finishDelete, Option.isSome_some, if_true, e3,
              Option.map_some']
          · rw [s3.1, ← s1.1]; simp [inorder, ino2]
          · have := s3.2.2.2
            have := s1.2.2.2
            simp only [Node.size] at *
            omega
          · intro hz
            have hz1 := s1.2.2.1 hz
            simp only [SizeOK] at hz1
            obtain ⟨a1, a2⟩ := cz2 hz1.2.1
            refine ⟨s3.2.2.1 ⟨by omega, a1, hz1.2.2⟩, ?_⟩
            rw [s3.2.1, ← s1.2.1]
            simp

theorem deleteMax_spec : ∀ (fuel : Nat) (h : Node K V), h.size < fuel → h.isNil = false →
    DelPre h →
    ∃ h' k0 v0, deleteMax fuel h = some (h', some k0) ∧ DelPost h h' ∧
      inorder h = inorder h' ++ [(k0, v0)] ∧ h'.size + 1 = h.size ∧
      (SizeOK h → SizeOK h' ∧ h'.cnt = h.cnt - 1) := by
  intro fuel
  induction fuel with
  | zero => intro h hs; omega
  | succ fuel ih =>
    intro h hs hn hp
    rcases h with _ | ⟨hk, hv, hl, hr, hc, hb⟩
    · simp at hn
    · obtain ⟨h1, e1, n1, leaf, h2, e2, n2, p2, nr2, -, cont⟩ := stepRight hk hv hl hr hc hb hp
      have s1 := ite_same (fun _ _ => rotateRight_same) e1
      have s2 := ite_same (fun _ _ => moveRedRight_same) e2
      rcases h1 with _ | ⟨k1, v1, l1, r1, c1, b1⟩
      · simp at n1
      · rcases r1 with _ | ⟨rk, rv, rl, rr, rc, rb⟩
        · -- the node is a leaf
          obtain ⟨eq1, rfl, rfl, post⟩ := leaf rfl
          cases eq1
          refine ⟨.nil, hk, hv, ?_, post, by simp [inorder], by simp [Node.size], ?_⟩
          · simp only [deleteMax, isRed_nil, Bool.false_eq_true, if_false]
          · simp only [SizeOK, cnt_nil, cnt_mk]
            intro hz
            exact ⟨trivial, by omega⟩
        · rcases h2 with _ | ⟨k2, v2, l2, r2, c2, b2⟩
          · simp at n2
          · simp only [Left_mk, Right_mk, isRed_mk, Bool.not_not, isNil_mk, Bool.not_false,
              Bool.true_and] at p2 nr2 cont e2
            have hsz : r2.size < fuel := by
              have := s1.2.2.2
              have := s2.2.2.2
              simp only [Node.size] at *
              omega
            obtain ⟨r3, k0, v0, e3, post3, ino3, sz3, cz3⟩ := ih r2 hsz (nr2 trivial) p2
            obtain ⟨h', e4, post4⟩ := cont r3 k2 v2 (c2 - 1) post3
            have s4 := fixUp_same e4
            refine ⟨h', k0, v0, ?_, post4, ?_, ?_, ?_⟩
            · simp only [deleteMax, e1, isRed_mk, Bool.not_not, e2, e3, finishDelete,
                Option.isSome_some, if_true, e4, Option.map_some']
            · rw [s4.1, ← s1.1, ← s2.1]; simp [inorder, ino3]
            · have := s4.2.2.2
              have := s1.2.2.2
              have := s2.2.2.2
              simp only [Node.size] at *
              omega
            · intro hz
              have hz2 := s2.2.2.1 (s1.2.2.1 hz)
              simp only [SizeOK] at hz2
              obtain ⟨a1, a2⟩ := cz3 hz2.2.2
              refine ⟨s4.2.2.1 ⟨by omega, hz2.2.1, a1⟩, ?_⟩
              rw [s4.2.1, ← s1.2.1, ← s2.2.1]
              simp

theorem erase_left_of_sorted [LinearOrder K] {A B : List K} {m k : K}
    (hs : (A ++ m :: B).Sorted (· < ·)) (h : k < m) :
    (A ++ m :: B).erase k = A.erase k ++ m :: B ∧ (k ∈ A ++ m :: B ↔ k ∈ A) := by
  simp only [List.Sorted, List.pairwise_append, List.pairwise_cons, List.mem_cons] at hs
  obtain ⟨-, ⟨hmB, -⟩, -⟩ := hs
  have n1 : k ≠ m := ne_of_lt h
  have n2 : k ∉ B := fun hm => lt_asymm h (hmB k hm)
  constructor
  · by_cases hA : k ∈ A
    · rw [List.erase_append_left _ hA]
    · rw [List.erase_append_right _ hA, List.erase_of_not_mem hA,
        List.erase_of_not_mem (by simp [n1, n2])]
  · simp [n1, n2]

theorem erase_right_of_sorted [LinearOrder K] {A B : List K} {m k : K}
    (hs : (A ++ m :: B).Sorted (· < ·)) (h : m < k) :
    (A ++ m :: B).erase k = A ++ m :: B.erase k ∧ (k ∈ A ++ m :: B ↔ k ∈ B) := by
  simp only [List.Sorted, List.pairwise_append, List.pairwise_cons, List.mem_cons] at hs
  obtain ⟨-, -, hAB⟩ := hs
  have n1 : k ≠ m := ne_of_gt h
  have n2 : k ∉ A := fun hm => lt_asymm h (hAB k hm m (Or.inl rfl))
  constructor
  · rw [List.erase_append_right _ n2, List.erase_cons_tail (by simpa using n1.symm)]
  · simp [n1, n2]

theorem erase_mid_of_sorted [LinearOrder K] {A B : List K} {m : K}
    (hs : (A ++ m :: B).Sorted (· < ·)) :
    (A ++ m :: B).erase m = A ++ B := by
  simp only [List.Sorted, List.pairwise_append, List.pairwise_cons, List.mem_cons] at hs
  obtain ⟨-, -, hAB⟩ := hs
  have n2 : m ∉ A := fun hm => lt_irrefl m (hAB m hm m (Or.inl rfl))
  rw [List.erase_append_right _ n2, List.erase_cons_head]

theorem top_le_of_append [LinearOrder K] {A B A1 B1 : List K} {m m1 : K}
    (hs : (A ++ m :: B).Sorted (· < ·)) (e : A1 ++ m1 :: B1 = A ++ m :: B)
    (hpre : ∃ rest, A1 = A ++ rest) : m ≤ m1 := by
  obtain ⟨rest, rfl⟩ := hpre
  rw [List.append_assoc] at e
  have e' := List.append_cancel_left e
  cases rest with
  | nil => simp at e'; exact le_of_eq e'.1.symm
  | cons x xs =>
    simp only [List.cons_append, List.cons.injEq] at e'
    obtain ⟨rfl, e2⟩ := e'
    simp only [List.Sorted, List.pairwise_append, List.pairwise_cons, List.mem_cons] at hs
    exact le_of_lt (hs.2.1.1 m1 (by rw [← e2]; simp))

theorem DelPre_nil : DelPre (Node.nil : Node K V) := by
  simp [DelPre, Bal, LL]

set_option maxHeartbeats 1000000 in
theorem delete_spec [LinearOrder K] [Key K] (hK : Key.Lawful K) :
    ∀ (fuel : Nat) (h : Node K V) (k : K), h.size < fuel → DelPre h → GoRight h k →
    (keys h).Sorted (· < ·) →
    ∃ h' d, delete fuel h k = some (h', d) ∧ DelPost h h' ∧
      keys h' = (keys h).erase k ∧ d = (if k ∈ keys h then some k else none) ∧
      (k ∉ keys h → inorder h' = inorder h) ∧
      h'.size + (if k ∈ keys h then 1 else 0) = h.size ∧
      (SizeOK h → SizeOK h' ∧ h'.cnt = h.cnt - (if k ∈ keys h then 1 else 0)) := by
  intro fuel
  induction fuel with
  | zero => intro h k hs; omega
  | succ fuel ih =>
    intro h k hs hp hg hsort
    rcases h with _ | ⟨hk, hv, hl, hr, hc, hb⟩
    · exact ⟨.nil, none, rfl, by simp [DelPost, AlmostLL, LL, Bal], by simp [keys, inorder],
        by simp [keys, inorder], fun _ => rfl, by simp [keys, inorder], fun _ => by simp [SizeOK, keys, inorder]⟩
    · by_cases hlt : k < hk
      · -- the key is in the left subtree, if anywhere
        have hR : isRed hr = false := by
          by_contra hne
          exact hg (by simpa using hne) hlt
        rcases hl with _ | ⟨lk, lv, ll, lr, lc, lb⟩
        · have hnm : k ∉ keys (.mk hk hv .nil hr hc hb) := by
            have hs' := hsort
            rw [keys_mk] at hs'
            have := (erase_left_of_sorted hs' hlt).2
            rw [keys_mk, this]
            simp [keys, inorder]
          refine ⟨_, none, ?_, ?_, ?_, by simp [hnm], fun _ => rfl, by simp [hnm], fun hz => ⟨hz, by simp [hnm]⟩⟩
          · simp only [delete, hK k hk, hlt, decide_True]
          · cases hb <;> simp_all [DelPre, DelPost, AlmostLL, TwoNode, LL, Bal, bh]
          · rw [List.erase_of_not_mem hnm]
        · obtain ⟨h1, e1, n1, p1, r1, nl1, pre1, cont⟩ :=
            stepLeft hk hv lk lv ll lr lc lb hr hc hb hp hR
          have s1 := ite_same (fun _ _ => moveRedLeft_same) e1
          rcases h1 with _ | ⟨k1, v1, l1, r1', c1, b1⟩
          · simp at n1
          · simp only [Left_mk, Right_mk, isRed_mk, Bool.not_not] at p1 r1 nl1 cont pre1
            have hsz : l1.size < fuel := by
              have := s1.2.2.2
              simp only [Node.size] at this hs
              omega
            have hkeys : keys l1 ++ k1 :: keys r1' = keys (.mk lk lv ll lr lc lb) ++ hk :: keys hr := by
              rw [← keys_mk k1 v1 l1 r1' c1 b1, ← keys_mk hk hv _ hr hc hb, keys, keys, s1.1]
            have hsort1 : (keys l1 ++ k1 :: keys r1').Sorted (· < ·) := by
              rw [hkeys, ← keys_mk hk hv _ hr hc hb]; exact hsort
            have hlt1 : k < k1 := by
              refine lt_of_lt_of_le hlt (top_le_of_append (by rw [← keys_mk hk hv _ hr hc hb]; exact hsort) hkeys ?_)
              obtain ⟨rest, hrest⟩ := pre1
              exact ⟨rest.map Prod.fst, by simp [keys, hrest]⟩
            have hg1 : GoRight l1 k := by
              rcases l1 with _ | ⟨a, b, c, d, e, f⟩
              · trivial
              · simp only [Right_mk] at r1
                simp [GoRight, r1]
            obtain ⟨l2, d, e2, post2, k2, d2, ino2, sz2, cz2⟩ := ih l1 k hsz p1 hg1
              (List.Pairwise.sublist (List.sublist_append_left _ _) hsort1)
            obtain ⟨h', e3, post3⟩ := cont l2 k1 v1 (if d.isSome then c1 - 1 else c1) post2
            have s3 := fixUp_same e3
            obtain ⟨er, mem⟩ := erase_left_of_sorted hsort1 hlt1
            have hmem : k ∈ keys (.mk hk hv (.mk lk lv ll lr lc lb) hr hc hb) ↔ k ∈ keys l1 := by
              rw [keys_mk, ← hkeys]; exact mem
            refine ⟨h', d, ?_, post3, ?_, ?_, ?_, ?_, ?_⟩
            · simp only [delete, hK k hk, hlt, decide_True, e1, e2, finishDelete, e3,
                Option.map_some']
            · rw [keys, s3.1, keys_mk hk hv _ hr hc hb, ← hkeys, er, ← k2]
              simp [keys, inorder]
            · rw [d2]; simp only [hmem]
            · intro hnm
              rw [s3.1, ← s1.1]
              simp [inorder, ino2 (fun hm => hnm (hmem.2 hm))]
            · have := s3.2.2.2
              have := s1.2.2.2
              simp only [hmem]
              simp only [Node.size] at *
              omega
            · intro hz
              have hz1 := s1.2.2.1 hz
              simp only [SizeOK] at hz1
              obtain ⟨a1, a2⟩ := cz2 hz1.2.1
              have hd : d.isSome = true ↔ k ∈ keys l1 := by
                rw [d2]; split <;> simp_all
              refine ⟨s3.2.2.1 ⟨?_, a1, hz1.2.2⟩, ?_⟩
              · by_cases hm : k ∈ keys l1
                · simp_all
                  omega
                · simp_all
              · rw [s3.2.1, ← s1.2.1]
                simp only [cnt_mk, hmem]
                by_cases hm : k ∈ keys l1 <;> simp_all
      · -- the key is at this node or in the right subtree, if anywhere
        obtain ⟨h1, e1, n1, leaf, h2, e2, n2, p2, nr2, kf, cont⟩ := stepRight hk hv hl hr hc hb hp
        have s1 := ite_same (fun _ _ => rotateRight_same) e1
        have s2 := ite_same (fun _ _ => moveRedRight_same) e2
        rcases h1 with _ | ⟨k1, v1, l1, r1, c1, b1⟩
        · simp at n1
        · rcases h2 with _ | ⟨k2, v2, l2, r2, c2, b2⟩
          · simp at n2
          · simp only [Left_mk, Right_mk, isRed_mk, Bool.not_not] at leaf p2 nr2 kf cont e2
            have hle : hk ≤ k := not_lt.1 hlt
            by_cases hret : (!decide (k1 < k) && r1.isNil) = true
            · -- the node is a leaf holding the key
              simp only [Bool.and_eq_true, Bool.not_eq_true', decide_eq_false_iff_not] at hret
              obtain ⟨eq1, rfl, rfl, post⟩ := leaf hret.2
              cases eq1
              have hkk : k = hk := le_antisymm (not_lt.1 hret.1) hle
              subst hkk
              refine ⟨.nil, some k, ?_, post, by simp [keys, inorder], by simp [keys, inorder],
                fun hnm => absurd (by simp [keys, inorder]) hnm, by simp [keys, inorder, Node.size], ?_⟩
              · simp only [delete, hK k k, hlt, decide_False, isRed_nil, Bool.false_eq_true,
                  if_false, lt_irrefl, Bool.not_false, isNil_nil, Bool.and_self, if_true]
              · simp only [SizeOK, cnt_nil, cnt_mk]
                intro hz
                exact ⟨trivial, by simp [keys, inorder]; omega⟩
            · have hsz : r2.size < fuel := by
                have := s1.2.2.2
                have := s2.2.2.2
                simp only [Node.size] at *
                omega
              have hkeys : keys l2 ++ k2 :: keys r2 = keys (.mk hk hv hl hr hc hb) := by
                rw [← keys_mk k2 v2 l2 r2 c2 b2, keys, keys, s2.1, s1.1]
              have hsort2 : (keys l2 ++ k2 :: keys r2).Sorted (· < ·) := by
                rw [hkeys]; exact hsort
              have hsr2 : (keys r2).Sorted (· < ·) := by
                have h3 := hsort2
                simp only [List.Sorted, List.pairwise_append, List.pairwise_cons] at h3
                exact h3.2.1.2
              by_cases hlt2 : k2 < k
              · -- go right
                have hg2 : GoRight r2 k := by
                  rcases kf with ⟨-, hnr⟩ | ⟨-, hrr⟩
                  · rcases r2 with _ | ⟨a, b, c, d, e, f⟩
                    · trivial
                    · simp only [Right_mk] at hnr
                      simp [GoRight, hnr]
                  · rcases r2 with _ | ⟨a, b, c, d, e, f⟩
                    · trivial
                    · simp only [Right_mk] at hrr
                      intro hred
                      obtain ⟨l, r, c', b', heq⟩ := hrr hred
                      cases heq
                      exact hlt
                obtain ⟨r3, d, e3, post3, k3, d3, ino3, sz3, cz3⟩ := ih r2 k hsz p2 hg2 hsr2
                obtain ⟨h', e4, post4⟩ := cont r3 k2 v2 (if d.isSome then c2 - 1 else c2) post3
                have s4 := fixUp_same e4
                obtain ⟨er, mem⟩ := erase_right_of_sorted hsort2 hlt2
                have hmem : k ∈ keys (.mk hk hv hl hr hc hb) ↔ k ∈ keys r2 := by
                  rw [← hkeys]; exact mem
                refine ⟨h', d, ?_, post4, ?_, ?_, ?_, ?_, ?_⟩
                · simp only [delete, hK k hk, hlt, decide_False, e1, hK k1 k, hret, if_false, e2,
                    hK k2 k, hlt2, decide_True, e3, finishDelete, e4, Option.map_some',
                    Bool.false_eq_true]
                · rw [keys, s4.1, ← hkeys, er, ← k3]
                  simp [keys, inorder]
                · rw [d3]; simp only [hmem]
                · intro hnm
                  rw [s4.1, ← s1.1, ← s2.1]
                  simp [inorder, ino3 (fun hm => hnm (hmem.2 hm))]
                · have := s4.2.2.2
                  have := s1.2.2.2
                  have := s2.2.2.2
                  simp only [hmem]
                  simp only [Node.size] at *
                  omega
                · intro hz
                  have hz2 := s2.2.2.1 (s1.2.2.1 hz)
                  simp only [SizeOK] at hz2
                  obtain ⟨a1, a2⟩ := cz3 hz2.2.2
                  refine ⟨s4.2.2.1 ⟨?_, hz2.2.1, a1⟩, ?_⟩
                  · by_cases hm : k ∈ keys r2
                    · simp_all
                      omega
                    · simp_all
                  · rw [s4.2.1, ← s1.2.1, ← s2.2.1]
                    simp only [cnt_mk, hmem]
                    by_cases hm : k ∈ keys r2 <;> simp_all
              · -- the key is at this node: its successor takes its place
                have hk2 : k2 = hk ∧ isRed r2.Right = false := by
                  rcases kf with ⟨⟨l, r, c', b', heq⟩, hnr⟩ | ⟨hin, -⟩
                  · cases heq; exact ⟨rfl, hnr⟩
                  · exfalso
                    have h3 := hsort2
                    simp only [List.Sorted, List.pairwise_append, List.pairwise_cons] at h3
                    have : k2 < hk := h3.2.1.1 hk (by
                      simp only [keys, List.mem_map]; exact ⟨_, hin, rfl⟩)
                    exact hlt2 (lt_of_lt_of_le this hle)
                obtain ⟨rfl, hnr⟩ := hk2
                have hkk : k = k2 := le_antisymm (not_lt.1 hlt2) hle
                subst hkk
                have hr1 : r1.isNil = false := by
                  cases hr1 : r1.isNil
                  · rfl
                  · obtain ⟨eq1, -⟩ := leaf hr1
                    cases eq1
                    simp [hr1] at hret
                obtain ⟨r3, sub, sv, e3, post3, ino3, sz3, cz3⟩ :=
                  deleteMin_spec fuel r2 hsz (nr2 hr1) p2 hnr
                obtain ⟨h', e4, post4⟩ := cont r3 sub v2 (c2 - 1) post3
                have s4 := fixUp_same e4
                have hmem : k ∈ keys (.mk k hv hl hr hc hb) := by
                  rw [← hkeys]; simp
                refine ⟨h', some k, ?_, post4, ?_, by simp [hmem], fun hnm => absurd hmem hnm,
                  ?_, ?_⟩
                · simp only [delete, hK k k, hlt, decide_False, e1, hK k1 k, hret, if_false, e2,
                    e3, finishDelete, Option.isSome_some, if_true, e4, Option.map_some',
                    Bool.false_eq_true]
                · rw [keys, s4.1, ← hkeys, erase_mid_of_sorted hsort2]
                  simp [keys, inorder, ino3]
                · have := s4.2.2.2
                  have := s1.2.2.2
                  have := s2.2.2.2
                  simp only [hmem, if_true]
                  simp only [Node.size] at *
                  omega
                · intro hz
                  have hz2 := s2.2.2.1 (s1.2.2.1 hz)
                  simp only [SizeOK] at hz2
                  obtain ⟨a1, a2⟩ := cz3 hz2.2.2
                  refine ⟨s4.2.2.1 ⟨by omega, hz2.2.1, a1⟩, ?_⟩
                  rw [s4.2.1, ← s1.2.1, ← s2.2.1]
                  simp [hmem]

theorem Len_eq_cnt (t : LLRB K V) : t.Len = t.root.cnt := by
  rcases t with ⟨_ | ⟨k, v, l, r, c, b⟩⟩ <;> rfl

theorem blackenRoot_same (h : Node K V) : Same h (blackenRoot h) := by
  rcases h with _ | ⟨k, v, l, r, c, b⟩
  · exact Same.refl _
  · exact ⟨rfl, rfl, by simp [blackenRoot, SizeOK], rfl⟩

theorem blackenRoot_of_DelPost {h h' : Node K V} (hp : DelPost h h') :
    LL (blackenRoot h') ∧ Bal (blackenRoot h') ∧ isRed (blackenRoot h') = false := by
  rcases h' with _ | ⟨k, v, l, r, c, b⟩
  · simp [blackenRoot, LL, Bal]
  · obtain ⟨hB, hA, -⟩ := hp
    simp_all [blackenRoot, AlmostLL, LL, Bal]

theorem DelPre_root {h : Node K V} (hL : LL h) (hB : Bal h) (hc : isRed h = false) :
    DelPre h ∧ isRed h.Right = false := by
  rcases h with _ | ⟨k, v, l, r, c, b⟩
  · simp [DelPre, LL, Bal]
  · simp_all [DelPre, LL, Bal]

theorem GoRight_of_black_right [LT K] {h : Node K V} (k : K) (hr : isRed h.Right = false) :
    GoRight h k := by
  rcases h with _ | ⟨a, b, c, d, e, f⟩
  · trivial
  · simp only [Right_mk] at hr
    simp [GoRight, hr]

/-- What `Delete` does on a balanced tree with strictly increasing keys. -/
theorem Delete_spec [LinearOrder K] [Key K] (hK : Key.Lawful K) (t : LLRB K V) (k : K)
    (hs : (keys t.root).Sorted (· < ·)) (hInv : t.Balanced23) :
    ∃ t1 d, t.Delete k = some (t1, d) ∧ t1.Balanced23 ∧
      keys t1.root = (keys t.root).erase k ∧
      d = (if k ∈ keys t.root then some k else none) ∧
      (k ∉ keys t.root → inorder t1.root = inorder t.root) ∧
      (SizeOK t.root →
        SizeOK t1.root ∧ t1.Len = t.Len - (if k ∈ keys t.root then 1 else 0)) := by
  obtain ⟨hpre, hR⟩ := DelPre_root (LL_of_balanced23 hInv) (Bal_of_balanced23 hInv) hInv.2.2.2.2
  obtain ⟨h', d, e, post, hk, hd, hi, -, hz⟩ := delete_spec hK (t.root.size + 1) t.root k
    (Nat.lt_succ_self _) hpre (GoRight_of_black_right k hR) hs
  obtain ⟨b1, b2, b3⟩ := blackenRoot_of_DelPost post
  have sb := blackenRoot_same h'
  refine ⟨⟨blackenRoot h'⟩, d, by simp [LLRB.Delete, e], balanced23_of b1 b2 b3, ?_, hd, ?_, ?_⟩
  · rw [keys, sb.1]; exact hk
  · intro hn; rw [sb.1]; exact hi hn
  · intro hsz
    obtain ⟨z1, z2⟩ := hz hsz
    exact ⟨sb.2.2.1 z1, by rw [Len_eq_cnt, Len_eq_cnt, sb.2.1, z2]⟩

/-- What `DeleteMin` does on a non-empty balanced tree. -/
theorem DeleteMin_spec (t : LLRB K V) (hInv : t.Balanced23) (hn : t.root.isNil = false) :
    ∃ t1 k0 v0, t.DeleteMin = some (t1, some k0) ∧ t1.Balanced23 ∧
      inorder t.root = (k0, v0) :: inorder t1.root ∧
      (SizeOK t.root → SizeOK t1.root ∧ t1.Len = t.Len - 1) := by
  obtain ⟨hpre, hR⟩ := DelPre_root (LL_of_balanced23 hInv) (Bal_of_balanced23 hInv) hInv.2.2.2.2
  obtain ⟨h', k0, v0, e, post, hi, -, hz⟩ := deleteMin_spec (t.root.size + 1) t.root
    (Nat.lt_succ_self _) hn hpre hR
  obtain ⟨b1, b2, b3⟩ := blackenRoot_of_DelPost post
  have sb := blackenRoot_same h'
  refine ⟨⟨blackenRoot h'⟩, k0, v0, by simp [LLRB.DeleteMin, e], balanced23_of b1 b2 b3, ?_, ?_⟩
  · rw [sb.1]; exact hi
  · intro hsz
    obtain ⟨z1, z2⟩ := hz hsz
    exact ⟨sb.2.2.1 z1, by rw [Len_eq_cnt, Len_eq_cnt, sb.2.1, z2]⟩

/-- What `DeleteMax` does on a non-empty balanced tree. -/
theorem DeleteMax_spec (t : LLRB K V) (hInv : t.Balanced23) (hn : t.root.isNil = false) :
    ∃ t1 k0 v0, t.DeleteMax = some (t1, some k0) ∧ t1.Balanced23 ∧
      inorder t.root = inorder t1.root ++ [(k0, v0)] ∧
      (SizeOK t.root → SizeOK t1.root ∧ t1.Len = t.Len - 1) := by
  obtain ⟨hpre, -⟩ := DelPre_root (LL_of_balanced23 hInv) (Bal_of_balanced23 hInv) hInv.2.2.2.2
  obtain ⟨h', k0, v0, e, post, hi, -, hz⟩ := deleteMax_spec (t.root.size + 1) t.root
    (Nat.lt_succ_self _) hn hpre
  obtain ⟨b1, b2, b3⟩ := blackenRoot_of_DelPost post
  have sb := blackenRoot_same h'
  refine ⟨⟨blackenRoot h'⟩, k0, v0, by simp [LLRB.DeleteMax, e], balanced23_of b1 b2 b3, ?_, ?_⟩
  · rw [sb.1]; exact hi
  · intro hsz
    obtain ⟨z1, z2⟩ := hz hsz
    exact ⟨sb.2.2.1 z1, by rw [Len_eq_cnt, Len_eq_cnt, sb.2.1, z2]⟩

/-- On the empty tree `DeleteMin` returns nothing and leaves the tree empty. -/
theorem DeleteMin_empty : (New : LLRB K V).DeleteMin = some (New, none) := rfl

/-- On the empty tree `DeleteMax` returns nothing and leaves the tree empty. -/
theorem DeleteMax_empty : (New : LLRB K V).DeleteMax = some (New, none) := rfl

end Delete

section IndexBrackets

variable {K V : Type}

theorem countP_lt_of_all_lt [LinearOrder K] {l : List K} {k : K} (h : ∀ x ∈ l, x < k) :
    l.countP (· < k) = l.length := by
  rw [List.countP_eq_length]
  intro x hx
  simpa using h x hx

theorem countP_lt_of_all_ge [LinearOrder K] {l : List K} {k : K} (h : ∀ x ∈ l, k ≤ x) :
    l.countP (· < k) = 0 := by
  rw [List.countP_eq_zero]
  intro x hx
  simpa using h x hx

theorem countP_le_of_all_le [LinearOrder K] {l : List K} {k : K} (h : ∀ x ∈ l, x ≤ k) :
    l.countP (· ≤ k) = l.length := by
  rw [List.countP_eq_length]
  intro x hx
  simpa using h x hx

theorem countP_le_of_all_gt [LinearOrder K] {l : List K} {k : K} (h : ∀ x ∈ l, k < x) :
    l.countP (· ≤ k) = 0 := by
  rw [List.countP_eq_zero]
  intro x hx
  simpa using h x hx

theorem indexOfGreaterOrEqual_spec [LinearOrder K] [Key K] (hK : Key.Lawful K) (h : Node K V)
    (k : K) (i : Int) (hs : (keys h).Sorted (· < ·)) (hz : SizeOK h) :
    indexOfGreaterOrEqual h k i = some (i + ((keys h).countP (· < k) : Nat)) := by
  induction h generalizing i with
  | nil => simp [indexOfGreaterOrEqual, keys, inorder]
  | mk hk hv hl hr hc hb ihl ihr =>
    rw [keys_mk] at hs ⊢
    simp only [List.Sorted, List.pairwise_append, List.pairwise_cons, List.mem_cons] at hs
    obtain ⟨sl, ⟨hkr, sr⟩, hlr⟩ := hs
    simp only [SizeOK] at hz
    have hlk : ∀ x ∈ keys hl, x < hk := fun x hx => hlr x hx hk (Or.inl rfl)
    simp only [indexOfGreaterOrEqual, hK k hk, hK hk k]
    rcases lt_trichotomy k hk with hlt | heq | hgt
    · have c1 := countP_lt_of_all_ge (l := keys hr) (k := k)
        (fun x hx => le_of_lt (lt_trans hlt (hkr x hx)))
      simp only [hlt, decide_True]
      rw [ihl i sl hz.2.1]
      simp [c1, List.countP_cons, not_lt.2 (le_of_lt hlt)]
    · subst heq
      have n1 := countP_lt_of_all_lt hlk
      have c1 := countP_lt_of_all_ge (l := keys hr) (k := k) (fun x hx => le_of_lt (hkr x hx))
      simp [n1, c1, List.countP_cons, hz.2.1.cnt_eq, keys_length]
    · have n1 := countP_lt_of_all_lt (l := keys hl) (k := k) (fun x hx => lt_trans (hlk x hx) hgt)
      simp only [hgt, not_lt.2 (le_of_lt hgt), decide_True, decide_False]
      rw [ihr (i + hl.cnt + 1) sr hz.2.2]
      simp [n1, List.countP_cons, hgt, hz.2.1.cnt_eq, keys_length]
      omega

theorem indexOfLessOrEqual_spec [LinearOrder K] [Key K] (hK : Key.Lawful K) (h : Node K V)
    (k : K) (i : Int) (hs : (keys h).Sorted (· < ·)) (hz : SizeOK h) :
    indexOfLessOrEqual h k i = some (i + ((keys h).countP (· ≤ k) : Nat) - 1) := by
  induction h generalizing i with
  | nil => simp [indexOfLessOrEqual, keys, inorder]
  | mk hk hv hl hr hc hb ihl ihr =>
    rw [keys_mk] at hs ⊢
    simp only [List.Sorted, List.pairwise_append, List.pairwise_cons, List.mem_cons] at hs
    obtain ⟨sl, ⟨hkr, sr⟩, hlr⟩ := hs
    simp only [SizeOK] at hz
    have hlk : ∀ x ∈ keys hl, x < hk := fun x hx => hlr x hx hk (Or.inl rfl)
    simp only [indexOfLessOrEqual, hK k hk, hK hk k]
    rcases lt_trichotomy k hk with hlt | heq | hgt
    · have c1 := countP_le_of_all_gt (l := keys hr) (k := k)
        (fun x hx => lt_trans hlt (hkr x hx))
      simp only [hlt, decide_True]
      rw [ihl i sl hz.2.1]
      simp [c1, List.countP_cons, not_le.2 hlt]
    · subst heq
      have n1 := countP_le_of_all_le (l := keys hl) (k := k) (fun x hx => le_of_lt (hlk x hx))
      have c1 := countP_le_of_all_gt (l := keys hr) (k := k) hkr
      simp [n1, c1, List.countP_cons, hz.2.1.cnt_eq, keys_length]
      omega
    · have n1 := countP_le_of_all_le (l := keys hl) (k := k)
        (fun x hx => le_of_lt (lt_trans (hlk x hx) hgt))
      simp only [hgt, not_lt.2 (le_of_lt hgt), decide_True, decide_False]
      rw [ihr (i + hl.cnt + 1) sr hz.2.2]
      simp [n1, List.countP_cons, le_of_lt hgt, hz.2.1.cnt_eq, keys_length]
      omega

theorem countP_le_eq_countP_lt_succ [LinearOrder K] {l : List K} {m : K}
    (hs : l.Sorted (· < ·)) (hm : m ∈ l) :
    l.countP (· ≤ m) = l.countP (· < m) + 1 := by
  induction l with
  | nil => simp at hm
  | cons a l ih =>
    simp only [List.sorted_cons] at hs
    rcases List.mem_cons.1 hm with rfl | hm'
    · have c1 := countP_le_of_all_gt (l := l) (k := m) hs.1
      have c2 := countP_lt_of_all_ge (l := l) (k := m) (fun x hx => le_of_lt (hs.1 x hx))
      simp [List.countP_cons, c1, c2]
    · have ha : a < m := hs.1 m hm'
      simp [List.countP_cons, ha, le_of_lt ha, ih hs.2 hm']

end IndexBrackets

section Height

variable {K V : Type}

theorem height_le_bh {h : Node K V} (hL : LL h) (hB : Bal h) :
    height h ≤ 2 * bh h + (if isRed h then 1 else 0) ∧ bh h ≤ height h := by
  induction h with
  | nil => simp [height, bh]
  | mk k v l r c b ihl ihr =>
    simp only [LL, Bal] at hL hB
    obtain ⟨il1, il2⟩ := ihl hL.2.2.1 hB.2.1
    obtain ⟨ir1, ir2⟩ := ihr hL.2.2.2 hB.2.2
    have hr := hL.1
    have hbb := hB.1
    simp only [hr, Bool.false_eq_true, if_false] at ir1
    cases b
    · have hl := hL.2.1 rfl
      simp only [hl, Bool.false_eq_true, if_false] at il1
      simp only [height, bh, isRed_mk, Bool.not_false, if_true, Bool.false_eq_true, if_false]
      omega
    · simp only [height, bh, isRed_mk, Bool.not_true, if_true, Bool.false_eq_true, if_false]
      split at il1 <;> omega

theorem two_pow_bh_le_size {h : Node K V} (hB : Bal h) : 2 ^ bh h ≤ h.size + 1 := by
  induction h with
  | nil => simp [bh, Node.size]
  | mk k v l r c b ihl ihr =>
    simp only [Bal] at hB
    have il := ihl hB.2.1
    have ir := ihr hB.2.2
    rw [← hB.1] at ir
    have : 2 ^ (bh l + (if b then 1 else 0)) ≤ 2 ^ (bh l + 1) :=
      Nat.pow_le_pow_right (by decide) (by split <;> omega)
    simp only [bh, Node.size]
    rw [pow_succ] at this
    omega

theorem size_eq_length (h : Node K V) : h.size = (inorder h).length := by
  induction h with
  | nil => rfl
  | mk k v l r c b ihl ihr => simp [Node.size, inorder, ihl, ihr]; omega

/-- What `InsertNoReplace` does to the structure and the counters of a balanced
tree. -/
theorem InsertNoReplace_spec [Key K] (hK : Key.NoPanic K) (t : LLRB K V) (hInv : t.Balanced23)
    (k : K) (v : V) :
    ∃ t1, t.InsertNoReplace (some k) v = some t1 ∧ t1.Balanced23 ∧
      t1.root.size = t.root.size + 1 ∧ (SizeOK t.root → SizeOK t1.root ∧ t1.Len = t.Len + 1) := by
  obtain ⟨h1, e⟩ := insertNoReplace_isSome hK t.root k v
  obtain ⟨r, e2, p⟩ := setBlack_of_InsPost
    (insertNoReplace_struct (LL_of_balanced23 hInv) (Bal_of_balanced23 hInv) e)
  obtain ⟨z1, z2, z3⟩ := insertNoReplace_size e
  have sb := setBlack_same e2
  refine ⟨⟨r⟩, by simp [LLRB.InsertNoReplace, e, e2], balanced23_of p.1 p.2.1 p.2.2, ?_, ?_⟩
  · rw [sb.2.2.2, z3]
  · intro hz
    exact ⟨sb.2.2.1 (z2 hz), by rw [Len_eq_cnt, Len_eq_cnt, sb.2.1, z1]⟩

theorem balanced23_New : (New : LLRB K V).Balanced23 := by
  simp [New, LLRB.Balanced23, NoRedRight, NoRedRedLeft, NoTwoRedChildren, BlackBalanced,
    blackCounts]

theorem foldl_insert_spec [Key K] (hK : Key.NoPanic K) (kvs : List (K × V)) :
    ∀ t0 : LLRB K V, t0.Balanced23 →
    ∃ t, kvs.foldl (fun t p => t.bind (fun t1 => t1.InsertNoReplace (some p.1) p.2)) (some t0)
        = some t ∧ t.Balanced23 ∧ t.root.size = t0.root.size + kvs.length ∧
        (SizeOK t0.root → SizeOK t.root) := by
  induction kvs with
  | nil => intro t0 h0; exact ⟨t0, rfl, h0, rfl, id⟩
  | cons p ps ih =>
    intro t0 h0
    obtain ⟨t1, e1, b1, s1, z1⟩ := InsertNoReplace_spec hK t0 h0 p.1 p.2
    obtain ⟨t, e, b, s, z⟩ := ih t1 b1
    refine ⟨t, ?_, b, ?_, fun hz => z (z1 hz).1⟩
    · rw [List.foldl_cons, Option.some_bind, e1]
      exact e
    · rw [s, s1, List.length_cons]; omega

theorem insertAll_spec [Key K] (hK : Key.NoPanic K) (kvs : List (K × V)) :
    ∃ t, insertAll kvs = some t ∧ t.Balanced23 ∧ t.root.size = kvs.length ∧ SizeOK t.root := by
  obtain ⟨t, e, b, s, z⟩ := foldl_insert_spec hK kvs New balanced23_New
  refine ⟨t, e, b, ?_, z (by simp [New, SizeOK])⟩
  rw [s]; simp [New, Node.size]

end Height

section Iteration

variable {K V : Type}

theorem visitAll_append {σ : Type} (visit : K → σ → Bool × σ) (A B : List K) (s : σ) :
    visitAll visit (A ++ B) s =
      if (visitAll visit A s).1 then visitAll visit B (visitAll visit A s).2
      else visitAll visit A s := by
  induction A generalizing s with
  | nil => simp [visitAll]
  | cons a A ih =>
    simp only [List.cons_append, visitAll]
    rcases hv : visit a s with ⟨c, s1⟩
    cases c
    · simp
    · simp [ih]

theorem ascend_spec [LinearOrder K] [Key K] {σ : Type} (hK : Key.Lawful K) (h : Node K V) (b : K)
    (visit : K → σ → Bool × σ) (s : σ) (hs : (keys h).Sorted (· ≤ ·)) :
    ascendGreaterOrEqual h b visit s
      = some (visitAll visit ((keys h).filter (fun x => decide (b ≤ x))) s) := by
  induction h generalizing s with
  | nil => simp [ascendGreaterOrEqual, keys, inorder, visitAll]
  | mk hk hv hl hr hc hb ihl ihr =>
    rw [keys_mk] at hs ⊢
    simp only [List.Sorted, List.pairwise_append, List.pairwise_cons, List.mem_cons] at hs
    obtain ⟨sl, ⟨hkr, sr⟩, hlr⟩ := hs
    have hlk : ∀ x ∈ keys hl, x ≤ hk := fun x hx => hlr x hx hk (Or.inl rfl)
    simp only [ascendGreaterOrEqual, hK hk b]
    by_cases hlt : hk < b
    · have fl : (keys hl).filter (fun x => decide (b ≤ x)) = [] := by
        rw [List.filter_eq_nil_iff]
        intro x hx
        simpa using lt_of_le_of_lt (hlk x hx) hlt
      simp only [hlt, decide_True, ihr s sr, List.filter_append, fl, List.nil_append,
        List.filter_cons, not_le.2 hlt, decide_False, Bool.false_eq_true, if_false]
    · have hle : b ≤ hk := not_lt.1 hlt
      simp only [hlt, decide_False, ihl s sl, List.filter_append, List.filter_cons, hle,
        decide_True, if_true]
      rw [visitAll_append]
      rcases hv1 : visitAll visit (List.filter (fun x => decide (b ≤ x)) (keys hl)) s with ⟨c, s1⟩
      cases c
      · simp
      · simp only [if_true, visitAll]
        rcases hv2 : visit hk s1 with ⟨c2, s2⟩
        cases c2
        · simp
        · simp [ihr s2 sr]

theorem descend_spec [LinearOrder K] [Key K] {σ : Type} (hK : Key.Lawful K) (h : Node K V)
    (b : K) (visit : K → σ → Bool × σ) (s : σ) (hs : (keys h).Sorted (· ≤ ·)) :
    descendLessOrEqual h b visit s
      = some (visitAll visit ((keys h).filter (fun x => decide (x ≤ b))).reverse s) := by
  induction h generalizing s with
  | nil => simp [descendLessOrEqual, keys, inorder, visitAll]
  | mk hk hv hl hr hc hb ihl ihr =>
    rw [keys_mk] at hs ⊢
    simp only [List.Sorted, List.pairwise_append, List.pairwise_cons, List.mem_cons] at hs
    obtain ⟨sl, ⟨hkr, sr⟩, hlr⟩ := hs
    simp only [descendLessOrEqual, hK b hk]
    by_cases hlt : b < hk
    · have fr : (keys hr).filter (fun x => decide (x ≤ b)) = [] := by
        rw [List.filter_eq_nil_iff]
        intro x hx
        simpa using lt_of_lt_of_le hlt (hkr x hx)
      simp only [hlt, decide_True, ihl s sl, List.filter_append, fr,
        List.filter_cons, not_le.2 hlt, decide_False, Bool.false_eq_true, if_false,
        List.append_nil]
    · have hle : hk ≤ b := not_lt.1 hlt
      simp only [hlt, decide_False, ihr s sr, List.filter_append, List.filter_cons, hle,
        decide_True, if_true, List.reverse_append, List.reverse_cons, List.append_assoc,
        List.singleton_append]
      rw [visitAll_append]
      rcases hv1 : visitAll visit (List.filter (fun x => decide (x ≤ b)) (keys hr)).reverse s
        with ⟨c, s1⟩
      cases c
      · simp
      · simp only [if_true, visitAll]
        rcases hv2 : visit hk s1 with ⟨c2, s2⟩
        cases c2
        · simp
        · simp [ihl s2 sl]

theorem visitAll_recordKey (L : List K) (ary : List K) :
    visitAll recordKey L ary = (true, ary ++ L) := by
  induction L generalizing ary with
  | nil => simp [visitAll]
  | cons a L ih => simp [visitAll, recordKey, ih]

theorem visitAll_stopAt (j : Nat) (L : List K) (n : Nat) (h1 : n < j) (h2 : j ≤ n + L.length) :
    visitAll (stopAt j) L n = (false, j) := by
  induction L generalizing n with
  | nil => simp at h2; omega
  | cons a L ih =>
    simp only [List.length_cons] at h2
    by_cases hj : n + 1 = j
    · simp [visitAll, stopAt, hj]
    · have e : stopAt j a n = (true, n + 1) := by simp [stopAt, hj]
      simp only [visitAll, e]
      exact ih (n + 1) (by omega) (by omega)


/-- The keys after `InsertNoReplace` on a sorted tree: sorted again, and the old
keys with the new one. -/
theorem InsertNoReplace_keys [LinearOrder K] [Key K] (hK : Key.Lawful K) (t : LLRB K V)
    (k : K) (v : V) (hs : (keys t.root).Sorted (· ≤ ·)) :
    ∃ t1, t.InsertNoReplace (some k) v = some t1 ∧ (keys t1.root).Sorted (· ≤ ·) ∧
      (keys t1.root).Perm (k :: keys t.root) := by
  obtain ⟨h1, e⟩ := insertNoReplace_isSome hK.noPanic t.root k v
  obtain ⟨r, e2, -⟩ : ∃ r, setBlack h1 = some r ∧ True := by
    rcases h1 with _ | ⟨a, b, c, d, e', f⟩
    · have := (insertNoReplace_size e).2.2
      simp [Node.size] at this
    · exact ⟨_, rfl, trivial⟩
  obtain ⟨pre, post, i1, i2, i3, i4⟩ := insertNoReplace_inorder hK hs e
  have i2' : inorder r = pre ++ (k, v) :: post := by rw [(setBlack_same e2).1, i2]
  refine ⟨⟨r⟩, by simp [LLRB.InsertNoReplace, e, e2], ?_, ?_⟩
  · simp only [keys, i1, i2', List.map_append, List.map_cons, List.Sorted, List.pairwise_append,
      List.pairwise_cons, List.mem_map, List.mem_cons] at hs ⊢
    refine ⟨hs.1, ⟨?_, hs.2.1⟩, ?_⟩
    · rintro _ ⟨p, hp, rfl⟩
      exact le_of_lt (i4 p hp)
    · rintro _ ⟨p, hp, rfl⟩ b (rfl | ⟨q, hq, rfl⟩)
      · exact i3 p hp
      · exact hs.2.2 _ ⟨p, hp, rfl⟩ _ ⟨q, hq, rfl⟩
  · simp only [keys, i1, i2', List.map_append, List.map_cons]
    exact List.perm_middle

theorem foldl_insert_keys [LinearOrder K] [Key K] (hK : Key.Lawful K) (kvs : List (K × V)) :
    ∀ t0 : LLRB K V, (keys t0.root).Sorted (· ≤ ·) →
    ∃ t, kvs.foldl (fun t p => t.bind (fun t1 => t1.InsertNoReplace (some p.1) p.2)) (some t0)
        = some t ∧ (keys t.root).Sorted (· ≤ ·) ∧
        (keys t.root).Perm (kvs.map Prod.fst ++ keys t0.root) := by
  induction kvs with
  | nil => intro t0 h0; exact ⟨t0, rfl, h0, by simp⟩
  | cons p ps ih =>
    intro t0 h0
    obtain ⟨t1, e1, s1, p1⟩ := InsertNoReplace_keys hK t0 p.1 p.2 h0
    obtain ⟨t, e, s, q⟩ := ih t1 s1
    refine ⟨t, ?_, s, ?_⟩
    · rw [List.foldl_cons, Option.some_bind, e1]
      exact e
    · refine q.trans ?_
      simp only [List.map_cons, List.cons_append]
      exact ((List.Perm.append_left _ p1).trans List.perm_middle)

/-- The keys of a tree built with `InsertNoReplace` are the inserted keys in sorted
order. -/
theorem insertAll_keys [LinearOrder K] [Key K] (hK : Key.Lawful K) (kvs : List (K × V)) :
    ∃ t, insertAll kvs = some t ∧
      keys t.root = (kvs.map Prod.fst).insertionSort (· ≤ ·) := by
  obtain ⟨t, e, s, q⟩ := foldl_insert_keys hK kvs New (by simp [New, keys, inorder])
  refine ⟨t, e, ?_⟩
  have q1 : (keys t.root).Perm (kvs.map Prod.fst) := by
    simpa [New, keys, inorder] using q
  exact List.eq_of_perm_of_sorted (q1.trans (List.perm_insertionSort _ _).symm) s
    (List.sorted_insertionSort _ _)

end Iteration

section RoundTrip

variable {K V : Type}

/-- The example tree `tree13` is what two insertions into the empty tree
leave. -/
theorem tree13_built :
    ((some (New : LLRB Int Int)).bind (fun t => t.InsertNoReplace (some 1) 10)).bind
      (fun t => t.InsertNoReplace (some 3) 30) = some tree13 :=
  rfl

end RoundTrip

section KeepBlackHeight

variable {K V : Type}

/-- The colour and the black height of what `fixUp` returns. -/
theorem fixUp_colour (k : K) (v : V) (l r : Node K V) (c : Int) (b : Bool)
    (hLl : LL l) (hLr : LL r) (hBl : Bal l) (hBr : Bal r) (hbh : bh l = bh r)
    (h' : Node K V) (e : fixUp (.mk k v l r c b) = some h') :
    (isRed r = true → isRed l = true →
      bh h' = bh l + 1 + (if b then 0 else 1) ∧ isRed h' = b) ∧
    (isRed r = true → isRed l = false →
      bh h' = bh l + (if b then 1 else 0) ∧ isRed h' = !b) ∧
    (isRed r = false → bh h' = bh l + (if b then 1 else 0) ∧ isRed h' = !b) := by
  obtain ⟨h'', e', -, -, -, c1, c2, c3⟩ := fixUp_spec k v l r c b hLl hLr hBl hBr hbh
  rw [e] at e'
  cases e'
  exact ⟨fun a b => (c1 a b).2, fun a b => (c2 a b).2, fun a => (c3 a).2⟩

theorem keep_after (l1 r1 : Node K V) (b1 : Bool)
    (hLr : LL r1) (hBr : Bal r1) (hbh : bh l1 = bh r1) (hn : TwoNode l1 → False)
    (l2 : Node K V) (kk : K) (vv : V) (cc : Int) (h' : Node K V)
    (hpost : DelPost l1 l2) (hcol : isRed l2 = isRed l1) (hbh2 : bh l2 = bh l1)
    (e : fixUp (.mk kk vv l2 r1 cc b1) = some h') :
    (isRed r1 = true → isRed l1 = true →
      bh h' = bh l1 + 1 + (if b1 then 0 else 1) ∧ isRed h' = b1) ∧
    (isRed r1 = true → isRed l1 = false →
      bh h' = bh l1 + (if b1 then 1 else 0) ∧ isRed h' = !b1) ∧
    (isRed r1 = false → bh h' = bh l1 + (if b1 then 1 else 0) ∧ isRed h' = !b1) := by
  obtain ⟨hB2, -, hor⟩ := hpost
  rcases hor with h0 | ⟨hL2, -, -⟩
  · exact (hn h0).elim
  · have := fixUp_colour kk vv l2 r1 cc b1 hL2 hLr hB2 hBr (by omega) h' e
    rw [hcol, hbh2] at this
    exact this

theorem keep_after_right (l2 r2 : Node K V) (b2 : Bool)
    (hLl : LL l2) (hBl : Bal l2) (hbh : bh l2 = bh r2) (hn : TwoNode r2 → False)
    (r3 : Node K V) (kk : K) (vv : V) (cc : Int) (h' : Node K V)
    (hpost : DelPost r2 r3) (hcol : isRed r3 = isRed r2) (hbh3 : bh r3 = bh r2)
    (e : fixUp (.mk kk vv l2 r3 cc b2) = some h') :
    (isRed r2 = true → isRed l2 = true →
      bh h' = bh l2 + 1 + (if b2 then 0 else 1) ∧ isRed h' = b2) ∧
    (isRed r2 = true → isRed l2 = false →
      bh h' = bh l2 + (if b2 then 1 else 0) ∧ isRed h' = !b2) ∧
    (isRed r2 = false → bh h' = bh l2 + (if b2 then 1 else 0) ∧ isRed h' = !b2) := by
  obtain ⟨hB3, -, hor⟩ := hpost
  rcases hor with h0 | ⟨hL3, -, -⟩
  · exact (hn h0).elim
  · have := fixUp_colour kk vv l2 r3 cc b2 hLl hL3 hBl hB3 (by omega) h' e
    rw [hcol] at this
    exact this

set_option maxHeartbeats 1000000 in
theorem stepLeft_keep (hk : K) (hv : V) (lk : K) (lv : V) (ll lr : Node K V) (lc : Int)
    (lb : Bool) (hr : Node K V) (hc : Int) (hb : Bool)
    (hp : DelPre (.mk hk hv (.mk lk lv ll lr lc lb) hr hc hb)) (hR : isRed hr = false)
    (h1 : Node K V)
    (e1 : (if (!isRed (.mk lk lv ll lr lc lb) && !isRed ll) = true
        then moveRedLeft (.mk hk hv (.mk lk lv ll lr lc lb) hr hc hb)
        else some (.mk hk hv (.mk lk lv ll lr lc lb) hr hc hb)) = some h1)
    (l2 : Node K V) (kk : K) (vv : V) (cc : Int) (h' : Node K V)
    (hpost : DelPost h1.Left l2) (hcol : isRed l2 = isRed h1.Left) (hbh2 : bh l2 = bh h1.Left)
    (e : fixUp (.mk kk vv l2 h1.Right cc (!isRed h1)) = some h') :
    isRed h' = !hb ∧ bh h' = bh (.mk hk hv (.mk lk lv ll lr lc lb) hr hc hb) := by
  by_cases hmove : (!isRed (.mk lk lv ll lr lc lb) && !isRed ll) = true
  · rw [if_pos hmove] at e1
    simp only [isRed_mk, Bool.not_not, Bool.and_eq_true, Bool.not_eq_true'] at hmove
    obtain ⟨rfl, hll⟩ := hmove
    rcases hr with _ | ⟨rk, rv, rl, rr, rc, rb⟩
    · simp [DelPre, Bal, bh] at hp
    · simp only [isRed_mk, Bool.not_eq_false'] at hR
      subst hR
      by_cases hrl : isRed rl = true
      · rcases rl with _ | ⟨rlk, rlv, rll, rlr, rlc, rlb⟩
        · simp at hrl
        · simp only [isRed_mk, Bool.not_eq_true'] at hrl
          subst hrl
          cases e1
          have := keep_after _ _ _ (by cases hb <;> simp_all [DelPre, LL])
            (by cases hb <;> simp_all [DelPre, Bal, bh] <;> omega)
            (by cases hb <;> simp_all [DelPre, Bal, bh] <;> omega)
            (by simp_all [TwoNode]) l2 kk vv cc h' hpost hcol hbh2 e
          cases hb <;> simp_all [DelPre, LL, Bal, bh]
      · have e0 : moveRedLeft (.mk hk hv (.mk lk lv ll lr lc true) (.mk rk rv rl rr rc true) hc hb)
            = some (.mk hk hv (.mk lk lv ll lr lc false) (.mk rk rv rl rr rc false) hc (!hb)) := by
          simp [moveRedLeft, hrl]
        rw [e0] at e1
        cases e1
        have := keep_after _ _ _ (by cases hb <;> simp_all [DelPre, LL])
          (by cases hb <;> simp_all [DelPre, Bal, bh])
          (by cases hb <;> simp_all [DelPre, Bal, bh])
          (by simp_all [TwoNode]) l2 kk vv cc h' hpost hcol hbh2 e
        cases hb <;> simp_all [DelPre, LL, Bal, bh]
  · rw [if_neg hmove] at e1
    cases e1
    have := keep_after _ _ _ (by simp_all [DelPre, LL])
      (by simp_all [DelPre, Bal])
      (by simp_all [DelPre, Bal])
      (by cases lb <;> simp_all [TwoNode]) l2 kk vv cc h' hpost hcol hbh2 e
    cases lb <;> cases hb <;> simp_all [DelPre, LL, Bal, bh]

set_option maxHeartbeats 1000000 in
theorem stepRight_keep (hk : K) (hv : V) (hl hr : Node K V) (hc : Int) (hb : Bool)
    (hp : DelPre (.mk hk hv hl hr hc hb)) (h1 h2 : Node K V)
    (e1 : (if isRed hl = true then rotateRight (.mk hk hv hl hr hc hb)
        else some (.mk hk hv hl hr hc hb)) = some h1)
    (e2 : (if (!h1.Right.isNil && !isRed h1.Right && !isRed h1.Right.Left) = true
          then moveRedRight h1 else some h1) = some h2)
    (r3 : Node K V) (kk : K) (vv : V) (cc : Int) (h' : Node K V)
    (hpost : DelPost h2.Right r3) (hcol : isRed r3 = isRed h2.Right)
    (hbh3 : bh r3 = bh h2.Right)
    (e : fixUp (.mk kk vv h2.Left r3 cc (!isRed h2)) = some h') :
    isRed h' = !hb ∧ bh h' = bh (.mk hk hv hl hr hc hb) := by
  by_cases hlr : isRed hl = true
  · rw [if_pos hlr] at e1
    rcases hl with _ | ⟨lk, lv, ll, lr, lc, lb⟩
    · simp at hlr
    · simp only [isRed_mk, Bool.not_eq_true'] at hlr
      subst hlr
      cases e1
      cases e2
      have := keep_after_right _ _ _ (by cases hb <;> simp_all [DelPre, LL])
        (by cases hb <;> simp_all [DelPre, Bal, bh])
        (by cases hb <;> simp_all [DelPre, Bal, bh]; omega)
        (by simp_all [TwoNode]) r3 kk vv cc h' hpost hcol hbh3 e
      cases hb <;> simp_all [DelPre, LL, Bal, bh]
  · rw [if_neg hlr] at e1
    cases e1
    simp only [Bool.not_eq_true] at hlr
    simp only [Right_mk] at e2
    by_cases hmove : (!hr.isNil && !isRed hr && !isRed hr.Left) = true
    · rw [if_pos hmove] at e2
      rcases hr with _ | ⟨rk, rv, rl, rr, rc, rb⟩
      · simp at hmove
      · simp only [isNil_mk, isRed_mk, Left_mk, Bool.not_false, Bool.not_not, Bool.true_and,
          Bool.and_eq_true, Bool.not_eq_true'] at hmove
        obtain ⟨rfl, hrl⟩ := hmove
        rcases hl with _ | ⟨lk, lv, ll, lr, lc, lb⟩
        · simp [DelPre, Bal, bh] at hp
        · simp only [isRed_mk, Bool.not_eq_false'] at hlr
          subst hlr
          by_cases hll : isRed ll = true
          · rcases ll with _ | ⟨llk, llv, lll, llr, llc, llb⟩
            · simp at hll
            · simp only [isRed_mk, Bool.not_eq_true'] at hll
              subst hll
              cases e2
              have := keep_after_right _ _ _ (by cases hb <;> simp_all [DelPre, LL])
                (by cases hb <;> simp_all [DelPre, Bal, bh] <;> omega)
                (by cases hb <;> simp_all [DelPre, Bal, bh] <;> omega)
                (by simp_all [TwoNode]) r3 kk vv cc h' hpost hcol hbh3 e
              cases hb <;> simp_all [DelPre, LL, Bal, bh]
          · have e0 : moveRedRight
                (.mk hk hv (.mk lk lv ll lr lc true) (.mk rk rv rl rr rc true) hc hb)
                = some (.mk hk hv (.mk lk lv ll lr lc false) (.mk rk rv rl rr rc false) hc
                    (!hb)) := by
              simp [moveRedRight, hll]
            rw [e0] at e2
            cases e2
            have := keep_after_right _ _ _ (by cases hb <;> simp_all [DelPre, LL])
              (by cases hb <;> simp_all [DelPre, Bal, bh] <;> omega)
              (by cases hb <;> simp_all [DelPre, Bal, bh])
              (by simp_all [TwoNode]) r3 kk vv cc h' hpost hcol hbh3 e
            cases hb <;> simp_all [DelPre, LL, Bal, bh]
    · rw [if_neg hmove] at e2
      cases e2
      have := keep_after_right _ _ _ (by simp_all [DelPre, LL])
        (by simp_all [DelPre, Bal])
        (by simp_all [DelPre, Bal])
        (by
          rcases hr with _ | ⟨rk, rv, rl, rr, rc, rb⟩
          · simp [TwoNode]
          · cases rb <;> simp_all [TwoNode]) r3 kk vv cc h' hpost hcol hbh3 e
      rcases hr with _ | ⟨rk, rv, rl, rr, rc, rb⟩
      · cases hb <;> simp_all [DelPre, LL, Bal, bh]
      · cases hb <;> cases rb <;> simp_all [DelPre, LL, Bal, bh]

/-- A deletion walk that finds nothing to delete returns a subtree of the same
colour and the same black height. -/
theorem delete_keep [LinearOrder K] [Key K] (hK : Key.Lawful K) :
    ∀ (fuel : Nat) (h : Node K V) (k : K), h.size < fuel → DelPre h → GoRight h k →
    (keys h).Sorted (· < ·) → k ∉ keys h →
    ∃ h', delete fuel h k = some (h', none) ∧ isRed h' = isRed h ∧ bh h' = bh h := by
  intro fuel
  induction fuel with
  | zero => intro h k hs; omega
  | succ fuel ih =>
    intro h k hs hp hg hsort hnm
    rcases h with _ | ⟨hk, hv, hl, hr, hc, hb⟩
    · exact ⟨.nil, rfl, rfl, rfl⟩
    · by_cases hlt : k < hk
      · have hR : isRed hr = false := by
          by_contra hne
          exact hg (by simpa using hne) hlt
        rcases hl with _ | ⟨lk, lv, ll, lr, lc, lb⟩
        · refine ⟨_, ?_, rfl, rfl⟩
          simp only [delete, hK k hk, hlt, decide_True]
        · obtain ⟨h1, e1, n1, p1, r1, nl1, pre1, cont⟩ :=
            stepLeft hk hv lk lv ll lr lc lb hr hc hb hp hR
          have keep := stepLeft_keep hk hv lk lv ll lr lc lb hr hc hb hp hR h1 e1
          have s1 := ite_same (fun _ _ => moveRedLeft_same) e1
          rcases h1 with _ | ⟨k1, v1, l1, r1', c1, b1⟩
          · simp at n1
          · simp only [Left_mk, Right_mk, isRed_mk, Bool.not_not] at p1 r1 nl1 keep pre1 cont
            have hsz : l1.size < fuel := by
              have := s1.2.2.2
              simp only [Node.size] at this hs
              omega
            have hkeys : keys l1 ++ k1 :: keys r1' = keys (.mk lk lv ll lr lc lb) ++ hk :: keys hr := by
              rw [← keys_mk k1 v1 l1 r1' c1 b1, ← keys_mk hk hv _ hr hc hb, keys, keys, s1.1]
            have hsort1 : (keys l1 ++ k1 :: keys r1').Sorted (· < ·) := by
              rw [hkeys, ← keys_mk hk hv _ hr hc hb]; exact hsort
            have hg1 : GoRight l1 k := by
              rcases l1 with _ | ⟨a, b, c, d, e, f⟩
              · trivial
              · simp only [Right_mk] at r1
                simp [GoRight, r1]
            have hnm1 : k ∉ keys l1 := by
              intro hm
              apply hnm
              rw [keys_mk, ← hkeys]
              exact List.mem_append_left _ hm
            have hsl1 : (keys l1).Sorted (· < ·) :=
              List.Pairwise.sublist (List.sublist_append_left _ _) hsort1
            obtain ⟨l2, e2, col2, bh2⟩ := ih l1 k hsz p1 hg1 hsl1 hnm1
            obtain ⟨l2', d, e2', post2, -⟩ := delete_spec hK fuel l1 k hsz p1 hg1 hsl1
            rw [e2] at e2'
            cases e2'
            obtain ⟨h', e3, -⟩ := cont l2 k1 v1 c1 post2
            obtain ⟨c3, b3⟩ := keep l2 k1 v1 c1 h' post2 col2 bh2 e3
            refine ⟨h', ?_, by simpa using c3, b3⟩
            simp only [delete, hK k hk, hlt, decide_True, e1, e2, finishDelete, e3,
              Option.map_some', Option.isSome_none, Bool.false_eq_true, if_false]
      · obtain ⟨h1, e1, n1, leaf, h2, e2, n2, p2, nr2, kf, cont⟩ := stepRight hk hv hl hr hc hb hp
        have keep := stepRight_keep hk hv hl hr hc hb hp h1 h2 e1 e2
        have s1 := ite_same (fun _ _ => rotateRight_same) e1
        have s2 := ite_same (fun _ _ => moveRedRight_same) e2
        rcases h1 with _ | ⟨k1, v1, l1, r1, c1, b1⟩
        · simp at n1
        · rcases h2 with _ | ⟨k2, v2, l2, r2, c2, b2⟩
          · simp at n2
          · simp only [Left_mk, Right_mk, isRed_mk, Bool.not_not] at leaf p2 nr2 kf cont e2 keep
            have hle : hk ≤ k := not_lt.1 hlt
            have hkeys : keys l2 ++ k2 :: keys r2 = keys (.mk hk hv hl hr hc hb) := by
              rw [← keys_mk k2 v2 l2 r2 c2 b2, keys, keys, s2.1, s1.1]
            have hsort2 : (keys l2 ++ k2 :: keys r2).Sorted (· < ·) := by
              rw [hkeys]; exact hsort
            have hne : k ≠ hk := by
              rintro rfl
              apply hnm
              rw [keys_mk]; simp
            have hlt' : hk < k := lt_of_le_of_ne hle (Ne.symm hne)
            have hret : ¬ ((!decide (k1 < k) && r1.isNil) = true) := by
              intro hret
              simp only [Bool.and_eq_true, Bool.not_eq_true', decide_eq_false_iff_not] at hret
              obtain ⟨eq1, -⟩ := leaf hret.2
              cases eq1
              exact hret.1 hlt'
            have hsz : r2.size < fuel := by
              have := s1.2.2.2
              have := s2.2.2.2
              simp only [Node.size] at *
              omega
            have hsr2 : (keys r2).Sorted (· < ·) := by
              have h3 := hsort2
              simp only [List.Sorted, List.pairwise_append, List.pairwise_cons] at h3
              exact h3.2.1.2
            have hlt2 : k2 < k := by
              rcases kf with ⟨⟨l, r, c', b', heq⟩, -⟩ | ⟨hin, -⟩
              · cases heq; exact hlt'
              · have h3 := hsort2
                simp only [List.Sorted, List.pairwise_append, List.pairwise_cons] at h3
                have : k2 < hk := h3.2.1.1 hk (by
                  simp only [keys, List.mem_map]; exact ⟨_, hin, rfl⟩)
                exact lt_trans this hlt'
            have hg2 : GoRight r2 k := by
              rcases kf with ⟨-, hnr⟩ | ⟨-, hrr⟩
              · rcases r2 with _ | ⟨a, b, c, d, e, f⟩
                · trivial
                · simp only [Right_mk] at hnr
                  simp [GoRight, hnr]
              · rcases r2 with _ | ⟨a, b, c, d, e, f⟩
                · trivial
                · simp only [Right_mk] at hrr
                  intro hred
                  obtain ⟨l, r, c', b', heq⟩ := hrr hred
                  cases heq
                  exact hlt
            have hnm2 : k ∉ keys r2 := by
              intro hm
              apply hnm
              rw [← hkeys]
              exact List.mem_append_right _ (List.mem_cons_of_mem _ hm)
            obtain ⟨r3, e3, col3, bh3⟩ := ih r2 k hsz p2 hg2 hsr2 hnm2
            obtain ⟨r3', d, e3', post3, -⟩ := delete_spec hK fuel r2 k hsz p2 hg2 hsr2
            rw [e3] at e3'
            cases e3'
            obtain ⟨h', e4, -⟩ := cont r3 k2 v2 c2 post3
            obtain ⟨c4, b4⟩ := keep r3 k2 v2 c2 h' post3 col3 bh3 e4
            refine ⟨h', ?_, by simpa using c4, b4⟩
            simp only [delete, hK k hk, hlt, decide_False, e1, hK k1 k, hret, if_false, e2,
              hK k2 k, hlt2, decide_True, e3, finishDelete, e4, Option.map_some',
              Bool.false_eq_true, Option.isSome_none]

theorem bh_blackenRoot (h : Node K V) (hc : isRed h = false) : bh (blackenRoot h) = bh h := by
  rcases h with _ | ⟨k, v, l, r, c, b⟩
  · rfl
  · simp only [isRed_mk, Bool.not_eq_false'] at hc
    subst hc
    rfl

/-- What `Delete` does to the black height of a balanced tree when the key is
not stored. -/
theorem Delete_absent_bh [LinearOrder K] [Key K] (hK : Key.Lawful K) (t : LLRB K V) (k : K)
    (hs : (keys t.root).Sorted (· < ·)) (hInv : t.Balanced23) (hnm : k ∉ keys t.root) :
    ∃ t1, t.Delete k = some (t1, none) ∧ t1.Balanced23 ∧ bh t1.root = bh t.root := by
  obtain ⟨hpre, hR⟩ := DelPre_root (LL_of_balanced23 hInv) (Bal_of_balanced23 hInv) hInv.2.2.2.2
  obtain ⟨h', e, col, hb⟩ := delete_keep hK (t.root.size + 1) t.root k
    (Nat.lt_succ_self _) hpre (GoRight_of_black_right k hR) hs hnm
  obtain ⟨t1, d, e1, inv1, -⟩ := Delete_spec hK t k hs hInv
  have e2 : t.Delete k = some (⟨blackenRoot h'⟩, none) := by simp [LLRB.Delete, e]
  rw [e2] at e1
  cases e1
  refine ⟨_, e2, inv1, ?_⟩
  rw [← hb]
  exact bh_blackenRoot h' (by rw [col]; exact hInv.2.2.2.2)

/-- The example tree `treeSix` is what six insertions into the empty tree
leave. -/
theorem treeSix_built :
    insertAll [((2 : Int), (20 : Int)), (10, 100), (12, 120), (4, 40), (6, 60), (8, 80)]
      = some treeSix :=
  rfl

end KeepBlackHeight

end llrb

/-! ## The claims -/

namespace llrb

section Claims

variable {K V : Type}

/-- Claim C1: on a tree that satisfies the left-leaning 2-3 structure, black-balance
and black-root invariants, each of `ReplaceOrInsert`, `InsertNoReplace` and
`UpdateOrInsert` with a non-nil key returns, and the tree it leaves satisfies
them again: no red right child, no red node with a red left child, no node with
two red children, the same number of black nodes on every path from the root to
an empty position, and a black root. -/
theorem insert_preserves_balance [Key K] [Value V] (hK : Key.NoPanic K) (t : LLRB K V)
    (hInv : t.Balanced23) (k : K) (v : V) :
    (∃ t1 rep, t.ReplaceOrInsert (some k) v = some (t1, rep) ∧ t1.Balanced23) ∧
    (∃ t2, t.InsertNoReplace (some k) v = some t2 ∧ t2.Balanced23) ∧
    (∃ t3, t.UpdateOrInsert (some k) v = some t3 ∧ t3.Balanced23) := by
  have hL := LL_of_balanced23 hInv
  have hB := Bal_of_balanced23 hInv
  refine ⟨?_, ?_, ?_⟩
  · obtain ⟨⟨h1, rep⟩, e⟩ := replaceOrInsert_isSome hK t.root k v
    obtain ⟨r, e2, p⟩ := setBlack_of_InsPost (replaceOrInsert_struct hL hB e)
    exact ⟨⟨r⟩, rep, by simp [LLRB.ReplaceOrInsert, e, e2], balanced23_of p.1 p.2.1 p.2.2⟩
  · obtain ⟨h1, e⟩ := insertNoReplace_isSome hK t.root k v
    obtain ⟨r, e2, p⟩ := setBlack_of_InsPost (insertNoReplace_struct hL hB e)
    exact ⟨⟨r⟩, by simp [LLRB.InsertNoReplace, e, e2], balanced23_of p.1 p.2.1 p.2.2⟩
  · obtain ⟨h1, e⟩ := updateOrInsert_isSome hK t.root k v
    obtain ⟨r, e2, p⟩ := setBlack_of_InsPost (updateOrInsert_struct hL hB e)
    exact ⟨⟨r⟩, by simp [LLRB.UpdateOrInsert, e, e2], balanced23_of p.1 p.2.1 p.2.2⟩

/-- Witness of C1: the three insertions of key 3 into the tree holding 1 and 2. -/
theorem insert_preserves_balance_witness :
    Key.NoPanic Int ∧ tree12.Balanced23 ∧
    ((∃ t1 rep, tree12.ReplaceOrInsert (some 3) 30 = some (t1, rep) ∧ t1.Balanced23) ∧
     (∃ t2, tree12.InsertNoReplace (some 3) 30 = some t2 ∧ t2.Balanced23) ∧
     (∃ t3, tree12.UpdateOrInsert (some 3) 30 = some t3 ∧ t3.Balanced23)) :=
  ⟨noPanic_int,
   by simp [tree12, LLRB.Balanced23, NoRedRight, NoRedRedLeft, NoTwoRedChildren, BlackBalanced,
        blackCounts],
   insert_preserves_balance noPanic_int tree12
     (by simp [tree12, LLRB.Balanced23, NoRedRight, NoRedRedLeft, NoTwoRedChildren,
           BlackBalanced, blackCounts]) 3 30⟩

/-- Claim C2: on a tree with strictly increasing in-order keys (BST order) that
satisfies the left-leaning 2-3 structure, black-balance and black-root
invariants, each of `Delete(k)` (for every key `k`, stored or not), `DeleteMin()`
and `DeleteMax()` returns, and the tree it leaves satisfies the left-leaning 2-3
structure, black-balance, and has a black root or is empty. -/
theorem delete_preserves_balance [LinearOrder K] [Key K] (hK : Key.Lawful K) (t : LLRB K V)
    (hs : (keys t.root).Sorted (· < ·)) (hInv : t.Balanced23) (k : K) :
    (∃ t1 d, t.Delete k = some (t1, d) ∧ t1.Balanced23) ∧
    (∃ t2 d, t.DeleteMin = some (t2, d) ∧ t2.Balanced23) ∧
    (∃ t3 d, t.DeleteMax = some (t3, d) ∧ t3.Balanced23) := by
  refine ⟨?_, ?_, ?_⟩
  · obtain ⟨t1, d, e, b, -⟩ := Delete_spec hK t k hs hInv
    exact ⟨t1, d, e, b⟩
  · cases hn : t.root.isNil
    · obtain ⟨t1, k0, v0, e, b, -⟩ := DeleteMin_spec t hInv hn
      exact ⟨t1, some k0, e, b⟩
    · rcases t with ⟨_ | ⟨a, b, c, d, e, f⟩⟩
      · exact ⟨New, none, rfl, hInv⟩
      · simp at hn
  · cases hn : t.root.isNil
    · obtain ⟨t1, k0, v0, e, b, -⟩ := DeleteMax_spec t hInv hn
      exact ⟨t1, some k0, e, b⟩
    · rcases t with ⟨_ | ⟨a, b, c, d, e, f⟩⟩
      · exact ⟨New, none, rfl, hInv⟩
      · simp at hn

/-- Witness of C2: the three deletions on the tree holding 1, 2 and 3, with
key 2 for `Delete`. -/
theorem delete_preserves_balance_witness :
    Key.Lawful Int ∧ (keys tree123.root).Sorted (· < ·) ∧ tree123.Balanced23 ∧
    ((∃ t1 d, tree123.Delete 2 = some (t1, d) ∧ t1.Balanced23) ∧
     (∃ t2 d, tree123.DeleteMin = some (t2, d) ∧ t2.Balanced23) ∧
     (∃ t3 d, tree123.DeleteMax = some (t3, d) ∧ t3.Balanced23)) :=
  ⟨lawful_int, by simp [tree123, keys, inorder],
   by simp [tree123, LLRB.Balanced23, NoRedRight, NoRedRedLeft, NoTwoRedChildren, BlackBalanced,
        blackCounts],
   delete_preserves_balance lawful_int tree123 (by simp [tree123, keys, inorder])
     (by simp [tree123, LLRB.Balanced23, NoRedRight, NoRedRedLeft, NoTwoRedChildren,
           BlackBalanced, blackCounts]) 2⟩

/-- Claim C3: on a tree whose in-order key sequence is non-decreasing,
`InsertNoReplace(k, v)` with a non-nil key returns, and the in-order sequence of
stored pairs afterwards is the previous one with `(k, v)` put right after the
last element whose key is not greater than `k`: the previous sequence splits
into `pre ++ post` with every key of `pre` at most `k` and every key of `post`
greater than `k`, and the new sequence is `pre ++ (k, v) :: post`.  Hence the
entries with a key equal to `k` are the previous ones followed by the new
entry, and the key sequence is still non-decreasing. -/
theorem insertNoReplace_inorder_spec [LinearOrder K] [Key K] (hK : Key.Lawful K) (t : LLRB K V)
    (k : K) (v : V) (hs : (keys t.root).Sorted (· ≤ ·)) :
    ∃ t1, t.InsertNoReplace (some k) v = some t1 ∧
      (∃ pre post, inorder t.root = pre ++ post ∧ inorder t1.root = pre ++ (k, v) :: post ∧
        (∀ p ∈ pre, p.1 ≤ k) ∧ (∀ p ∈ post, k < p.1)) ∧
      (inorder t1.root).filter (fun p => p.1 = k)
        = (inorder t.root).filter (fun p => p.1 = k) ++ [(k, v)] ∧
      (keys t1.root).Sorted (· ≤ ·) := by
  obtain ⟨h1, e⟩ := insertNoReplace_isSome hK.noPanic t.root k v
  obtain ⟨r, e2, -⟩ : ∃ r, setBlack h1 = some r ∧ True := by
    rcases h1 with _ | ⟨a, b, c, d, e', f⟩
    · have := (insertNoReplace_size e).2.2
      simp [Node.size] at this
    · exact ⟨_, rfl, trivial⟩
  obtain ⟨pre, post, i1, i2, i3, i4⟩ := insertNoReplace_inorder hK hs e
  have i2' : inorder r = pre ++ (k, v) :: post := by rw [(setBlack_same e2).1, i2]
  refine ⟨⟨r⟩, by simp [LLRB.InsertNoReplace, e, e2], ⟨pre, post, i1, i2', i3, i4⟩, ?_, ?_⟩
  · have hpost : post.filter (fun p => decide (p.1 = k)) = [] := by
      rw [List.filter_eq_nil_iff]
      intro p hp
      simpa using ne_of_gt (i4 p hp)
    simp [i1, i2', List.filter_append, List.filter_cons, hpost]
  · simp only [keys, i1, i2', List.map_append, List.map_cons, List.Sorted, List.pairwise_append,
      List.pairwise_cons, List.mem_map, List.mem_cons] at hs ⊢
    refine ⟨hs.1, ⟨?_, hs.2.1⟩, ?_⟩
    · rintro _ ⟨p, hp, rfl⟩
      exact le_of_lt (i4 p hp)
    · rintro _ ⟨p, hp, rfl⟩ b (rfl | ⟨q, hq, rfl⟩)
      · exact i3 p hp
      · exact hs.2.2 _ ⟨p, hp, rfl⟩ _ ⟨q, hq, rfl⟩

/-- Witness of C3: a second entry with key 2 inserted into the tree holding 1
and 2. -/
theorem insertNoReplace_inorder_spec_witness :
    Key.Lawful Int ∧ (keys tree12.root).Sorted (· ≤ ·) ∧
    ∃ t1, tree12.InsertNoReplace (some 2) 21 = some t1 ∧
      (∃ pre post, inorder tree12.root = pre ++ post ∧
        inorder t1.root = pre ++ ((2 : Int), (21 : Int)) :: post ∧
        (∀ p ∈ pre, p.1 ≤ 2) ∧ (∀ p ∈ post, 2 < p.1)) ∧
      (inorder t1.root).filter (fun p => p.1 = 2)
        = (inorder tree12.root).filter (fun p => p.1 = 2) ++ [(2, 21)] ∧
      (keys t1.root).Sorted (· ≤ ·) :=
  ⟨lawful_int, by simp [tree12, keys, inorder],
   insertNoReplace_inorder_spec lawful_int tree12 2 21 (by simp [tree12, keys, inorder])⟩

/-- Claim C4: on a tree that satisfies the invariants of the data model (strictly
increasing keys, left-leaning 2-3 structure, black-balance, black root,
consistent counters), `Delete(k)` of a stored key `k` returns the stored key,
the in-order key sequence afterwards is the previous one with `k` removed (every
other key kept, in the same order, still strictly increasing), and `Len()` is
one less than before. -/
theorem delete_stored_key [LinearOrder K] [Key K] (hK : Key.Lawful K) (t : LLRB K V) (k : K)
    (hs : (keys t.root).Sorted (· < ·)) (hInv : t.Balanced23) (hz : SizeOK t.root)
    (hk : k ∈ keys t.root) :
    ∃ t1, t.Delete k = some (t1, some k) ∧
      keys t1.root = (keys t.root).erase k ∧
      (∀ x, x ∈ keys t1.root ↔ x ∈ keys t.root ∧ x ≠ k) ∧
      (keys t1.root).Sorted (· < ·) ∧
      t1.Len = t.Len - 1 := by
  obtain ⟨t1, d, e, -, hke, hd, -, hsz⟩ := Delete_spec hK t k hs hInv
  rw [if_pos hk] at hd
  subst hd
  have hnd : (keys t.root).Nodup := List.Sorted.nodup hs
  refine ⟨t1, e, hke, ?_, ?_, ?_⟩
  · intro x
    rw [hke, hnd.mem_erase_iff]
    tauto
  · rw [hke]
    exact List.Pairwise.sublist (List.erase_sublist _ _) hs
  · have := (hsz hz).2
    rw [if_pos hk] at this
    exact this

/-- Witness of C4: deleting key 2 from the tree holding 1, 2 and 3. -/
theorem delete_stored_key_witness :
    Key.Lawful Int ∧ (keys tree123.root).Sorted (· < ·) ∧ tree123.Balanced23 ∧
    SizeOK tree123.root ∧ (2 : Int) ∈ keys tree123.root ∧
    ∃ t1, tree123.Delete 2 = some (t1, some 2) ∧
      keys t1.root = (keys tree123.root).erase 2 ∧
      (∀ x, x ∈ keys t1.root ↔ x ∈ keys tree123.root ∧ x ≠ 2) ∧
      (keys t1.root).Sorted (· < ·) ∧
      t1.Len = tree123.Len - 1 :=
  ⟨lawful_int, by simp [tree123, keys, inorder],
   by simp [tree123, LLRB.Balanced23, NoRedRight, NoRedRedLeft, NoTwoRedChildren, BlackBalanced,
        blackCounts],
   by simp [tree123, SizeOK], by simp [tree123, keys, inorder],
   delete_stored_key lawful_int tree123 2 (by simp [tree123, keys, inorder])
     (by simp [tree123, LLRB.Balanced23, NoRedRight, NoRedRedLeft, NoTwoRedChildren,
           BlackBalanced, blackCounts])
     (by simp [tree123, SizeOK]) (by simp [tree123, keys, inorder])⟩

/-- Claim C5, the code at the failing input: in the tree holding (1, 10), (2, 20),
(3, 30) key 3 is stored with value 30; `Delete(2)` meets key 2 at the root, which
has a right child, and overwrites only the key of that node by the minimum 3 of
the right subtree, so that afterwards `Get(3)` returns key 3 with value 20, the
value of the deleted key. -/
theorem delete_keeps_value_of_deleted_node :
    tree123.Get 3 = some (some (3, 30)) ∧
    ∃ t1, tree123.Delete 2 = some (t1, some 2) ∧ t1.Get 3 = some (some (3, 20)) :=
  ⟨rfl, ⟨.mk 3 20 (.mk 1 10 .nil .nil 1 false) .nil 2 true⟩, rfl, rfl⟩

/-- Claim C6, the code at the failing input: `ReplaceOrInsert(1, 10)` on the empty
tree stores the pair and returns key 1 itself, not nil. -/
theorem replaceOrInsert_new_key_returns_key :
    (New : LLRB Int Int).ReplaceOrInsert (some 1) 10
      = some (⟨.mk 1 10 .nil .nil 1 true⟩, some 1) :=
  rfl

/-- Claim C7, the code at the failing input: `ReplaceOrInsert(3, 30)` on the tree
holding 1 and 2, whose counters are consistent and whose `Len()` is 2, adds the
key 3, yet `Len()` is still 2 afterwards and the root counter is no longer
1 plus the counters of its children. -/
theorem replaceOrInsert_new_key_keeps_len :
    SizeOK tree12.root ∧ tree12.Len = 2 ∧ (3 : Int) ∉ keys tree12.root ∧
    ∃ t1, tree12.ReplaceOrInsert (some 3) 30 = some (t1, some 3) ∧
      keys t1.root = [1, 2, 3] ∧ t1.Len = 2 ∧ ¬ SizeOK t1.root := by
  refine ⟨by simp [tree12, SizeOK], rfl, by simp [tree12, keys, inorder],
    ⟨.mk 2 20 (.mk 1 10 .nil .nil 1 true) (.mk 3 30 .nil .nil 1 true) 2 true⟩, rfl, rfl, rfl, ?_⟩
  simp [SizeOK]

/-- Claim C8, the code at the failing input: `UpdateOrInsert(1, 5)` on the tree
holding (1, 10) and (2, 20), whose counters are consistent and whose `Len()` is
2, merges the value into the stored one and adds no entry, yet the counters on
the path are incremented: `Len()` is 3 afterwards and the counters are no longer
consistent. -/
theorem updateOrInsert_stored_key_grows_len :
    SizeOK tree12.root ∧ tree12.Len = 2 ∧
    ∃ t1, tree12.UpdateOrInsert (some 1) 5 = some t1 ∧
      inorder t1.root = [(1, 15), (2, 20)] ∧ t1.Len = 3 ∧ ¬ SizeOK t1.root := by
  refine ⟨by simp [tree12, SizeOK], rfl,
    ⟨.mk 2 20 (.mk 1 15 .nil .nil 2 false) .nil 3 true⟩, rfl, rfl, rfl, ?_⟩
  simp [SizeOK]

/-- Claim C9, the code at the failing input: the tree that four calls of
`InsertNoReplace` build from (2, 10), (2, 20), (2, 30), (1, 40) satisfies the
balancing invariants, has consistent counters and `Len()` 4; `Delete(2)` on it
leaves only the two entries (1, 40) and (2, 10) with `Len()` 3, and the counters
are no longer consistent. -/
theorem delete_duplicate_breaks_size :
    ((((some (New : LLRB Int Int)).bind (fun t => t.InsertNoReplace (some 2) 10)).bind
        (fun t => t.InsertNoReplace (some 2) 20)).bind
        (fun t => t.InsertNoReplace (some 2) 30)).bind
        (fun t => t.InsertNoReplace (some 1) 40) = some treeDup ∧
    treeDup.Balanced23 ∧ SizeOK treeDup.root ∧ treeDup.Len = 4 ∧
    ∃ t1, treeDup.Delete 2 = some (t1, some 2) ∧
      inorder t1.root = [(1, 40), (2, 10)] ∧ t1.Len = 3 ∧ ¬ SizeOK t1.root := by
  refine ⟨rfl, ?_, by simp [treeDup, SizeOK], rfl,
    ⟨.mk 2 10 (.mk 1 40 .nil .nil 1 true) .nil 3 true⟩, rfl, rfl, rfl, ?_⟩
  · simp [treeDup, LLRB.Balanced23, NoRedRight, NoRedRedLeft, NoTwoRedChildren, BlackBalanced,
      blackCounts]
  · simp [SizeOK]

/-- Claim C10: on a tree with strictly increasing in-order keys and consistent
counters, `IndexOf(k)` returns `(r, true)` with `r` the number of stored keys
strictly less than `k` when a stored key equals `k`, and `(0, false)` when none
does. -/
theorem indexOf_rank [LinearOrder K] [Key K] (hK : Key.Lawful K) (t : LLRB K V) (k : K)
    (hs : (keys t.root).Sorted (· < ·)) (hz : SizeOK t.root) :
    (k ∈ keys t.root →
      t.IndexOf k = some ((((keys t.root).countP (· < k) : Nat) : Int), true)) ∧
    (k ∉ keys t.root → t.IndexOf k = some (0, false)) := by
  have h := indexOf_spec hK t.root k 0 hs hz
  constructor
  · intro hm; simpa [LLRB.IndexOf, hm] using h
  · intro hm; simpa [LLRB.IndexOf, hm] using h

/-- Witness of C10: the rank of key 3 in the tree holding 1, 2 and 3. -/
theorem indexOf_rank_witness :
    Key.Lawful Int ∧ (keys tree123.root).Sorted (· < ·) ∧ SizeOK tree123.root ∧
    (((3 : Int) ∈ keys tree123.root →
      tree123.IndexOf 3 = some ((((keys tree123.root).countP (· < 3) : Nat) : Int), true)) ∧
     ((3 : Int) ∉ keys tree123.root → tree123.IndexOf 3 = some (0, false))) :=
  ⟨lawful_int, by simp [tree123, keys, inorder], by simp [tree123, SizeOK],
   indexOf_rank lawful_int tree123 3 (by simp [tree123, keys, inorder])
     (by simp [tree123, SizeOK])⟩

/-- Claim C11: on a tree with strictly increasing in-order keys and consistent
counters, `IndexOfLessOrEqual(k)` is -1 when every stored key is greater than
`k` (the empty tree included) and otherwise the 0-based rank (the number of
stored keys below it) of the greatest stored key that is at most `k`;
`IndexOfGreaterOrEqual(k)` is `Len()` when every stored key is less than `k` and
otherwise the rank of the least stored key that is at least `k`; and when `k` is
stored both are the index that `IndexOf(k)` returns. -/
theorem index_brackets [LinearOrder K] [Key K] (hK : Key.Lawful K) (t : LLRB K V) (k : K)
    (hs : (keys t.root).Sorted (· < ·)) (hz : SizeOK t.root) :
    (∃ r, t.IndexOfLessOrEqual k = some r ∧
      ((∀ x ∈ keys t.root, k < x) → r = -1) ∧
      (∀ m ∈ keys t.root, m ≤ k → (∀ x ∈ keys t.root, x ≤ k → x ≤ m) →
        r = (((keys t.root).countP (· < m) : Nat) : Int))) ∧
    (∃ r, t.IndexOfGreaterOrEqual k = some r ∧
      ((∀ x ∈ keys t.root, x < k) → r = t.Len) ∧
      (∀ m ∈ keys t.root, k ≤ m → (∀ x ∈ keys t.root, k ≤ x → m ≤ x) →
        r = (((keys t.root).countP (· < m) : Nat) : Int))) ∧
    (k ∈ keys t.root → ∃ r, t.IndexOf k = some (r, true) ∧
      t.IndexOfLessOrEqual k = some r ∧ t.IndexOfGreaterOrEqual k = some r) := by
  have hle := indexOfLessOrEqual_spec hK t.root k 0 hs hz
  have hge := indexOfGreaterOrEqual_spec hK t.root k 0 hs hz
  have hix := indexOf_spec hK t.root k 0 hs hz
  simp only [zero_add] at hle hge hix
  refine ⟨⟨_, hle, ?_, ?_⟩, ⟨_, hge, ?_, ?_⟩, ?_⟩
  · intro hall
    rw [countP_le_of_all_gt hall]
    simp
  · intro m hm hmk hmax
    have e1 : (keys t.root).countP (· ≤ k) = (keys t.root).countP (· ≤ m) := by
      apply List.countP_congr
      intro x hx
      simp only [decide_eq_true_eq]
      exact ⟨fun h => hmax x hx h, fun h => le_trans h hmk⟩
    rw [e1, countP_le_eq_countP_lt_succ hs hm]
    push_cast
    omega
  · intro hall
    rw [countP_lt_of_all_lt hall, Len_eq_cnt, hz.cnt_eq, keys_length]
  · intro m hm hkm hmin
    have e1 : (keys t.root).countP (· < k) = (keys t.root).countP (· < m) := by
      apply List.countP_congr
      intro x hx
      simp only [decide_eq_true_eq]
      exact ⟨fun h => lt_of_lt_of_le h hkm,
        fun h => lt_of_not_le (fun hkx => not_lt.2 (hmin x hx hkx) h)⟩
    rw [e1]
  · intro hm
    refine ⟨_, by simpa [LLRB.IndexOf, hm] using hix, ?_, hge⟩
    rw [LLRB.IndexOfLessOrEqual, hle, countP_le_eq_countP_lt_succ hs hm]
    congr 1
    push_cast
    omega

/-- Witness of C11: the two bracketing indices of key 2 in the tree holding 1, 2
and 3. -/
theorem index_brackets_witness :
    Key.Lawful Int ∧ (keys tree123.root).Sorted (· < ·) ∧ SizeOK tree123.root ∧
    ((∃ r, tree123.IndexOfLessOrEqual 2 = some r ∧
      ((∀ x ∈ keys tree123.root, 2 < x) → r = -1) ∧
      (∀ m ∈ keys tree123.root, m ≤ 2 → (∀ x ∈ keys tree123.root, x ≤ 2 → x ≤ m) →
        r = (((keys tree123.root).countP (· < m) : Nat) : Int))) ∧
    (∃ r, tree123.IndexOfGreaterOrEqual 2 = some r ∧
      ((∀ x ∈ keys tree123.root, x < 2) → r = tree123.Len) ∧
      (∀ m ∈ keys tree123.root, 2 ≤ m → (∀ x ∈ keys tree123.root, 2 ≤ x → m ≤ x) →
        r = (((keys tree123.root).countP (· < m) : Nat) : Int))) ∧
    ((2 : Int) ∈ keys tree123.root → ∃ r, tree123.IndexOf 2 = some (r, true) ∧
      tree123.IndexOfLessOrEqual 2 = some r ∧ tree123.IndexOfGreaterOrEqual 2 = some r)) :=
  ⟨lawful_int, by simp [tree123, keys, inorder], by simp [tree123, SizeOK],
   index_brackets lawful_int tree123 2 (by simp [tree123, keys, inorder])
     (by simp [tree123, SizeOK])⟩

/-- Claim C12, the code at the failing input: after `ReplaceOrInsert` of the keys
0, 2, 4 into an empty tree (the run of `example/index_example.go`) the tree
holds the three keys but `Len()` is 1, `IndexOf(2)` returns `(0, true)` and
`IndexOf(4)` returns `(1, true)` instead of the ranks 1 and 2, and the absent
key 3 is bracketed by `(0, 1)` instead of `(1, 2)`. -/
theorem replaceOrInsert_breaks_ranks :
    (((some (New : LLRB Int Int)).bind
        (fun t => (t.ReplaceOrInsert (some 0) 0).map Prod.fst)).bind
        (fun t => (t.ReplaceOrInsert (some 2) 0).map Prod.fst)).bind
        (fun t => (t.ReplaceOrInsert (some 4) 0).map Prod.fst) = some tree024 ∧
    keys tree024.root = [0, 2, 4] ∧ tree024.Len = 1 ∧
    tree024.IndexOf 0 = some (0, true) ∧
    tree024.IndexOf 2 = some (0, true) ∧
    tree024.IndexOf 4 = some (1, true) ∧
    tree024.IndexOf 1 = some (0, false) ∧
    tree024.IndexOfLessOrEqual 1 = some 0 ∧ tree024.IndexOfGreaterOrEqual 1 = some 1 ∧
    tree024.IndexOf 3 = some (0, false) ∧
    tree024.IndexOfLessOrEqual 3 = some 0 ∧ tree024.IndexOfGreaterOrEqual 3 = some 1 :=
  ⟨rfl, rfl, rfl, rfl, rfl, rfl, rfl, rfl, rfl, rfl, rfl, rfl⟩

/-- Claim C13: on a non-empty tree that satisfies the balancing invariants and has
consistent counters, `DeleteMin()` returns the first key of the in-order
sequence and leaves exactly the rest of it, and `DeleteMax()` returns the last
key and leaves exactly the sequence without its last element, each with `Len()`
reduced by 1; on an empty tree both return nothing without failing and leave
the tree empty. -/
theorem deleteMin_deleteMax_content (t : LLRB K V) (hInv : t.Balanced23) (hz : SizeOK t.root) :
    (t.root.isNil = false →
      (∃ t1 k0 v0, t.DeleteMin = some (t1, some k0) ∧
        inorder t.root = (k0, v0) :: inorder t1.root ∧ t1.Len = t.Len - 1) ∧
      (∃ t2 k1 v1, t.DeleteMax = some (t2, some k1) ∧
        inorder t.root = inorder t2.root ++ [(k1, v1)] ∧ t2.Len = t.Len - 1)) ∧
    (t.root.isNil = true →
      t.DeleteMin = some (New, none) ∧ t.DeleteMax = some (New, none)) := by
  constructor
  · intro hn
    obtain ⟨t1, k0, v0, e1, -, i1, z1⟩ := DeleteMin_spec t hInv hn
    obtain ⟨t2, k1, v1, e2, -, i2, z2⟩ := DeleteMax_spec t hInv hn
    exact ⟨⟨t1, k0, v0, e1, i1, (z1 hz).2⟩, ⟨t2, k1, v1, e2, i2, (z2 hz).2⟩⟩
  · intro hn
    rcases t with ⟨_ | ⟨a, b, c, d, e, f⟩⟩
    · exact ⟨rfl, rfl⟩
    · simp at hn

/-- Witness of C13: `DeleteMin` and `DeleteMax` on the tree holding 1, 2 and 3. -/
theorem deleteMin_deleteMax_content_witness :
    tree123.Balanced23 ∧ SizeOK tree123.root ∧
    ((tree123.root.isNil = false →
      (∃ t1 k0 v0, tree123.DeleteMin = some (t1, some k0) ∧
        inorder tree123.root = (k0, v0) :: inorder t1.root ∧ t1.Len = tree123.Len - 1) ∧
      (∃ t2 k1 v1, tree123.DeleteMax = some (t2, some k1) ∧
        inorder tree123.root = inorder t2.root ++ [(k1, v1)] ∧ t2.Len = tree123.Len - 1)) ∧
    (tree123.root.isNil = true →
      tree123.DeleteMin = some (New, none) ∧ tree123.DeleteMax = some (New, none))) :=
  ⟨by simp [tree123, LLRB.Balanced23, NoRedRight, NoRedRedLeft, NoTwoRedChildren, BlackBalanced,
        blackCounts],
   by simp [tree123, SizeOK],
   deleteMin_deleteMax_content tree123
     (by simp [tree123, LLRB.Balanced23, NoRedRight, NoRedRedLeft, NoTwoRedChildren,
           BlackBalanced, blackCounts])
     (by simp [tree123, SizeOK])⟩

/-- Claim C14: on a tree that satisfies the invariants of the data model (the empty
tree included), `Delete(k)` of a key that is not stored returns nothing without
failing, and `Len()` and the in-order sequence of stored key/value pairs are
afterwards what they were before. -/
theorem delete_absent_key [LinearOrder K] [Key K] (hK : Key.Lawful K) (t : LLRB K V) (k : K)
    (hs : (keys t.root).Sorted (· < ·)) (hInv : t.Balanced23) (hz : SizeOK t.root)
    (hk : k ∉ keys t.root) :
    ∃ t1, t.Delete k = some (t1, none) ∧ t1.Len = t.Len ∧
      inorder t1.root = inorder t.root := by
  obtain ⟨t1, d, e, -, -, hd, hi, hsz⟩ := Delete_spec hK t k hs hInv
  rw [if_neg hk] at hd
  subst hd
  have := (hsz hz).2
  rw [if_neg hk] at this
  exact ⟨t1, e, by simpa using this, hi hk⟩

/-- Witness of C14: deleting the absent key 5 from the tree holding 1, 2 and 3. -/
theorem delete_absent_key_witness :
    Key.Lawful Int ∧ (keys tree123.root).Sorted (· < ·) ∧ tree123.Balanced23 ∧
    SizeOK tree123.root ∧ (5 : Int) ∉ keys tree123.root ∧
    ∃ t1, tree123.Delete 5 = some (t1, none) ∧ t1.Len = tree123.Len ∧
      inorder t1.root = inorder tree123.root :=
  ⟨lawful_int, by simp [tree123, keys, inorder],
   by simp [tree123, LLRB.Balanced23, NoRedRight, NoRedRedLeft, NoTwoRedChildren, BlackBalanced,
        blackCounts],
   by simp [tree123, SizeOK], by simp [tree123, keys, inorder],
   delete_absent_key lawful_int tree123 5 (by simp [tree123, keys, inorder])
     (by simp [tree123, LLRB.Balanced23, NoRedRight, NoRedRedLeft, NoTwoRedChildren,
           BlackBalanced, blackCounts])
     (by simp [tree123, SizeOK]) (by simp [tree123, keys, inorder])⟩

/-- Claim C15, the code at a counterexample: the tree that the insertions of 2,
10, 12, 4, 6, 8 leave satisfies the invariants of the data model, does not store
key 11 and has height 4; `Delete(11)` returns nil and leaves a tree of height 3
(the walk rotates and flips on its way down and `fixUp` does not restore the
shape on the way up). -/
theorem delete_absent_changes_height :
    insertAll [((2 : Int), (20 : Int)), (10, 100), (12, 120), (4, 40), (6, 60), (8, 80)]
      = some treeSix ∧
    (treeSix.Balanced23 ∧ SizeOK treeSix.root ∧ (keys treeSix.root).Sorted (· < ·)) ∧
    11 ∉ keys treeSix.root ∧ height treeSix.root = 4 ∧
    ∃ t1, treeSix.Delete 11 = some (t1, none) ∧ height t1.root = 3 :=
  ⟨rfl, ⟨by simp [treeSix, LLRB.Balanced23, NoRedRight, NoRedRedLeft, NoTwoRedChildren,
        BlackBalanced, blackCounts],
    by simp [treeSix, SizeOK], by simp [treeSix, keys, inorder]⟩,
   by simp [treeSix, keys, inorder], rfl, _, rfl, rfl⟩

/-- Claim C15 as amended: on a tree that satisfies the structural invariants, with
strictly increasing keys, `Delete(k)` of a key `k` that is not stored returns nil
and leaves a tree that satisfies the invariants and has the black height of the
tree before the call: every root-to-empty path after the call crosses as many
black nodes as every such path before it.  The height before the call and the
height after it therefore both lie between that black height and twice it. -/
theorem delete_absent_keeps_black_height [LinearOrder K] [Key K] (hK : Key.Lawful K)
    (t : LLRB K V) (k : K) (hs : (keys t.root).Sorted (· < ·)) (hInv : t.Balanced23)
    (hnm : k ∉ keys t.root) :
    ∃ t1, t.Delete k = some (t1, none) ∧ t1.Balanced23 ∧
      (∀ a ∈ blackCounts t1.root, ∀ b ∈ blackCounts t.root, a = b) ∧
      bh t.root ≤ height t.root ∧ height t.root ≤ 2 * bh t.root ∧
      bh t.root ≤ height t1.root ∧ height t1.root ≤ 2 * bh t.root := by
  obtain ⟨t1, e, inv1, hb⟩ := Delete_absent_bh hK t k hs hInv hnm
  have h0 := height_le_bh (LL_of_balanced23 hInv) (Bal_of_balanced23 hInv)
  have h1 := height_le_bh (LL_of_balanced23 inv1) (Bal_of_balanced23 inv1)
  rw [hInv.2.2.2.2] at h0
  rw [inv1.2.2.2.2, hb] at h1
  simp only [Bool.false_eq_true, if_false, add_zero] at h0 h1
  refine ⟨t1, e, inv1, ?_, h0.2, h0.1, h1.2, h1.1⟩
  intro a ha b hb'
  rw [(Bal_of_balanced23 inv1).blackCounts_eq a ha, (Bal_of_balanced23 hInv).blackCounts_eq b hb',
    hb]

/-- Witness of C15 as amended: `Delete(11)` on the tree holding 2, 4, 6, 8, 10,
12. -/
theorem delete_absent_keeps_black_height_witness :
    Key.Lawful Int ∧ (keys treeSix.root).Sorted (· < ·) ∧ treeSix.Balanced23 ∧
    11 ∉ keys treeSix.root ∧
    ∃ t1, treeSix.Delete 11 = some (t1, none) ∧ t1.Balanced23 ∧
      (∀ a ∈ blackCounts t1.root, ∀ b ∈ blackCounts treeSix.root, a = b) ∧
      bh treeSix.root ≤ height treeSix.root ∧ height treeSix.root ≤ 2 * bh treeSix.root ∧
      bh treeSix.root ≤ height t1.root ∧ height t1.root ≤ 2 * bh treeSix.root :=
  ⟨lawful_int, by simp [treeSix, keys, inorder],
   by simp [treeSix, LLRB.Balanced23, NoRedRight, NoRedRedLeft, NoTwoRedChildren,
        BlackBalanced, blackCounts],
   by simp [treeSix, keys, inorder],
   delete_absent_keeps_black_height lawful_int treeSix 11 (by simp [treeSix, keys, inorder])
     (by simp [treeSix, LLRB.Balanced23, NoRedRight, NoRedRedLeft, NoTwoRedChildren,
           BlackBalanced, blackCounts])
     (by simp [treeSix, keys, inorder])⟩

/-- Claim C16: for every sequence of n `InsertNoReplace` calls applied to an empty
tree (with keys whose comparison does not panic) the calls return and the
height h of the resulting tree satisfies h <= 2*log2(n+1) + 2, here with the
integer logarithm, which is at most the real one; in integer form
2^(h-2) <= (n+1)^2, and even 2^h <= (n+1)^2. -/
theorem insert_height_bound [Key K] (hK : Key.NoPanic K) (kvs : List (K × V)) :
    ∃ t, insertAll kvs = some t ∧
      height t.root ≤ 2 * Nat.log 2 (kvs.length + 1) + 2 ∧
      2 ^ (height t.root - 2) ≤ (kvs.length + 1) ^ 2 ∧
      2 ^ height t.root ≤ (kvs.length + 1) ^ 2 := by
  obtain ⟨t, e, b, s, -⟩ := insertAll_spec hK kvs
  have hL := LL_of_balanced23 b
  have hB := Bal_of_balanced23 b
  have h1 := (height_le_bh hL hB).1
  rw [b.2.2.2.2] at h1
  simp only [Bool.false_eq_true, if_false, add_zero] at h1
  have h2 := two_pow_bh_le_size hB
  rw [s] at h2
  have h3 : 2 ^ height t.root ≤ (kvs.length + 1) ^ 2 :=
    calc 2 ^ height t.root ≤ 2 ^ (2 * bh t.root) := Nat.pow_le_pow_right (by decide) h1
      _ = (2 ^ bh t.root) ^ 2 := by rw [Nat.mul_comm, pow_mul]
      _ ≤ (kvs.length + 1) ^ 2 := Nat.pow_le_pow_left h2 2
  refine ⟨t, e, ?_, ?_, h3⟩
  · have : bh t.root ≤ Nat.log 2 (kvs.length + 1) :=
      Nat.le_log_of_pow_le (by decide) h2
    omega
  · exact le_trans (Nat.pow_le_pow_right (by decide) (Nat.sub_le _ _)) h3

/-- Witness of C16: the four insertions of the iterator test. -/
theorem insert_height_bound_witness :
    Key.NoPanic Int ∧
    ∃ t, insertAll [((4 : Int), (1 : Int)), (6, 2), (1, 3), (3, 4)] = some t ∧
      height t.root ≤ 2 * Nat.log 2 ([((4 : Int), (1 : Int)), (6, 2), (1, 3), (3, 4)].length + 1) + 2 ∧
      2 ^ (height t.root - 2) ≤ ([((4 : Int), (1 : Int)), (6, 2), (1, 3), (3, 4)].length + 1) ^ 2 ∧
      2 ^ height t.root ≤ ([((4 : Int), (1 : Int)), (6, 2), (1, 3), (3, 4)].length + 1) ^ 2 :=
  ⟨noPanic_int, insert_height_bound noPanic_int [(4, 1), (6, 2), (1, 3), (3, 4)]⟩

/-- Claim C17, the code at the failing input: the tree holding (1, 10) and (3, 30)
satisfies the invariants of the data model and does not store key 2.  Inserting
(2, 20) with `InsertNoReplace`, `ReplaceOrInsert` or `UpdateOrInsert` makes 2 the
root with right child 3; `Delete(2)` then overwrites only the key of the root by
the minimum 3 of its right subtree, so that the in-order content afterwards is
(1, 10), (3, 20) and not (1, 10), (3, 30) as before the insertion. -/
theorem insert_then_delete_changes_value :
    (tree13.Balanced23 ∧ SizeOK tree13.root ∧ (keys tree13.root).Sorted (· < ·)) ∧
    inorder tree13.root = [(1, 10), (3, 30)] ∧
    (∃ t1 t2, tree13.InsertNoReplace (some 2) 20 = some t1 ∧
      t1.Delete 2 = some (t2, some 2) ∧ inorder t2.root = [(1, 10), (3, 20)]) ∧
    (∃ t1 t2, tree13.ReplaceOrInsert (some 2) 20 = some (t1, some 2) ∧
      t1.Delete 2 = some (t2, some 2) ∧ inorder t2.root = [(1, 10), (3, 20)]) ∧
    (∃ t1 t2, tree13.UpdateOrInsert (some 2) 20 = some t1 ∧
      t1.Delete 2 = some (t2, some 2) ∧ inorder t2.root = [(1, 10), (3, 20)]) :=
  ⟨⟨by simp [tree13, LLRB.Balanced23, NoRedRight, NoRedRedLeft, NoTwoRedChildren,
        BlackBalanced, blackCounts],
    by simp [tree13, SizeOK], by simp [tree13, keys, inorder]⟩,
   rfl, ⟨_, _, rfl, rfl, rfl⟩, ⟨_, _, rfl, rfl, rfl⟩, ⟨_, _, rfl, rfl, rfl⟩⟩

/-- Claim C18: for every tree built with `InsertNoReplace` from a list of
entries, and every bound `b`: the stored keys are the inserted keys in sorted
order; `AscendGreaterOrEqual(b, visit)` with the recording visitor of the tests
(which always returns true) visits exactly the stored keys that are `>= b`, in
ascending order; `DescendLessOrEqual(b, visit)` visits exactly the stored keys
that are `<= b`, in descending order; and a visitor that returns false on its
`j`-th call is called exactly `j` times, for every `j` from 1 to the number of
keys in the range. -/
theorem bounded_iteration [LinearOrder K] [Key K] (hK : Key.Lawful K) (kvs : List (K × V))
    (b : K) :
    ∃ t, insertAll kvs = some t ∧
      keys t.root = (kvs.map Prod.fst).insertionSort (· ≤ ·) ∧
      t.AscendGreaterOrEqual b recordKey []
        = some ((keys t.root).filter (fun x => decide (b ≤ x))) ∧
      t.DescendLessOrEqual b recordKey []
        = some ((keys t.root).filter (fun x => decide (x ≤ b))).reverse ∧
      (∀ j, 0 < j → j ≤ ((keys t.root).filter (fun x => decide (b ≤ x))).length →
        t.AscendGreaterOrEqual b (stopAt j) 0 = some j) ∧
      (∀ j, 0 < j → j ≤ ((keys t.root).filter (fun x => decide (x ≤ b))).length →
        t.DescendLessOrEqual b (stopAt j) 0 = some j) := by
  obtain ⟨t, e, hk⟩ := insertAll_keys hK kvs
  have hs : (keys t.root).Sorted (· ≤ ·) := by
    rw [hk]; exact List.sorted_insertionSort _ _
  refine ⟨t, e, hk, ?_, ?_, ?_, ?_⟩
  · simp [LLRB.AscendGreaterOrEqual, ascend_spec hK t.root b _ _ hs, visitAll_recordKey]
  · simp [LLRB.DescendLessOrEqual, descend_spec hK t.root b _ _ hs, visitAll_recordKey]
  · intro j h1 h2
    simp only [LLRB.AscendGreaterOrEqual, ascend_spec hK t.root b _ _ hs]
    rw [visitAll_stopAt j _ 0 h1 (by omega)]
    rfl
  · intro j h1 h2
    simp only [LLRB.DescendLessOrEqual, descend_spec hK t.root b _ _ hs]
    rw [visitAll_stopAt j _ 0 h1 (by simpa using h2)]
    rfl

/-- Witness of C18: the tree of `iterator_test.go`, keys 4, 6, 1, 3, at the bound
2, and the expected slices of the tests: `[1, 3, 4, 6]` from -1, `[3, 4, 6]` from 3
and from 2, `[6, 4, 3, 1]` down from 10, `[4, 3, 1]` down from 4 and from 5. -/
theorem bounded_iteration_witness :
    Key.Lawful Int ∧
    (∃ t, insertAll [((4 : Int), (1 : Int)), (6, 2), (1, 3), (3, 4)] = some t ∧
      keys t.root = [4, 6, 1, 3].insertionSort (· ≤ ·) ∧
      t.AscendGreaterOrEqual 2 recordKey []
        = some ((keys t.root).filter (fun x => decide (2 ≤ x))) ∧
      t.DescendLessOrEqual 2 recordKey []
        = some ((keys t.root).filter (fun x => decide (x ≤ 2))).reverse ∧
      (∀ j, 0 < j → j ≤ ((keys t.root).filter (fun x => decide (2 ≤ x))).length →
        t.AscendGreaterOrEqual 2 (stopAt j) 0 = some j) ∧
      (∀ j, 0 < j → j ≤ ((keys t.root).filter (fun x => decide (x ≤ 2))).length →
        t.DescendLessOrEqual 2 (stopAt j) 0 = some j)) ∧
    (∃ t, insertAll [((4 : Int), (1 : Int)), (6, 2), (1, 3), (3, 4)] = some t ∧
      t.AscendGreaterOrEqual (-1) recordKey [] = some [1, 3, 4, 6] ∧
      t.AscendGreaterOrEqual 3 recordKey [] = some [3, 4, 6] ∧
      t.AscendGreaterOrEqual 2 recordKey [] = some [3, 4, 6] ∧
      t.DescendLessOrEqual 10 recordKey [] = some [6, 4, 3, 1] ∧
      t.DescendLessOrEqual 4 recordKey [] = some [4, 3, 1] ∧
      t.DescendLessOrEqual 5 recordKey [] = some [4, 3, 1] ∧
      t.AscendGreaterOrEqual 2 (stopAt 2) 0 = some 2 ∧
      t.DescendLessOrEqual 5 (stopAt 1) 0 = some 1) :=
  ⟨lawful_int, bounded_iteration lawful_int [(4, 1), (6, 2), (1, 3), (3, 4)] 2,
   ⟨_, rfl, by decide⟩⟩

/-- Claim C19, the code at the failing input: `less(Int(5), Inf(1))` panics.  For
every `Int` and every `String` key the comparison with a sentinel in the first
position returns the documented answer, and with a sentinel in the second
position it panics, because `less` tests only its first argument for a
sentinel and the key's own `Less` then asserts `than.(Int)` or
`than.(String)`. -/
theorem less_sentinel_second_position_panics :
    Inf 1 = some AnyKey.pInf ∧ Inf (-1) = some AnyKey.nInf ∧
    less (AnyKey.Int 5) AnyKey.pInf = none ∧
    ∀ (i : Int) (s : String),
      (less AnyKey.pInf (AnyKey.Int i) = some false ∧
        less AnyKey.pInf (AnyKey.String s) = some false ∧
        less AnyKey.nInf (AnyKey.Int i) = some true ∧
        less AnyKey.nInf (AnyKey.String s) = some true) ∧
      (less (AnyKey.Int i) AnyKey.pInf = none ∧ less (AnyKey.String s) AnyKey.pInf = none ∧
        less (AnyKey.Int i) AnyKey.nInf = none ∧ less (AnyKey.String s) AnyKey.nInf = none) :=
  ⟨rfl, rfl, rfl, fun _ _ => ⟨⟨rfl, rfl, rfl, rfl⟩, ⟨rfl, rfl, rfl, rfl⟩⟩⟩

/-- Claim C20: on a tree that satisfies the invariants of the data model, with a
non-nil key, none of `ReplaceOrInsert`, `InsertNoReplace`, `UpdateOrInsert`,
`Delete`, `DeleteMin` and `DeleteMax` reaches an internal failure.  Every such
failure (a rotation of a node whose relevant child is missing or black, a flip
or `moveRedLeft`/`moveRedRight` of a node with a missing child, the `logic`
panic in `delete`) makes the walk return `none`, so it is enough that all six
return a result. -/
theorem no_internal_failure [LinearOrder K] [Key K] [Value V] (hK : Key.Lawful K)
    (t : LLRB K V) (hs : (keys t.root).Sorted (· < ·)) (hInv : t.Balanced23) (k : K) (v : V) :
    (t.ReplaceOrInsert (some k) v).isSome ∧ (t.InsertNoReplace (some k) v).isSome ∧
    (t.UpdateOrInsert (some k) v).isSome ∧ (t.Delete k).isSome ∧ t.DeleteMin.isSome ∧
    t.DeleteMax.isSome := by
  have hL := LL_of_balanced23 hInv
  have hB := Bal_of_balanced23 hInv
  refine ⟨?_, ?_, ?_, ?_, ?_, ?_⟩
  · obtain ⟨⟨h1, rep⟩, e⟩ := replaceOrInsert_isSome hK.noPanic t.root k v
    obtain ⟨r, e2, -⟩ := setBlack_of_InsPost (replaceOrInsert_struct hL hB e)
    simp [LLRB.ReplaceOrInsert, e, e2]
  · obtain ⟨h1, e⟩ := insertNoReplace_isSome hK.noPanic t.root k v
    obtain ⟨r, e2, -⟩ := setBlack_of_InsPost (insertNoReplace_struct hL hB e)
    simp [LLRB.InsertNoReplace, e, e2]
  · obtain ⟨h1, e⟩ := updateOrInsert_isSome hK.noPanic t.root k v
    obtain ⟨r, e2, -⟩ := setBlack_of_InsPost (updateOrInsert_struct hL hB e)
    simp [LLRB.UpdateOrInsert, e, e2]
  · obtain ⟨t1, d, e, -⟩ := Delete_spec hK t k hs hInv
    simp [e]
  · cases hn : t.root.isNil
    · obtain ⟨t1, k0, v0, e, -⟩ := DeleteMin_spec t hInv hn
      simp [e]
    · rcases t with ⟨_ | ⟨a, b, c, d, e, f⟩⟩
      · rfl
      · simp at hn
  · cases hn : t.root.isNil
    · obtain ⟨t1, k0, v0, e, -⟩ := DeleteMax_spec t hInv hn
      simp [e]
    · rcases t with ⟨_ | ⟨a, b, c, d, e, f⟩⟩
      · rfl
      · simp at hn

/-- Witness of C20: the six operations on the tree holding 1, 2 and 3. -/
theorem no_internal_failure_witness :
    Key.Lawful Int ∧ (keys tree123.root).Sorted (· < ·) ∧ tree123.Balanced23 ∧
    ((tree123.ReplaceOrInsert (some 2) 7).isSome ∧ (tree123.InsertNoReplace (some 2) 7).isSome ∧
    (tree123.UpdateOrInsert (some 2) 7).isSome ∧ (tree123.Delete 2).isSome ∧
    tree123.DeleteMin.isSome ∧ tree123.DeleteMax.isSome) :=
  ⟨lawful_int, by simp [tree123, keys, inorder],
   by simp [tree123, LLRB.Balanced23, NoRedRight, NoRedRedLeft, NoTwoRedChildren, BlackBalanced,
        blackCounts],
   no_internal_failure lawful_int tree123 (by simp [tree123, keys, inorder])
     (by simp [tree123, LLRB.Balanced23, NoRedRight, NoRedRedLeft, NoTwoRedChildren,
           BlackBalanced, blackCounts]) 2 7⟩

end Claims

end llrb
